import Mathlib

/-!
# Verification of the schedsim discrete-event scheduling simulator

A shallow embedding, over exact rational arithmetic, of `simulator.py` and
`schedulers.py` from the schedsim repository, together with theorems about the
embedded definitions.

Modelling conventions:

* Python `float` values (times, sizes, shares) are embedded as `ℚ`; jobids are
  `ℕ` (the workloads used by the repository index jobs with integers).
* Python `set`s of jobids are embedded as strictly sorted duplicate-free
  `List ℕ` in canonical (ascending) order; all operations the code performs on
  them (membership, add, remove, union, difference, len, iteration to build a
  dict of equal shares) are order-independent, so the canonical representation
  is faithful.
* Python `dict`s are embedded as association lists in insertion order, with
  `aset` overwriting in place exactly as CPython preserves the position of an
  updated key.
* The driver's event heap is embedded as a list sorted by the Python tuple
  order on `(time, kind, payload)`.  All events simultaneously present in the
  heap are pairwise distinct in that order (arrivals carry distinct jobids and
  at most one completion is ever outstanding), and popping a binary heap with
  pairwise distinct elements returns exactly the minimum, so the sorted list
  has the same pop sequence as the heap.
* Fallible Python code (KeyError, ValueError, IndexError, TypeError,
  StopIteration, ZeroDivisionError, min of an empty sequence) is embedded with
  `Except` / `Option`: `none` / `.error` marks the interpreter raising.
-/

namespace Schedsim

abbrev Jobid := ℕ
abbrev Time := ℚ

/-- The kinds of Python exceptions the embedded code can raise. -/
inductive PyErr where
  | keyError
  | valueError
  | indexError
  | typeError
  | stopIteration
  | zeroDivision
  deriving DecidableEq, Repr

/-! ## Canonical sorted jobid sets -/

/-- Insert a jobid into a sorted duplicate-free list (Python `set.add`). -/
def sinsert (j : Jobid) : List Jobid → List Jobid
  | [] => [j]
  | h :: t => if j < h then j :: h :: t else if j = h then h :: t else h :: sinsert j t

/-- Set union (Python `set.update` / `|`), keeping the canonical order. -/
def sunion (a b : List Jobid) : List Jobid := a.foldr sinsert b

/-- Set difference `a - b` (Python `set -= other`): drop members of `b`. -/
def sdiff (a b : List Jobid) : List Jobid := a.filter (fun j => decide (j ∉ b))

theorem mem_sinsert {x j : Jobid} {l : List Jobid} :
    x ∈ sinsert j l ↔ x = j ∨ x ∈ l := by
  induction l with
  | nil => simp [sinsert]
  | cons h t ih =>
    by_cases h1 : j < h
    · simp [sinsert, h1]
    · by_cases h2 : j = h
      · subst h2
        rw [sinsert, if_neg h1, if_pos rfl]
        simp only [List.mem_cons]
        tauto
      · simp only [sinsert, if_neg h1, if_neg h2, List.mem_cons, ih]
        tauto

theorem sinsert_ne_nil (j : Jobid) (l : List Jobid) : sinsert j l ≠ [] := by
  cases l with
  | nil => simp [sinsert]
  | cons h t =>
    simp only [sinsert]
    split
    · simp
    · split <;> simp

theorem mem_sunion {x : Jobid} {a b : List Jobid} :
    x ∈ sunion a b ↔ x ∈ a ∨ x ∈ b := by
  induction a with
  | nil => simp [sunion]
  | cons h t ih =>
    simp only [sunion, List.foldr_cons] at *
    rw [mem_sinsert, ih, List.mem_cons]
    tauto

theorem mem_sdiff {x : Jobid} {a b : List Jobid} :
    x ∈ sdiff a b ↔ x ∈ a ∧ x ∉ b := by
  simp [sdiff]

theorem sorted_sinsert {j : Jobid} :
    ∀ {l : List Jobid}, l.Sorted (· < ·) → (sinsert j l).Sorted (· < ·)
  | [], _ => by simp [sinsert]
  | hd :: t, h => by
    obtain ⟨hhd, ht⟩ := List.sorted_cons.mp h
    by_cases h1 : j < hd
    · rw [sinsert, if_pos h1, List.sorted_cons]
      refine ⟨fun b hb => ?_, h⟩
      rcases List.mem_cons.mp hb with rfl | hb
      · exact h1
      · exact h1.trans (hhd b hb)
    · by_cases h2 : j = hd
      · rw [sinsert, if_neg h1, if_pos h2]
        exact h
      · rw [sinsert, if_neg h1, if_neg h2, List.sorted_cons]
        refine ⟨fun b hb => ?_, sorted_sinsert ht⟩
        rcases mem_sinsert.mp hb with rfl | hb
        · exact lt_of_le_of_ne (not_lt.mp h1) (Ne.symm h2)
        · exact hhd b hb

theorem sorted_sunion {a b : List Jobid} (ha : b.Sorted (· < ·)) :
    (sunion a b).Sorted (· < ·) := by
  induction a with
  | nil => exact ha
  | cons h t ih => exact sorted_sinsert ih

theorem sorted_sdiff {a b : List Jobid} (ha : a.Sorted (· < ·)) :
    (sdiff a b).Sorted (· < ·) :=
  ha.filter _

theorem sorted_erase {j : Jobid} {l : List Jobid} (h : l.Sorted (· < ·)) :
    (l.erase j).Sorted (· < ·) :=
  h.sublist (l.erase_sublist j)

/-- Inserting the head of an already-sorted list is the identity cons. -/
theorem sinsert_head {h : Jobid} {t : List Jobid}
    (hs : (h :: t).Sorted (· < ·)) : sinsert h t = h :: t := by
  cases t with
  | nil => rfl
  | cons h' t' =>
    have : h < h' := (List.sorted_cons.mp hs).1 h' (List.mem_cons_self _ _)
    rw [sinsert, if_pos this]

theorem sunion_nil {l : List Jobid} (h : l.Sorted (· < ·)) : sunion l [] = l := by
  induction l with
  | nil => rfl
  | cons hd t ih =>
    have ht : t.Sorted (· < ·) := (List.sorted_cons.mp h).2
    show sinsert hd (sunion t []) = hd :: t
    rw [ih ht]
    exact sinsert_head h

/-! ## Association lists embedding Python dicts (insertion order) -/

/-- Dict lookup: `d[k]`, as an `Option`. -/
def alookup {α : Type} (k : ℕ) : List (ℕ × α) → Option α
  | [] => none
  | (k', v) :: t => if k = k' then some v else alookup k t

/-- Dict store `d[k] = v`: overwrite in place, or append a fresh key at the
end, exactly as CPython's insertion-ordered dicts behave. -/
def aset {α : Type} (k : ℕ) (v : α) : List (ℕ × α) → List (ℕ × α)
  | [] => [(k, v)]
  | (k', v') :: t => if k = k' then (k, v) :: t else (k', v') :: aset k v t

/-- Dict delete `del d[k]` (the caller checks presence). -/
def aerase {α : Type} (k : ℕ) : List (ℕ × α) → List (ℕ × α)
  | [] => []
  | (k', v') :: t => if k = k' then t else (k', v') :: aerase k t

/-- The list of keys of an association list. -/
def akeys {α : Type} (l : List (ℕ × α)) : List ℕ := l.map Prod.fst

theorem alookup_aset {α : Type} {k k' : ℕ} {v : α} {l : List (ℕ × α)} :
    alookup k (aset k' v l) = if k = k' then some v else alookup k l := by
  induction l with
  | nil => by_cases h : k = k' <;> simp [aset, alookup, h]
  | cons p t ih =>
    obtain ⟨pk, pv⟩ := p
    by_cases h1 : k' = pk
    · subst h1
      by_cases h2 : k = k' <;> simp [aset, alookup, h2]
    · by_cases h2 : k = pk
      · subst h2
        have : ¬ k = k' := fun h => h1 (h ▸ rfl)
        simp [aset, h1, alookup, this]
      · simp [aset, h1, alookup, h2, ih]

theorem alookup_isSome_iff_mem_akeys {α : Type} {k : ℕ} :
    ∀ {l : List (ℕ × α)}, (alookup k l).isSome ↔ k ∈ akeys l
  | [] => by simp [alookup, akeys]
  | (pk, pv) :: t => by
    by_cases h : k = pk
    · subst h; simp [alookup, akeys]
    · rw [alookup, if_neg h]
      rw [alookup_isSome_iff_mem_akeys (l := t)]
      simp [akeys, h]

theorem alookup_eq_none_iff {α : Type} {k : ℕ} {l : List (ℕ × α)} :
    alookup k l = none ↔ k ∉ akeys l := by
  rw [← alookup_isSome_iff_mem_akeys]
  cases alookup k l <;> simp

theorem alookup_aerase {α : Type} {k k' : ℕ} {l : List (ℕ × α)}
    (hnd : (akeys l).Nodup) :
    alookup k (aerase k' l) = if k = k' then none else alookup k l := by
  induction l with
  | nil => by_cases h : k = k' <;> simp [aerase, alookup, h]
  | cons p t ih =>
    obtain ⟨pk, pv⟩ := p
    simp only [akeys, List.map_cons, List.nodup_cons] at hnd
    by_cases h1 : k' = pk
    · subst h1
      by_cases h2 : k = k'
      · subst h2
        rw [aerase, if_pos rfl, if_pos rfl]
        exact alookup_eq_none_iff.mpr hnd.1
      · simp [aerase, alookup, h2]
    · by_cases h2 : k = pk
      · subst h2
        have : ¬ k = k' := fun h => h1 (h ▸ rfl)
        simp [aerase, h1, alookup, this]
      · simp [aerase, h1, alookup, h2, ih (hnd.2)]

theorem akeys_aset {α : Type} {k : ℕ} {v : α} :
    ∀ {l : List (ℕ × α)}, k ∈ akeys l → akeys (aset k v l) = akeys l
  | [], h => by simp [akeys] at h
  | (pk, pv) :: t, h => by
    by_cases h1 : k = pk
    · subst h1; simp [aset, akeys]
    · have ht : k ∈ akeys t := by
        simp only [akeys, List.map_cons, List.mem_cons] at h
        exact h.resolve_left h1
      simp only [aset, if_neg h1, akeys, List.map_cons]
      rw [show (aset k v t).map Prod.fst = akeys (aset k v t) from rfl,
        akeys_aset ht]
      rfl

theorem akeys_aset_fresh {α : Type} {k : ℕ} {v : α} :
    ∀ {l : List (ℕ × α)}, k ∉ akeys l → akeys (aset k v l) = akeys l ++ [k]
  | [], _ => rfl
  | (pk, pv) :: t, h => by
    have h1 : ¬ k = pk := by
      intro he; exact h (he ▸ List.mem_cons_self _ _)
    have ht : k ∉ akeys t := by
      intro hm; exact h (List.mem_cons_of_mem _ hm)
    simp only [aset, if_neg h1, akeys, List.map_cons, List.cons_append]
    rw [show (aset k v t).map Prod.fst = akeys (aset k v t) from rfl,
      akeys_aset_fresh ht]
    rfl

theorem akeys_aerase {α : Type} {k : ℕ} :
    ∀ {l : List (ℕ × α)}, (akeys l).Nodup →
      akeys (aerase k l) = (akeys l).erase k
  | [], _ => rfl
  | (pk, pv) :: t, hnd => by
    by_cases h1 : k = pk
    · subst h1
      simp [aerase, akeys, List.erase_cons_head]
    · have h2 : ¬ pk = k := fun h => h1 (h ▸ rfl)
      simp only [aerase, if_neg h1, akeys, List.map_cons]
      rw [List.erase_cons_tail]
      · rw [show (aerase k t).map Prod.fst = akeys (aerase k t) from rfl,
          akeys_aerase (List.nodup_cons.mp hnd).2]
        rfl
      · simp [h2]

/-! ## Allocations

`schedule(t)` returns a Python dict mapping jobid to share.  We embed it as an
association list with pairwise distinct keys; the policies below emit it with
keys in canonical (ascending jobid) order, except FIFO-like single-job
allocations, which are singletons anyway. -/

abbrev Alloc := List (Jobid × ℚ)

/-- Sum of the shares of an allocation (`sum(schedule.values())`). -/
def allocSum (a : Alloc) : ℚ := (a.map Prod.snd).sum

/-- Equal-share allocation over a set of jobids: `{jobid: share for jobid in s}`
with `share = 1 / len(s)`. -/
def equalShares (s : List Jobid) : Alloc :=
  s.map (fun j => (j, (s.length : ℚ)⁻¹))

theorem allocSum_equalShares {s : List Jobid} (h : s ≠ []) :
    allocSum (equalShares s) = 1 := by
  have hlen : (s.length : ℚ) ≠ 0 := by
    have := List.length_pos.mpr h
    positivity
  have : (equalShares s).map Prod.snd = List.replicate s.length (s.length : ℚ)⁻¹ := by
    simp [equalShares, List.map_map, Function.comp_def, List.eq_replicate_iff]
  rw [allocSum, this, List.sum_replicate, nsmul_eq_mul, mul_inv_cancel₀ hlen]

theorem equalShares_pos {s : List Jobid} {j : Jobid} {q : ℚ}
    (hmem : (j, q) ∈ equalShares s) : 0 < q := by
  obtain ⟨x, hx, heq⟩ := List.mem_map.mp hmem
  obtain ⟨rfl, rfl⟩ := Prod.mk.injEq .. ▸ heq
  have : s ≠ [] := by rintro rfl; simp at hx
  have : (0 : ℚ) < s.length := by exact_mod_cast List.length_pos.mpr this
  simp only [inv_pos]
  exact this

/-! ## The PS policy (`schedulers.PS`) -/

namespace PS

/-- PS state: the set of running jobids (`self.running`). -/
abbrev State := List Jobid

def init : State := []

/-- `PS.enqueue`: `self.running.add(jobid)`. -/
def enqueue (_t : Time) (j : Jobid) (_size : ℚ) (s : State) : State := sinsert j s

/-- `PS.dequeue`: `self.running.remove(jobid)`, raising ValueError if absent. -/
def dequeue (_t : Time) (j : Jobid) (s : State) : Except PyErr State :=
  if j ∈ s then .ok (s.erase j) else .error .valueError

/-- `PS.schedule`: every running job gets share `1 / len(running)`. -/
def schedule (_t : Time) (s : State) : Except PyErr (State × Alloc) :=
  if s.isEmpty then .ok (s, []) else .ok (s, equalShares s)

end PS

/-! ## The FIFO policy (`schedulers.FIFO`) -/

namespace FIFO

/-- FIFO state: `self.jobs`, a deque of jobids in arrival order. -/
abbrev State := List Jobid

def init : State := []

/-- `FIFO.enqueue`: `self.jobs.append(jobid)`. -/
def enqueue (_t : Time) (j : Jobid) (_size : ℚ) (s : State) : State := s ++ [j]

/-- `FIFO.dequeue`: `self.jobs.remove(jobid)`, raising ValueError if absent. -/
def dequeue (_t : Time) (j : Jobid) (s : State) : Except PyErr State :=
  if j ∈ s then .ok (s.erase j) else .error .valueError

/-- `FIFO.schedule`: the head of the deque gets share 1. -/
def schedule (_t : Time) (s : State) : Except PyErr (State × Alloc) :=
  match s with
  | [] => .ok (s, [])
  | h :: _ => .ok (s, [(h, 1)])

end FIFO

/-! ## Python's `heapq` on `[remaining, jobid]` entries

`SRPT` and `SRPT_plus_PS` keep a binary min-heap as a plain list and call
`heappush` / `heappop`; we embed the heap algorithms verbatim (the fuel
arguments bound the walks, which move strictly towards the root / the
leaves). -/

/-- Python list comparison on `[remaining, jobid]` heap entries. -/
def entryLt (a b : ℚ × Jobid) : Bool :=
  a.1 < b.1 || (a.1 = b.1 && a.2 < b.2)

/-- `heapq._siftdown(heap, startpos, pos)`, with `newitem = heap[pos]` passed
explicitly. -/
def siftdownAux : ℕ → ℕ → List (ℚ × Jobid) → ℕ → (ℚ × Jobid) → List (ℚ × Jobid)
  | 0, _, heap, pos, newitem => heap.set pos newitem
  | fuel + 1, startpos, heap, pos, newitem =>
    if startpos < pos then
      if entryLt newitem (heap.getD ((pos - 1) / 2) (0, 0)) then
        siftdownAux fuel startpos (heap.set pos (heap.getD ((pos - 1) / 2) (0, 0)))
          ((pos - 1) / 2) newitem
      else heap.set pos newitem
    else heap.set pos newitem

/-- The smaller-child selection of `heapq._siftup`: move to the right child
when it exists and the left child is not strictly smaller. -/
def childSel (endpos pos : ℕ) (heap : List (ℚ × Jobid)) : ℕ :=
  if 2 * pos + 2 < endpos ∧
      ¬ entryLt (heap.getD (2 * pos + 1) (0, 0)) (heap.getD (2 * pos + 2) (0, 0)) then
    2 * pos + 2
  else 2 * pos + 1

/-- `heapq._siftup(heap, pos)`: move the hole at `pos` to a leaf following the
smaller child, then sift the displaced item back down. -/
def siftupAux : ℕ → ℕ → ℕ → List (ℚ × Jobid) → ℕ → (ℚ × Jobid) → List (ℚ × Jobid)
  | 0, _, startpos, heap, pos, newitem =>
    siftdownAux pos startpos (heap.set pos newitem) pos newitem
  | fuel + 1, endpos, startpos, heap, pos, newitem =>
    if 2 * pos + 1 < endpos then
      siftupAux fuel endpos startpos
        (heap.set pos (heap.getD (childSel endpos pos heap) (0, 0)))
        (childSel endpos pos heap) newitem
    else siftdownAux pos startpos (heap.set pos newitem) pos newitem

/-- `heapq.heappush`. -/
def heappush (heap : List (ℚ × Jobid)) (item : ℚ × Jobid) : List (ℚ × Jobid) :=
  let h := heap ++ [item]
  siftdownAux (h.length - 1) 0 h (h.length - 1) item

/-- `heapq.heappop`: `none` models the IndexError on an empty heap. -/
def heappop (heap : List (ℚ × Jobid)) :
    Option ((ℚ × Jobid) × List (ℚ × Jobid)) :=
  match heap.getLast? with
  | none => none
  | some lastelt =>
    match heap.dropLast with
    | [] => some (lastelt, [])
    | r0 :: rest =>
      let h := (r0 :: rest).set 0 lastelt
      some (r0, siftupAux h.length h.length 0 h 0 (h.getD 0 (0, 0)))

/-! ### The heap algorithms permute their input

Only the multiset of entries matters for the jobid-tracking invariants below:
the sift walks shift a chain of entries and write the displaced item into the
final hole, a permutation of the input list. -/

theorem add_singleton_eq {α : Type} (c : α) (s : Multiset α) :
    s + {c} = c ::ₘ s := by
  rw [add_comm, Multiset.singleton_add]

theorem mset_set {α : Type} :
    ∀ (l : List α) (i : ℕ) (a b : α), l[i]? = some b →
      ((l.set i a : List α) : Multiset α) + {b} = (l : Multiset α) + {a}
  | [], i, _, _, h => by simp at h
  | x :: xs, 0, a, b, h => by
    obtain rfl : x = b := by simpa using h
    rw [List.set_cons_zero, ← Multiset.cons_coe, ← Multiset.cons_coe,
      Multiset.cons_add, Multiset.cons_add, add_singleton_eq, add_singleton_eq,
      Multiset.cons_swap]
  | x :: xs, i + 1, a, b, h => by
    have ht := mset_set xs i a b (by simpa using h)
    rw [List.set_cons_succ, ← Multiset.cons_coe, ← Multiset.cons_coe,
      Multiset.cons_add, Multiset.cons_add, ht]

theorem siftdownAux_mset :
    ∀ (fuel startpos : ℕ) (heap : List (ℚ × Jobid)) (pos : ℕ)
      (newitem b : ℚ × Jobid), heap[pos]? = some b →
      ((siftdownAux fuel startpos heap pos newitem : List _) : Multiset _) + {b}
        = (heap : Multiset _) + {newitem}
  | 0, _, heap, pos, newitem, b, h => mset_set heap pos newitem b h
  | fuel + 1, startpos, heap, pos, newitem, b, h => by
    rw [siftdownAux]
    by_cases hlt : startpos < pos
    · rw [if_pos hlt]
      have hpos : pos < heap.length := (List.getElem?_eq_some_iff.mp h).1
      have hpp : (pos - 1) / 2 < heap.length := by omega
      obtain ⟨p, hp⟩ : ∃ p, heap[(pos - 1) / 2]? = some p :=
        ⟨heap[(pos - 1) / 2], List.getElem?_eq_some_iff.mpr ⟨hpp, rfl⟩⟩
      have hparent : heap.getD ((pos - 1) / 2) (0, 0) = p := by
        rw [List.getD_eq_getElem?_getD, hp]; rfl
      rw [hparent]
      by_cases hcmp : entryLt newitem p
      · rw [if_pos hcmp]
        have hne : (pos - 1) / 2 ≠ pos := by omega
        have hset : (heap.set pos p)[(pos - 1) / 2]? = some p := by
          rw [List.getElem?_set_ne hne.symm]
          exact hp
        have ih := siftdownAux_mset fuel startpos (heap.set pos p)
          ((pos - 1) / 2) newitem p hset
        have hs := mset_set heap pos p b h
        have key : ((siftdownAux fuel startpos (heap.set pos p) ((pos - 1) / 2)
            newitem : List _) : Multiset _) + {b} + {p}
            = (heap : Multiset _) + {newitem} + {p} := by
          rw [add_right_comm, ih, add_right_comm, hs]
          exact add_right_comm _ _ _
        exact add_right_cancel key
      · rw [if_neg hcmp]
        exact mset_set heap pos newitem b h
    · rw [if_neg hlt]
      exact mset_set heap pos newitem b h

theorem childSel_lt {endpos pos : ℕ} (heap : List (ℚ × Jobid))
    (h : 2 * pos + 1 < endpos) : childSel endpos pos heap < endpos := by
  rw [childSel]
  split
  · next hc => exact hc.1
  · exact h

theorem childSel_ne (endpos pos : ℕ) (heap : List (ℚ × Jobid)) :
    childSel endpos pos heap ≠ pos := by
  rw [childSel]; split <;> omega

theorem siftupAux_mset :
    ∀ (fuel endpos startpos : ℕ) (heap : List (ℚ × Jobid)) (pos : ℕ)
      (newitem b : ℚ × Jobid), heap[pos]? = some b → endpos ≤ heap.length →
      ((siftupAux fuel endpos startpos heap pos newitem : List _) : Multiset _)
          + {b}
        = (heap : Multiset _) + {newitem}
  | 0, _, startpos, heap, pos, newitem, b, h, _ => by
    rw [siftupAux]
    have hpos : pos < heap.length := (List.getElem?_eq_some_iff.mp h).1
    have hset : (heap.set pos newitem)[pos]? = some newitem := by simp [hpos]
    have hd := siftdownAux_mset pos startpos (heap.set pos newitem) pos
      newitem newitem hset
    have hres := add_right_cancel hd
    rw [hres, mset_set heap pos newitem b h]
  | fuel + 1, endpos, startpos, heap, pos, newitem, b, h, hend => by
    rw [siftupAux]
    by_cases hc : 2 * pos + 1 < endpos
    · rw [if_pos hc]
      have hcp : childSel endpos pos heap < heap.length :=
        lt_of_lt_of_le (childSel_lt heap hc) hend
      obtain ⟨c, hcv⟩ : ∃ c, heap[childSel endpos pos heap]? = some c :=
        ⟨heap[childSel endpos pos heap], List.getElem?_eq_some_iff.mpr ⟨hcp, rfl⟩⟩
      have hgd : heap.getD (childSel endpos pos heap) (0, 0) = c := by
        rw [List.getD_eq_getElem?_getD, hcv]; rfl
      rw [hgd]
      have hset : (heap.set pos c)[childSel endpos pos heap]? = some c := by
        rw [List.getElem?_set_ne (childSel_ne endpos pos heap).symm]
        exact hcv
      have ih := siftupAux_mset fuel endpos startpos (heap.set pos c)
        (childSel endpos pos heap) newitem c hset (by simpa using hend)
      have hs := mset_set heap pos c b h
      have key : ((siftupAux fuel endpos startpos (heap.set pos c)
          (childSel endpos pos heap) newitem : List _) : Multiset _) + {b} + {c}
          = (heap : Multiset _) + {newitem} + {c} := by
        rw [add_right_comm, ih, add_right_comm, hs]
        exact add_right_comm _ _ _
      exact add_right_cancel key
    · rw [if_neg hc]
      have hpos : pos < heap.length := (List.getElem?_eq_some_iff.mp h).1
      have hset : (heap.set pos newitem)[pos]? = some newitem := by simp [hpos]
      have hd := siftdownAux_mset pos startpos (heap.set pos newitem) pos
        newitem newitem hset
      have hres := add_right_cancel hd
      rw [hres, mset_set heap pos newitem b h]

theorem heappush_mset (heap : List (ℚ × Jobid)) (item : ℚ × Jobid) :
    ((heappush heap item : List _) : Multiset _) = item ::ₘ (heap : Multiset _) := by
  rw [heappush]
  have hlen : (heap ++ [item]).length - 1 = heap.length := by simp
  have hget : (heap ++ [item])[(heap ++ [item]).length - 1]? = some item := by
    rw [hlen]
    rw [List.getElem?_append_right (le_refl _)]
    simp
  have := siftdownAux_mset ((heap ++ [item]).length - 1) 0 (heap ++ [item])
    ((heap ++ [item]).length - 1) item item hget
  have hres := add_right_cancel this
  rw [hres, ← Multiset.coe_add, Multiset.coe_singleton, add_singleton_eq]

theorem heappop_eq_some {heap : List (ℚ × Jobid)} {top : ℚ × Jobid}
    {rest : List (ℚ × Jobid)} (h : heappop heap = some (top, rest)) :
    heap.head? = some top ∧
      ((rest : List _) : Multiset _) + {top} = (heap : Multiset _) := by
  rcases List.eq_nil_or_concat heap with rfl | ⟨l, a, rfl⟩
  · simp [heappop] at h
  · rw [List.concat_eq_append] at h ⊢
    rw [heappop, List.getLast?_concat, List.dropLast_concat] at h
    cases l with
    | nil =>
      simp only [Option.some.injEq, Prod.mk.injEq] at h
      obtain ⟨rfl, rfl⟩ := h
      refine ⟨rfl, ?_⟩
      rw [List.nil_append, Multiset.coe_nil, zero_add, Multiset.coe_singleton]
    | cons r0 rest0 =>
      simp only [List.set_cons_zero, Option.some.injEq, Prod.mk.injEq] at h
      obtain ⟨rfl, hrest⟩ := h
      refine ⟨rfl, ?_⟩
      have hget : (a :: rest0)[0]? = some a := by simp
      have hgd : (a :: rest0).getD 0 (0, 0) = a := by
        rw [List.getD_eq_getElem?_getD, hget]; rfl
      rw [hgd] at hrest
      have hm := siftupAux_mset (a :: rest0).length (a :: rest0).length 0
        (a :: rest0) 0 a a hget (le_refl _)
      have hres := add_right_cancel hm
      rw [hrest] at hres
      rw [hres, ← Multiset.coe_add, Multiset.coe_singleton,
        ← Multiset.cons_coe, ← Multiset.cons_coe, Multiset.cons_add,
        Multiset.cons_add, add_singleton_eq, add_singleton_eq,
        Multiset.cons_swap]

/-- `jobs[0][0] -= delta` (a no-op on an empty heap, matching the
`if jobs:` guards). -/
def debitHead (delta : ℚ) : List (ℚ × Jobid) → List (ℚ × Jobid)
  | [] => []
  | (r, j) :: rest => (r - delta, j) :: rest

theorem debitHead_ids (delta : ℚ) :
    ∀ (jobs : List (ℚ × Jobid)), (debitHead delta jobs).map Prod.snd = jobs.map Prod.snd
  | [] => rfl
  | (_, _) :: _ => rfl

/-! ## The SRPT policy (`schedulers.SRPT`) -/

namespace SRPT

/-- SRPT state: the `[estimated_remaining, jobid]` min-heap and the time of
the last bookkeeping update. -/
structure State where
  jobs : List (ℚ × Jobid)
  last_t : Time
  deriving DecidableEq, Repr

def init : State := ⟨[], 0⟩

/-- `SRPT.update`: debit only the head entry (early return when `delta == 0`). -/
def update (t : Time) (s : State) : State :=
  if t - s.last_t = 0 then s
  else { jobs := debitHead (t - s.last_t) s.jobs, last_t := t }

/-- `SRPT.enqueue`: update, then `heappush(self.jobs, [job_size, jobid])`. -/
def enqueue (t : Time) (j : Jobid) (size : ℚ) (s : State) : State :=
  let s := update t s
  { s with jobs := heappush s.jobs (size, j) }

/-- `SRPT.dequeue`.  The head case pops.  The non-head search
`next(i for i, v in jobs if v[1] == jobid)` destructures each
`[remaining, jobid]` entry as `(i, v)` (there is no `enumerate`), so its first
step evaluates `v[1]` with `v` an integer jobid and raises TypeError; on an
empty heap `jobs[0]` raises IndexError. -/
def dequeue (t : Time) (j : Jobid) (s : State) : Except PyErr State :=
  let s := update t s
  match s.jobs with
  | [] => .error .indexError
  | (_, j0) :: _ =>
    if j = j0 then
      match heappop s.jobs with
      | some (_, rest) => .ok { s with jobs := rest }
      | none => .error .indexError
    else .error .typeError

/-- `SRPT.schedule`: the head of the heap gets share 1. -/
def schedule (t : Time) (s : State) : Except PyErr (State × Alloc) :=
  let s := update t s
  match s.jobs with
  | [] => .ok (s, [])
  | (_, j) :: _ => .ok (s, [(j, 1)])

end SRPT

/-! ## The SRPT+PS policy (`schedulers.SRPT_plus_PS`) -/

namespace SRPT_plus_PS

/-- SRPT+PS state: the heap, the `late` set, the tolerance and `last_t`. -/
structure State where
  jobs : List (ℚ × Jobid)
  last_t : Time
  late : List Jobid
  eps : ℚ
  deriving DecidableEq, Repr

def init : State := ⟨[], 0, [], 1 / 1000000⟩

/-- The `while jobs and jobs[0][0] < self.eps` loop of `SRPT_plus_PS.update`:
pop heads into `late`; fuel is the heap size (each pop shrinks the heap). -/
def popLate (eps : ℚ) : ℕ → List (ℚ × Jobid) → List Jobid →
    List (ℚ × Jobid) × List Jobid
  | 0, jobs, late => (jobs, late)
  | _ + 1, [], late => ([], late)
  | fuel + 1, (r, j) :: rest', late =>
    if r < eps then
      match heappop ((r, j) :: rest') with
      | some (_, rest) => popLate eps fuel rest (sinsert j late)
      | none => ((r, j) :: rest', late)
    else ((r, j) :: rest', late)

/-- `SRPT_plus_PS.update`: debit the head by `delta / (1 + len(late))`, then
promote all heads with remaining below `eps` into `late`. -/
def update (t : Time) (s : State) : State :=
  { s with
    jobs := (popLate s.eps
      (debitHead ((t - s.last_t) / (1 + (s.late.length : ℚ))) s.jobs).length
      (debitHead ((t - s.last_t) / (1 + (s.late.length : ℚ))) s.jobs) s.late).1
    late := (popLate s.eps
      (debitHead ((t - s.last_t) / (1 + (s.late.length : ℚ))) s.jobs).length
      (debitHead ((t - s.last_t) / (1 + (s.late.length : ℚ))) s.jobs) s.late).2
    last_t := t }

/-- `SRPT_plus_PS.enqueue`. -/
def enqueue (t : Time) (j : Jobid) (size : ℚ) (s : State) : State :=
  let s := update t s
  { s with jobs := heappush s.jobs (size, j) }

/-- `SRPT_plus_PS.dequeue` (same missing-`enumerate` search as `SRPT`). -/
def dequeue (t : Time) (j : Jobid) (s : State) : Except PyErr State :=
  let s := update t s
  if j ∈ s.late then .ok { s with late := s.late.erase j }
  else
    match s.jobs with
    | [] => .error .indexError
    | (_, j0) :: _ =>
      if j = j0 then
        match heappop s.jobs with
        | some (_, rest) => .ok { s with jobs := rest }
        | none => .error .indexError
      else .error .typeError

/-- `SRPT_plus_PS.schedule`: equal shares over `late ∪ {heap head}`. -/
def schedule (t : Time) (s : State) : Except PyErr (State × Alloc) :=
  let s := update t s
  let scheduled :=
    match s.jobs with
    | [] => s.late
    | (_, j) :: _ => sinsert j s.late
  if scheduled.isEmpty then .ok (s, [])
  else .ok (s, equalShares scheduled)

end SRPT_plus_PS

theorem SRPT.update_ids (t : Time) (s : SRPT.State) :
    (SRPT.update t s).jobs.map Prod.snd = s.jobs.map Prod.snd := by
  rw [SRPT.update]
  split
  · rfl
  · exact debitHead_ids _ s.jobs

theorem SRPT.dequeue_absent (t : Time) (j : Jobid) (s : SRPT.State)
    (h : j ∉ s.jobs.map Prod.snd) : ∃ e, SRPT.dequeue t j s = .error e := by
  have hids := SRPT.update_ids t s
  rw [SRPT.dequeue]
  cases hj : (SRPT.update t s).jobs with
  | nil => exact ⟨.indexError, rfl⟩
  | cons p rest =>
    obtain ⟨r0, j0⟩ := p
    have hj0 : j0 ∈ s.jobs.map Prod.snd := by
      rw [← hids, hj]; simp
    have : ¬ j = j0 := fun he => h (he ▸ hj0)
    refine ⟨.typeError, ?_⟩
    simp only [hj, if_neg this]

theorem heappop_isSome {heap : List (ℚ × Jobid)} (h : heap ≠ []) :
    ∃ p, heappop heap = some p := by
  rcases List.eq_nil_or_concat heap with rfl | ⟨l, a, rfl⟩
  · exact absurd rfl h
  · rw [List.concat_eq_append, heappop, List.getLast?_concat,
      List.dropLast_concat]
    cases l
    · exact ⟨_, rfl⟩
    · exact ⟨_, rfl⟩

/-- The jobids in view (heap ∪ late) are preserved by the late-promotion loop
of `SRPT_plus_PS.update`. -/
theorem SRPT_plus_PS.popLate_mem (eps : ℚ) :
    ∀ (fuel : ℕ) (jobs : List (ℚ × Jobid)) (late : List Jobid) (x : Jobid),
      (x ∈ (SRPT_plus_PS.popLate eps fuel jobs late).1.map Prod.snd ∨
          x ∈ (SRPT_plus_PS.popLate eps fuel jobs late).2)
        ↔ (x ∈ jobs.map Prod.snd ∨ x ∈ late)
  | 0, jobs, late, x => Iff.rfl
  | fuel + 1, jobs, late, x => by
    cases hjobs : jobs with
    | nil => rw [SRPT_plus_PS.popLate]
    | cons p rest' =>
      obtain ⟨r, jid⟩ := p
      rw [SRPT_plus_PS.popLate]
      by_cases hr : r < eps
      · rw [if_pos hr]
        obtain ⟨⟨top, rest⟩, hp⟩ := heappop_isSome
          (List.cons_ne_nil (r, jid) rest' : (r, jid) :: rest' ≠ [])
        rw [hp]
        obtain ⟨hhead, hmset⟩ := heappop_eq_some hp
        have htop : top = (r, jid) := by
          have h2 : some (r, jid) = some top := by simpa using hhead
          exact (Option.some.injEq _ _ ▸ h2 :).symm
        subst htop
        have hmem : ∀ y, y ∈ rest.map Prod.snd ∨ y = jid ↔
            y ∈ ((r, jid) :: rest').map Prod.snd := by
          intro y
          have hmm := congrArg (Multiset.map Prod.snd) hmset
          simp only [Multiset.map_add] at hmm
          constructor
          · intro hy
            have hy2 : y ∈ Multiset.map Prod.snd
                (((r, jid) :: rest' : List (ℚ × Jobid)) : Multiset (ℚ × Jobid)) := by
              rw [← hmm]
              rcases hy with hy | rfl
              · exact Multiset.mem_add.mpr (Or.inl (by simpa using hy))
              · exact Multiset.mem_add.mpr (Or.inr (by simp))
            simpa using hy2
          · intro hy
            have hy2 : y ∈ Multiset.map Prod.snd
                ((rest : List (ℚ × Jobid)) : Multiset (ℚ × Jobid)) +
                Multiset.map Prod.snd ({(r, jid)} : Multiset (ℚ × Jobid)) := by
              rw [hmm]; simpa using hy
            rcases Multiset.mem_add.mp hy2 with hy' | hy'
            · exact Or.inl (by simpa using hy')
            · exact Or.inr (by simpa using hy')
        rw [SRPT_plus_PS.popLate_mem eps fuel rest (sinsert jid late) x]
        rw [mem_sinsert]
        constructor
        · rintro (hx | rfl | hx)
          · exact Or.inl ((hmem x).mp (Or.inl hx))
          · exact Or.inl ((hmem x).mp (Or.inr rfl))
          · exact Or.inr hx
        · rintro (hx | hx)
          · rcases (hmem x).mpr hx with hx' | rfl
            · exact Or.inl hx'
            · exact Or.inr (Or.inl rfl)
          · exact Or.inr (Or.inr hx)
      · rw [if_neg hr]

/-- The jobids in view (heap ∪ late) are preserved by
`SRPT_plus_PS.update`. -/
theorem SRPT_plus_PS.update_mem (t : Time) (s : SRPT_plus_PS.State) (x : Jobid) :
    (x ∈ (SRPT_plus_PS.update t s).jobs.map Prod.snd ∨
        x ∈ (SRPT_plus_PS.update t s).late)
      ↔ (x ∈ s.jobs.map Prod.snd ∨ x ∈ s.late) := by
  show (x ∈ (SRPT_plus_PS.popLate _ _ _ _).1.map Prod.snd ∨
      x ∈ (SRPT_plus_PS.popLate _ _ _ _).2) ↔ _
  rw [SRPT_plus_PS.popLate_mem]
  rw [debitHead_ids]

/-! ## The FSP policy (`schedulers.FSP`, the active `blist`-based class) -/

namespace FSP

/-- FSP state: the virtual queue (sorted by `[v_remaining, jobid]`), the
ordered `late` set, the real-present `running` set, `last_t` and `eps`. -/
structure State where
  queue : List (ℚ × Jobid)
  late : List Jobid
  running : List Jobid
  last_t : Time
  eps : ℚ
  deriving DecidableEq, Repr

def init : State := ⟨[], [], [], 0, 1 / 1000000⟩

/-- `bisect.insort` into the virtual queue. -/
def insortQ (x : ℚ × Jobid) : List (ℚ × Jobid) → List (ℚ × Jobid)
  | [] => [x]
  | h :: t => if entryLt x h then x :: h :: t else h :: insortQ x t

/-- `late[jobid] = True` on an OrderedDict: appends a fresh key, keeps the
position of an existing one. -/
def lateAdd (j : Jobid) (late : List Jobid) : List Jobid :=
  if j ∈ late then late else late ++ [j]

/-- `FSP.update`: finish the virtual-queue prefix with
`v_remaining ≤ fair_share + eps` (recording still-running ones as late, in
queue order) and debit the survivors by `fair_share` (when positive). -/
def update (t : Time) (s : State) : State :=
  let delta := t - s.last_t
  match s.queue with
  | [] => { s with last_t := t }
  | _ :: _ =>
    let fair_share := delta / (s.queue.length : ℚ)
    let fp := fair_share + s.eps
    let fin := s.queue.takeWhile (fun e => decide (e.1 ≤ fp))
    let rest := s.queue.dropWhile (fun e => decide (e.1 ≤ fp))
    let late := fin.foldl (fun l e => if e.2 ∈ s.running then lateAdd e.2 l else l) s.late
    let rest := if 0 < fair_share then rest.map (fun e => (e.1 - fair_share, e.2)) else rest
    { s with queue := rest, late := late, last_t := t }

/-- `FSP.enqueue`: update, then insort `[size, jobid]` and mark running. -/
def enqueue (t : Time) (j : Jobid) (size : ℚ) (s : State) : State :=
  let s := update t s
  { s with queue := insortQ (size, j) s.queue, running := sinsert j s.running }

/-- `FSP.dequeue`: remove from `running` (KeyError if absent) and from `late`;
the job stays in the virtual queue.  No `update` is performed. -/
def dequeue (_t : Time) (j : Jobid) (s : State) : Except PyErr State :=
  if j ∈ s.running then
    .ok { s with running := s.running.erase j, late := s.late.erase j }
  else .error .keyError

/-- `FSP.schedule`: share 1 to the oldest late job, else to the first
virtual-queue entry whose job is still running (`next(...)` raises
StopIteration if there is none). -/
def schedule (t : Time) (s : State) : Except PyErr (State × Alloc) :=
  let s := update t s
  match s.late with
  | j :: _ => .ok (s, [(j, 1)])
  | [] =>
    if s.running.isEmpty then .ok (s, [])
    else
      match s.queue.find? (fun e => decide (e.2 ∈ s.running)) with
      | some e => .ok (s, [(e.2, 1)])
      | none => .error .stopIteration

end FSP

/-! ## The FSP+PS policy (`schedulers.FSP_plus_PS`) -/

namespace FSP_plus_PS

/-- `FSP_plus_PS` inherits `__init__` (with `late` reset to an empty plain
dict, the same empty model), `enqueue`, `dequeue` and `update` from `FSP`. -/
def init : FSP.State := FSP.init

def enqueue : Time → Jobid → ℚ → FSP.State → FSP.State := FSP.enqueue

def dequeue : Time → Jobid → FSP.State → Except PyErr FSP.State := FSP.dequeue

/-- `FSP_plus_PS.schedule`: like FSP but sharing capacity equally among
*all* late jobs (`late` is a plain dict there; membership and iteration
order behave identically to our list model). -/
def schedule (t : Time) (s : FSP.State) : Except PyErr (FSP.State × Alloc) :=
  let s := FSP.update t s
  match s.late with
  | _ :: _ => .ok (s, equalShares s.late)
  | [] =>
    if s.running.isEmpty then .ok (s, [])
    else
      match s.queue.find? (fun e => decide (e.2 ∈ s.running)) with
      | some e => .ok (s, [(e.2, 1)])
      | none => .error .stopIteration

end FSP_plus_PS

/-! ## The LAS policy (`schedulers.LAS`, the active sorteddict-based class) -/

/-- `int(ceil(x))` (nonnegative in every reachable call, since the driver's
times are nondecreasing). -/
def intceil (x : ℚ) : ℕ := (Int.ceil x).toNat

namespace LAS

/-- LAS state.  `queue` embeds the `sorteddict {attained_bucket: {jobid}}`;
`attained` the `{jobid: bucket}` dict; `scheduled` the last schedule decision
`{bucket: [(service, jobids)]}`, which the code only ever populates with a
single bucket carrying a single `(service, set)` pair. -/
structure State where
  eps : ℚ
  queue : List (ℕ × List Jobid)
  attained : List (Jobid × ℕ)
  scheduled : Option (ℕ × ℚ × List Jobid)
  last_t : Time
  deriving DecidableEq, Repr

def init : State := ⟨1 / 1000000, [], [], none, 0⟩

/-- sorteddict store: replace the value at a key or insert in key order. -/
def qset (b : ℕ) (v : List Jobid) : List (ℕ × List Jobid) → List (ℕ × List Jobid)
  | [] => [(b, v)]
  | (b', v') :: t =>
    if b < b' then (b, v) :: (b', v') :: t
    else if b = b' then (b, v) :: t
    else (b', v') :: qset b v t

/-- `queue.setdefault(b, set()).add(jobid)`. -/
def bucketAdd (b : ℕ) (j : Jobid) (q : List (ℕ × List Jobid)) :
    List (ℕ × List Jobid) :=
  match alookup b q with
  | some v => qset b (sinsert j v) q
  | none => qset b [j] q

/-- `queue.setdefault(b, set()).update(jobids)`. -/
def bucketUnion (b : ℕ) (js : List Jobid) (q : List (ℕ × List Jobid)) :
    List (ℕ × List Jobid) :=
  match alookup b q with
  | some v => qset b (sunion js v) q
  | none => qset b (sunion js []) q

/-- The coalescing lookup
`next(v for v in [new_att, new_att - 1, new_att + 1] if v in queue)`
(for `new_att = 0` Python checks `-1`, which is never a bucket). -/
def coalesce (q : List (ℕ × List Jobid)) (n : ℕ) : ℕ :=
  if (alookup n q).isSome then n
  else if 0 < n ∧ (alookup (n - 1) q).isSome then n - 1
  else if (alookup (n + 1) q).isSome then n + 1
  else n

/-- `LAS.enqueue`: insert at bucket 0 (the announced size is discarded). -/
def enqueue (_t : Time) (j : Jobid) (_size : ℚ) (s : State) : State :=
  { s with queue := bucketAdd 0 j s.queue, attained := aset j 0 s.attained }

/-- `LAS.dequeue`: `attained.pop(jobid)` (KeyError if absent), then remove the
job from its bucket, dropping the bucket if it was a singleton. -/
def dequeue (_t : Time) (j : Jobid) (s : State) : Except PyErr State :=
  match alookup j s.attained with
  | none => .error .keyError
  | some att =>
    match alookup att s.queue with
    | none => .error .keyError
    | some q =>
      let queue :=
        if q.length = 1 then aerase att s.queue else qset att (q.erase j) s.queue
      .ok { s with queue := queue, attained := aerase j s.attained }

/-- The bucket-removal step of `LAS.update`: take the scheduled jobids out of
`queue[att]`, deleting the bucket if it empties (`queue[att]` may be missing
entirely when all of them have terminated). -/
def removeGroup (att : ℕ) (g : List Jobid) (q : List (ℕ × List Jobid)) :
    List (ℕ × List Jobid) :=
  match alookup att q with
  | none => q
  | some b => if (sdiff b g).isEmpty then aerase att q else qset att (sdiff b g) q

/-- `jobids &= set_att`: the scheduled jobids that have not yet departed. -/
def liveOf (g : List Jobid) (attained : List (Jobid × ℕ)) : List Jobid :=
  g.filter (fun j => decide (j ∈ akeys attained))

/-- The body of `LAS.update` for one `(att, [(service, g)])` entry of
`scheduled`, with `delta` the elapsed bucket count. -/
def updateCore (delta : ℕ) (att : ℕ) (service : ℚ) (g : List Jobid)
    (s : State) : State :=
  if (liveOf g s.attained).isEmpty then
    { s with queue := removeGroup att g s.queue }
  else
    { s with
      queue := bucketUnion
        (coalesce (removeGroup att g s.queue)
          (att + intceil (service * (delta : ℚ))))
        (liveOf g s.attained) (removeGroup att g s.queue)
      attained := (liveOf g s.attained).foldl
        (fun a j => aset j (coalesce (removeGroup att g s.queue)
          (att + intceil (service * (delta : ℚ)))) a) s.attained }

/-- `LAS.update`: move the previously scheduled group from its bucket to
`bucket + ceil(service * delta_buckets)`, coalescing with a bucket at
distance 1 to avoid drift, and record the new bucket in `attained`. -/
def update (t : Time) (s : State) : State :=
  match s.scheduled with
  | none => { s with last_t := t }
  | some (att, service, g) =>
    { updateCore (intceil ((t - s.last_t) / s.eps)) att service g s with
      last_t := t }

/-- `LAS.schedule`: after `update`, share capacity equally among the
smallest-bucket set and snapshot the decision into `scheduled`. -/
def schedule (t : Time) (s : State) : Except PyErr (State × Alloc) :=
  match (update t s).queue with
  | [] => .ok ({ update t s with scheduled := none }, [])
  | (att, jobids) :: _ =>
    .ok ({ update t s with
      scheduled := some (att, (jobids.length : ℚ)⁻¹, jobids) },
      equalShares jobids)

end LAS

/-! ### Well-formedness of LAS states

The sorteddict invariants: bucket keys strictly sorted; bucket sets canonical,
nonempty, and mirrored by `attained`; the recorded `scheduled` group is a
canonical set whose still-present members sit at the recorded bucket. -/

namespace LAS

/-- The `scheduled` snapshot is coherent: its group is canonical and its
still-attained members are at the recorded bucket. -/
def schedOK (s : State) : Prop :=
  match s.scheduled with
  | none => True
  | some (b, _, g) => List.Sorted (· < ·) g ∧
      ∀ j ∈ g, ∀ pr ∈ s.attained, pr.1 = j → pr.2 = b

/-- Queue/attained well-formedness of a LAS state. -/
def WFq (s : State) : Prop :=
  (akeys s.queue).Sorted (· < ·) ∧
  (∀ p ∈ s.queue, List.Sorted (· < ·) p.2 ∧ p.2 ≠ []) ∧
  (akeys s.attained).Nodup ∧
  (∀ p ∈ s.queue, ∀ j ∈ p.2, alookup j s.attained = some p.1) ∧
  (∀ pr ∈ s.attained, ∃ p ∈ s.queue, p.1 = pr.2 ∧ pr.1 ∈ p.2)

/-- Full well-formedness. -/
def WF (s : State) : Prop := WFq s ∧ schedOK s

instance (s : State) : Decidable (schedOK s) := by
  unfold schedOK
  cases s.scheduled with
  | none => exact inferInstanceAs (Decidable True)
  | some p => exact inferInstanceAs (Decidable (_ ∧ _))

instance (s : State) : Decidable (WFq s) := inferInstanceAs (Decidable (_ ∧ _))

instance (s : State) : Decidable (WF s) := inferInstanceAs (Decidable (_ ∧ _))

end LAS

/-! ### Association-list and sorteddict lemmas for the LAS state -/

theorem alookup_mem {α : Type} {k : ℕ} {v : α} :
    ∀ {l : List (ℕ × α)}, alookup k l = some v → (k, v) ∈ l
  | [], h => by simp [alookup] at h
  | (pk, pv) :: t, h => by
    by_cases hk : k = pk
    · subst hk
      rw [alookup, if_pos rfl] at h
      injection h with h
      subst h
      exact List.mem_cons_self _ _
    · rw [alookup, if_neg hk] at h
      exact List.mem_cons_of_mem _ (alookup_mem h)

theorem mem_alookup {α : Type} {k : ℕ} {v : α} :
    ∀ {l : List (ℕ × α)}, (akeys l).Nodup → (k, v) ∈ l → alookup k l = some v
  | [], _, hm => by simp at hm
  | (pk, pv) :: t, hnd, hm => by
    simp only [akeys, List.map_cons, List.nodup_cons] at hnd
    rcases List.mem_cons.mp hm with he | hm'
    · obtain ⟨rfl, rfl⟩ := Prod.mk.injEq .. ▸ he
      rw [alookup, if_pos rfl]
    · have hk : k ≠ pk := by
        rintro rfl
        exact hnd.1 (List.mem_map.mpr ⟨(k, v), hm', rfl⟩)
      rw [alookup, if_neg hk]
      exact mem_alookup hnd.2 hm'

theorem mem_iff_alookup {α : Type} {l : List (ℕ × α)} (hnd : (akeys l).Nodup)
    {p : ℕ × α} : p ∈ l ↔ alookup p.1 l = some p.2 :=
  ⟨fun h => mem_alookup hnd h, fun h => alookup_mem h⟩

theorem alookup_qset {k b : ℕ} {v : List Jobid} :
    ∀ {q : List (ℕ × List Jobid)},
      alookup k (LAS.qset b v q) = if k = b then some v else alookup k q
  | [] => by by_cases hk : k = b <;> simp [LAS.qset, alookup, hk]
  | (b', v') :: t => by
    rw [LAS.qset]
    by_cases h1 : b < b'
    · rw [if_pos h1, alookup]
    · rw [if_neg h1]
      by_cases h2 : b = b'
      · rw [if_pos h2, alookup]
        by_cases hk : k = b
        · rw [if_pos hk, if_pos hk]
        · rw [if_neg hk, if_neg hk, alookup, if_neg (h2 ▸ hk)]
      · rw [if_neg h2, alookup, alookup]
        by_cases hk : k = b'
        · have : ¬ k = b := fun he => h2 ((he ▸ hk :).symm ▸ rfl)
          rw [if_pos hk, if_neg this, if_pos hk]
        · rw [if_neg hk, if_neg hk, alookup_qset]

theorem mem_akeys_qset {k b : ℕ} {v : List Jobid} :
    ∀ {q : List (ℕ × List Jobid)},
      k ∈ akeys (LAS.qset b v q) ↔ k = b ∨ k ∈ akeys q
  | [] => by simp [LAS.qset, akeys]
  | (b', v') :: t => by
    rw [LAS.qset]
    by_cases h1 : b < b'
    · rw [if_pos h1]
      simp [akeys]
    · rw [if_neg h1]
      by_cases h2 : b = b'
      · subst h2
        rw [if_pos rfl]
        simp [akeys]
      · rw [if_neg h2]
        simp only [akeys, List.map_cons, List.mem_cons]
        rw [show (LAS.qset b v t).map Prod.fst = akeys (LAS.qset b v t) from rfl,
          mem_akeys_qset]
        simp only [akeys]
        tauto

theorem sorted_akeys_qset {b : ℕ} {v : List Jobid} :
    ∀ {q : List (ℕ × List Jobid)}, (akeys q).Sorted (· < ·) →
      (akeys (LAS.qset b v q)).Sorted (· < ·)
  | [], _ => by simp [LAS.qset, akeys]
  | (b', v') :: t, hs => by
    have hb' : ∀ x ∈ akeys t, b' < x := (List.sorted_cons.mp hs).1
    have ht : (akeys t).Sorted (· < ·) := (List.sorted_cons.mp hs).2
    rw [LAS.qset]
    by_cases h1 : b < b'
    · rw [if_pos h1]
      simp only [akeys, List.map_cons]
      rw [List.sorted_cons]
      refine ⟨fun x hx => ?_, hs⟩
      rcases List.mem_cons.mp hx with rfl | hx
      · exact h1
      · exact h1.trans (hb' x hx)
    · rw [if_neg h1]
      by_cases h2 : b = b'
      · subst h2
        rw [if_pos rfl]
        simpa [akeys] using hs
      · rw [if_neg h2]
        have hlt : b' < b := lt_of_le_of_ne (not_lt.mp h1) (fun he => h2 he.symm)
        simp only [akeys, List.map_cons]
        rw [List.sorted_cons]
        refine ⟨fun x hx => ?_, sorted_akeys_qset ht⟩
        rw [show (LAS.qset b v t).map Prod.fst = akeys (LAS.qset b v t) from rfl,
          mem_akeys_qset] at hx
        rcases hx with rfl | hx
        · exact hlt
        · exact hb' x hx

theorem mem_qset {b : ℕ} {v : List Jobid} {q : List (ℕ × List Jobid)}
    (hs : (akeys q).Sorted (· < ·)) {p : ℕ × List Jobid} :
    p ∈ LAS.qset b v q ↔ p = (b, v) ∨ (p.1 ≠ b ∧ p ∈ q) := by
  have hnd : (akeys q).Nodup := hs.nodup
  have hnd' : (akeys (LAS.qset b v q)).Nodup := (sorted_akeys_qset hs).nodup
  rw [mem_iff_alookup hnd', alookup_qset]
  by_cases hk : p.1 = b
  · rw [if_pos hk]
    constructor
    · intro h
      injection h with h
      exact Or.inl (Prod.ext hk h.symm)
    · rintro (rfl | ⟨hne, _⟩)
      · rfl
      · exact absurd hk hne
  · rw [if_neg hk, ← mem_iff_alookup hnd]
    constructor
    · intro h
      exact Or.inr ⟨hk, h⟩
    · rintro (rfl | ⟨_, h⟩)
      · exact absurd rfl hk
      · exact h

theorem mem_aerase {α : Type} {k : ℕ} {l : List (ℕ × α)}
    (hnd : (akeys l).Nodup) {p : ℕ × α} :
    p ∈ aerase k l ↔ p.1 ≠ k ∧ p ∈ l := by
  have hk : akeys (aerase k l) = (akeys l).erase k := akeys_aerase hnd
  have hnd' : (akeys (aerase k l)).Nodup := hk ▸ hnd.erase k
  rw [mem_iff_alookup hnd', alookup_aerase hnd]
  by_cases hp : p.1 = k
  · rw [if_pos hp]
    simp [hp]
  · rw [if_neg hp, ← mem_iff_alookup hnd]
    simp [hp]

/-! ### LAS invariant preservation -/

theorem sunion_ne_nil {a b : List Jobid} (h : a ≠ []) : sunion a b ≠ [] := by
  cases a with
  | nil => exact absurd rfl h
  | cons x t =>
    intro hc
    have hx : x ∈ sunion (x :: t) b := mem_sunion.mpr (Or.inl (List.mem_cons_self _ _))
    rw [hc] at hx
    simp at hx

namespace LAS

theorem mem_liveOf {j : Jobid} {g : List Jobid} {a : List (Jobid × ℕ)} :
    j ∈ liveOf g a ↔ j ∈ g ∧ j ∈ akeys a := by
  simp [liveOf]

theorem sorted_liveOf {g : List Jobid} {a : List (Jobid × ℕ)}
    (hg : List.Sorted (· < ·) g) : (liveOf g a).Sorted (· < ·) :=
  hg.filter _

theorem alookup_removeGroup {att : ℕ} {g : List Jobid}
    {q : List (ℕ × List Jobid)} (hnd : (akeys q).Nodup) (c : ℕ) :
    alookup c (removeGroup att g q) =
      if c = att then
        match alookup att q with
        | none => none
        | some b => if (sdiff b g).isEmpty then none else some (sdiff b g)
      else alookup c q := by
  rw [removeGroup]
  cases hb : alookup att q with
  | none =>
    by_cases hc : c = att
    · subst hc; rw [if_pos rfl]; exact hb
    · rw [if_neg hc]
  | some b =>
    dsimp only
    by_cases he : (sdiff b g).isEmpty
    · rw [if_pos he, alookup_aerase hnd]
      by_cases hc : c = att
      · rw [if_pos hc, if_pos hc, if_pos he]
      · rw [if_neg hc, if_neg hc]
    · rw [if_neg he, alookup_qset]
      by_cases hc : c = att
      · rw [if_pos hc, if_pos hc, if_neg he]
      · rw [if_neg hc, if_neg hc]

theorem sorted_akeys_removeGroup {att : ℕ} {g : List Jobid}
    {q : List (ℕ × List Jobid)} (hs : (akeys q).Sorted (· < ·)) :
    (akeys (removeGroup att g q)).Sorted (· < ·) := by
  rw [removeGroup]
  cases hb : alookup att q with
  | none => exact hs
  | some b =>
    dsimp only
    split
    · rw [akeys_aerase hs.nodup]
      exact sorted_erase hs
    · exact sorted_akeys_qset hs

theorem alookup_bucketUnion {b : ℕ} {js : List Jobid}
    {q : List (ℕ × List Jobid)} (c : ℕ) :
    alookup c (bucketUnion b js q) =
      if c = b then some (sunion js ((alookup b q).getD [])) else alookup c q := by
  rw [bucketUnion]
  cases hb : alookup b q with
  | none => rw [alookup_qset]; rfl
  | some v => rw [alookup_qset]; rfl

theorem sorted_akeys_bucketUnion {b : ℕ} {js : List Jobid}
    {q : List (ℕ × List Jobid)} (hs : (akeys q).Sorted (· < ·)) :
    (akeys (bucketUnion b js q)).Sorted (· < ·) := by
  rw [bucketUnion]
  cases alookup b q <;> exact sorted_akeys_qset hs

theorem alookup_foldl_aset {na : ℕ} (j : Jobid) :
    ∀ (live : List Jobid) (a : List (Jobid × ℕ)),
      alookup j (live.foldl (fun a j' => aset j' na a) a) =
        if j ∈ live then some na else alookup j a
  | [], a => by simp
  | j' :: rest, a => by
    rw [List.foldl_cons, alookup_foldl_aset j rest (aset j' na a)]
    by_cases hj : j ∈ rest
    · rw [if_pos hj, if_pos (List.mem_cons_of_mem _ hj)]
    · rw [if_neg hj, alookup_aset]
      by_cases he : j = j'
      · rw [if_pos he, if_pos (he ▸ List.mem_cons_self j' rest)]
      · rw [if_neg he, if_neg (by simp [he, hj])]

theorem akeys_foldl_aset {na : ℕ} :
    ∀ (live : List Jobid) (a : List (Jobid × ℕ)), (∀ j ∈ live, j ∈ akeys a) →
      akeys (live.foldl (fun a j' => aset j' na a) a) = akeys a
  | [], _, _ => rfl
  | j' :: rest, a, h => by
    have hj' : j' ∈ akeys a := h j' (List.mem_cons_self _ _)
    have hkeys : akeys (aset j' na a) = akeys a := akeys_aset hj'
    rw [List.foldl_cons,
      akeys_foldl_aset rest (aset j' na a)
        (fun j hj => hkeys ▸ h j (List.mem_cons_of_mem _ hj)),
      hkeys]

/-! Accessors and alookup-level forms of `WFq`. -/

theorem WFq.qkeys_sorted {s : State} (w : WFq s) :
    (akeys s.queue).Sorted (· < ·) := w.1

theorem WFq.att_nodup {s : State} (w : WFq s) : (akeys s.attained).Nodup :=
  w.2.2.1

theorem WFq.bucket_lookup {s : State} (w : WFq s) {b : ℕ} {v : List Jobid}
    (h : alookup b s.queue = some v) : List.Sorted (· < ·) v ∧ v ≠ [] :=
  w.2.1 (b, v) (alookup_mem h)

theorem WFq.lookup_att {s : State} (w : WFq s) {b : ℕ} {v : List Jobid}
    (h : alookup b s.queue = some v) {j : Jobid} (hj : j ∈ v) :
    alookup j s.attained = some b :=
  w.2.2.2.1 (b, v) (alookup_mem h) j hj

theorem WFq.att_lookup {s : State} (w : WFq s) {j : Jobid} {bj : ℕ}
    (h : alookup j s.attained = some bj) :
    ∃ v, alookup bj s.queue = some v ∧ j ∈ v := by
  obtain ⟨p, hp, h1, h2⟩ := w.2.2.2.2 (j, bj) (alookup_mem h)
  have h1' : p.1 = bj := h1
  refine ⟨p.2, ?_, h2⟩
  have hm : (bj, p.2) ∈ s.queue := by
    rw [← h1']
    exact Prod.mk.eta.symm ▸ hp
  exact (mem_iff_alookup w.1.nodup).mp hm

theorem WFq_of_alookup {s : State}
    (h1 : (akeys s.queue).Sorted (· < ·))
    (h2 : ∀ b v, alookup b s.queue = some v → List.Sorted (· < ·) v ∧ v ≠ [])
    (h3 : (akeys s.attained).Nodup)
    (h4 : ∀ b v, alookup b s.queue = some v → ∀ j ∈ v,
      alookup j s.attained = some b)
    (h5 : ∀ j bj, alookup j s.attained = some bj →
      ∃ v, alookup bj s.queue = some v ∧ j ∈ v) : WFq s := by
  refine ⟨h1, fun p hp => ?_, h3, fun p hp j hj => ?_, fun pr hpr => ?_⟩
  · exact h2 p.1 p.2 ((mem_iff_alookup h1.nodup).mp hp)
  · exact h4 p.1 p.2 ((mem_iff_alookup h1.nodup).mp hp) j hj
  · obtain ⟨v, hv, hj⟩ := h5 pr.1 pr.2 ((mem_iff_alookup h3).mp hpr)
    exact ⟨(pr.2, v), alookup_mem hv, rfl, hj⟩

/-- Characterization of the buckets of `removeGroup`. -/
theorem removeGroup_some {att : ℕ} {g : List Jobid} {q : List (ℕ × List Jobid)}
    (hnd : (akeys q).Nodup) {c : ℕ} {v : List Jobid}
    (hv : alookup c (removeGroup att g q) = some v) :
    (c = att ∧ ∃ b0, alookup att q = some b0 ∧ v = sdiff b0 g ∧ v ≠ []) ∨
      (c ≠ att ∧ alookup c q = some v) := by
  rw [alookup_removeGroup hnd] at hv
  by_cases hc : c = att
  · subst hc
    rw [if_pos rfl] at hv
    left
    refine ⟨rfl, ?_⟩
    cases hb : alookup c q with
    | none => rw [hb] at hv; cases hv
    | some b0 =>
      rw [hb] at hv
      dsimp only at hv
      by_cases he : (sdiff b0 g).isEmpty
      · rw [if_pos he] at hv; cases hv
      · rw [if_neg he] at hv
        injection hv with hv
        subst hv
        exact ⟨b0, rfl, rfl, fun hn => he (List.isEmpty_iff.mpr hn)⟩
  · rw [if_neg hc] at hv
    exact Or.inr ⟨hc, hv⟩

theorem removeGroup_att {att : ℕ} {g : List Jobid} {q : List (ℕ × List Jobid)}
    (hnd : (akeys q).Nodup) {b0 : List Jobid}
    (hb : alookup att q = some b0) (hne : sdiff b0 g ≠ []) :
    alookup att (removeGroup att g q) = some (sdiff b0 g) := by
  rw [alookup_removeGroup hnd, if_pos rfl, hb]
  dsimp only
  rw [if_neg (fun he => hne (List.isEmpty_iff.mp he))]

theorem removeGroup_ne {att : ℕ} {g : List Jobid} {q : List (ℕ × List Jobid)}
    (hnd : (akeys q).Nodup) {c : ℕ} (hc : c ≠ att) :
    alookup c (removeGroup att g q) = alookup c q := by
  rw [alookup_removeGroup hnd, if_neg hc]

/-- `LAS.updateCore` preserves the queue/attained invariants, provided the
moved group is canonical and its live members sit at the recorded bucket, and
it does not change the set of attained jobids. -/
theorem updateCore_WFq {s : State} (w : WFq s) (delta att : ℕ) (service : ℚ)
    (g : List Jobid) (hsl : ∀ j ∈ g, ∀ bj, alookup j s.attained = some bj → bj = att) :
    WFq (updateCore delta att service g s) ∧
      akeys (updateCore delta att service g s).attained = akeys s.attained := by
  have hqnd : (akeys s.queue).Nodup := w.qkeys_sorted.nodup
  have hq1s : (akeys (removeGroup att g s.queue)).Sorted (· < ·) :=
    sorted_akeys_removeGroup w.qkeys_sorted
  -- any bucket of q1 is sorted and nonempty, and its jobs are attained at it
  have hq1bucket : ∀ c v, alookup c (removeGroup att g s.queue) = some v →
      List.Sorted (· < ·) v ∧ v ≠ [] := by
    intro c v hv
    rcases removeGroup_some hqnd hv with ⟨rfl, b0, hb0, rfl, hne⟩ | ⟨_, hv⟩
    · exact ⟨sorted_sdiff (w.bucket_lookup hb0).1, hne⟩
    · exact w.bucket_lookup hv
  have hq1att : ∀ c v, alookup c (removeGroup att g s.queue) = some v →
      ∀ j ∈ v, alookup j s.attained = some c := by
    intro c v hv j hj
    rcases removeGroup_some hqnd hv with ⟨rfl, b0, hb0, rfl, _⟩ | ⟨_, hv⟩
    · exact w.lookup_att hb0 (mem_sdiff.mp hj).1
    · exact w.lookup_att hv hj
  rw [updateCore]
  by_cases hle : (liveOf g s.attained).isEmpty
  · rw [if_pos hle]
    have hlive_nil : liveOf g s.attained = [] := List.isEmpty_iff.mp hle
    have hnotlive : ∀ j, j ∈ g → j ∈ akeys s.attained → False := by
      intro j hj ha
      have : j ∈ liveOf g s.attained := mem_liveOf.mpr ⟨hj, ha⟩
      rw [hlive_nil] at this
      simp at this
    refine ⟨WFq_of_alookup hq1s hq1bucket w.att_nodup hq1att ?_, rfl⟩
    intro j bj ha
    obtain ⟨v, hv, hj⟩ := w.att_lookup ha
    have hja : j ∈ akeys s.attained := by
      rw [← alookup_isSome_iff_mem_akeys, ha]; rfl
    by_cases hbj : bj = att
    · subst hbj
      have hjg : j ∉ g := fun hjg => hnotlive j hjg hja
      have hmem : j ∈ sdiff v g := mem_sdiff.mpr ⟨hj, hjg⟩
      have hne : sdiff v g ≠ [] := fun hn => by rw [hn] at hmem; simp at hmem
      exact ⟨sdiff v g, removeGroup_att hqnd hv hne, hmem⟩
    · exact ⟨v, (removeGroup_ne hqnd hbj).trans hv, hj⟩
  · rw [if_neg hle]
    have hlive_ne : liveOf g s.attained ≠ [] := by
      intro hn
      rw [List.isEmpty_iff] at hle
      exact hle hn
    have hsub : ∀ j ∈ liveOf g s.attained, j ∈ akeys s.attained :=
      fun j hj => (mem_liveOf.mp hj).2
    have hkeys := @akeys_foldl_aset (coalesce (removeGroup att g s.queue)
      (att + intceil (service * (delta : ℚ)))) (liveOf g s.attained) s.attained hsub
    refine ⟨?_, hkeys⟩
    set na := coalesce (removeGroup att g s.queue)
      (att + intceil (service * (delta : ℚ))) with hna
    -- looking up the new attained map
    have hA : ∀ j, alookup j ((liveOf g s.attained).foldl
        (fun a j' => aset j' na a) s.attained) =
        if j ∈ liveOf g s.attained then some na else alookup j s.attained :=
      fun j => alookup_foldl_aset j _ _
    -- jobs of a surviving q1 bucket c ≠ att are not live
    have hnotlive_q1 : ∀ c v, c ≠ att → alookup c (removeGroup att g s.queue) = some v →
        ∀ j ∈ v, j ∉ liveOf g s.attained := by
      intro c v hc hv j hj hl
      obtain ⟨hjg, _⟩ := mem_liveOf.mp hl
      exact hc ((hsl j hjg c (hq1att c v hv j hj)).symm ▸ rfl)
    refine WFq_of_alookup ?_ ?_ ?_ ?_ ?_
    · exact sorted_akeys_bucketUnion hq1s
    · intro c v hv
      dsimp only at hv
      rw [alookup_bucketUnion] at hv
      by_cases hc : c = na
      · rw [if_pos hc] at hv
        injection hv with hv
        subst hv
        constructor
        · apply sorted_sunion
          cases hq : alookup na (removeGroup att g s.queue) with
          | none => exact List.sorted_nil
          | some v1 => exact (hq1bucket na v1 hq).1
        · exact sunion_ne_nil hlive_ne
      · rw [if_neg hc] at hv
        exact hq1bucket c v hv
    · dsimp only
      exact hkeys.symm ▸ w.att_nodup
    · intro c v hv j hj
      dsimp only at hv ⊢
      rw [alookup_bucketUnion] at hv
      rw [hA j]
      by_cases hc : c = na
      · subst hc
        rw [if_pos rfl] at hv
        injection hv with hv
        subst hv
        by_cases hjl : j ∈ liveOf g s.attained
        · rw [if_pos hjl]
        · rw [if_neg hjl]
          rcases mem_sunion.mp hj with hjy | hjy
          · exact absurd hjy hjl
          · cases hq : alookup na (removeGroup att g s.queue) with
            | none => rw [hq] at hjy; simp at hjy
            | some v1 =>
              rw [hq] at hjy
              exact hq1att na v1 hq j hjy
      · rw [if_neg hc] at hv
        have hjl : j ∉ liveOf g s.attained := by
          by_cases hcatt : c = att
          · subst hcatt
            rcases removeGroup_some hqnd hv with ⟨_, b0, hb0, rfl, _⟩ | ⟨hne, _⟩
            · intro hl
              exact (mem_sdiff.mp hj).2 (mem_liveOf.mp hl).1
            · exact absurd rfl hne
          · exact hnotlive_q1 c v hcatt hv j hj
        rw [if_neg hjl]
        exact hq1att c v hv j hj
    · intro j bj ha
      dsimp only at ha ⊢
      rw [hA j] at ha
      by_cases hjl : j ∈ liveOf g s.attained
      · rw [if_pos hjl] at ha
        injection ha with ha
        subst ha
        refine ⟨sunion (liveOf g s.attained)
          ((alookup na (removeGroup att g s.queue)).getD []), ?_, ?_⟩
        · rw [alookup_bucketUnion, if_pos rfl]
        · exact mem_sunion.mpr (Or.inl hjl)
      · rw [if_neg hjl] at ha
        obtain ⟨v, hv, hj⟩ := w.att_lookup ha
        have hja : j ∈ akeys s.attained := by
          rw [← alookup_isSome_iff_mem_akeys, ha]; rfl
        by_cases hbj : bj = att
        · subst hbj
          have hjg : j ∉ g := fun hjg => hjl (mem_liveOf.mpr ⟨hjg, hja⟩)
          have hmem : j ∈ sdiff v g := mem_sdiff.mpr ⟨hj, hjg⟩
          have hne : sdiff v g ≠ [] := fun hn => by rw [hn] at hmem; simp at hmem
          have hq1 : alookup bj (removeGroup bj g s.queue) = some (sdiff v g) :=
            removeGroup_att hqnd hv hne
          by_cases hatt : bj = na
          · rw [hatt] at hq1
            refine ⟨sunion (liveOf g s.attained)
              ((alookup na (removeGroup na g s.queue)).getD []), ?_, ?_⟩
            · rw [hatt, alookup_bucketUnion, if_pos rfl]
            · rw [hq1]
              exact mem_sunion.mpr (Or.inr hmem)
          · refine ⟨sdiff v g, ?_, hmem⟩
            rw [alookup_bucketUnion, if_neg hatt]
            exact hq1
        · have hq1v : alookup bj (removeGroup att g s.queue) = some v :=
            (removeGroup_ne hqnd hbj).trans hv
          by_cases hbjna : bj = na
          · subst hbjna
            refine ⟨sunion (liveOf g s.attained)
              ((alookup na (removeGroup att g s.queue)).getD []), ?_, ?_⟩
            · rw [alookup_bucketUnion, if_pos rfl]
            · rw [hq1v]
              exact mem_sunion.mpr (Or.inr hj)
          · refine ⟨v, ?_, hj⟩
            rw [alookup_bucketUnion, if_neg hbjna]
            exact hq1v

theorem updateCore_scheduled (delta att : ℕ) (service : ℚ) (g : List Jobid)
    (s : State) : (updateCore delta att service g s).scheduled = s.scheduled := by
  rw [updateCore]; split <;> rfl

theorem updateCore_eps (delta att : ℕ) (service : ℚ) (g : List Jobid)
    (s : State) : (updateCore delta att service g s).eps = s.eps := by
  rw [updateCore]; split <;> rfl

/-- `LAS.update` preserves the queue/attained invariants, the key list of
`attained`, and the `scheduled` snapshot. -/
theorem update_WFq {s : State} (w : WF s) (t : Time) :
    WFq (update t s) ∧ akeys (update t s).attained = akeys s.attained ∧
      (update t s).scheduled = s.scheduled := by
  obtain ⟨wq, hsch⟩ := w
  rw [update]
  cases hs : s.scheduled with
  | none => exact ⟨wq, rfl, rfl⟩
  | some p =>
    obtain ⟨att, service, g⟩ := p
    have hsOK : List.Sorted (· < ·) g ∧
        ∀ j ∈ g, ∀ pr ∈ s.attained, pr.1 = j → pr.2 = att := by
      have h2 := hsch
      unfold schedOK at h2
      rw [hs] at h2
      exact h2
    have hsl : ∀ j ∈ g, ∀ bj, alookup j s.attained = some bj → bj = att :=
      fun j hj bj ha => hsOK.2 j hj (j, bj) (alookup_mem ha) rfl
    have h := updateCore_WFq wq (intceil ((t - s.last_t) / s.eps)) att service g hsl
    exact ⟨h.1, h.2, (updateCore_scheduled _ _ _ _ _).trans hs⟩

theorem alookup_bucketAdd {b : ℕ} {j : Jobid} {q : List (ℕ × List Jobid)}
    (c : ℕ) :
    alookup c (bucketAdd b j q) =
      if c = b then some (sinsert j ((alookup b q).getD [])) else alookup c q := by
  rw [bucketAdd]
  cases hb : alookup b q with
  | none => rw [alookup_qset]; rfl
  | some v => rw [alookup_qset]; rfl

theorem sorted_akeys_bucketAdd {b : ℕ} {j : Jobid} {q : List (ℕ × List Jobid)}
    (hs : (akeys q).Sorted (· < ·)) :
    (akeys (bucketAdd b j q)).Sorted (· < ·) := by
  rw [bucketAdd]
  cases alookup b q <;> exact sorted_akeys_qset hs

theorem aset_fresh {α : Type} {k : ℕ} {v : α} :
    ∀ {l : List (ℕ × α)}, k ∉ akeys l → aset k v l = l ++ [(k, v)]
  | [], _ => rfl
  | (pk, pv) :: t, h => by
    have h1 : ¬ k = pk := fun he => h (he ▸ List.mem_cons_self _ _)
    have ht : k ∉ akeys t := fun hm => h (List.mem_cons_of_mem _ hm)
    rw [aset, if_neg h1, aset_fresh ht]
    rfl

/-- `LAS.enqueue` of a globally fresh jobid preserves well-formedness and
appends the job to the attained keys. -/
theorem enqueue_WF {s : State} (w : WF s) (t : Time) (j : Jobid) (sz : ℚ)
    (hfresh : j ∉ akeys s.attained)
    (hg : ∀ b sv g, s.scheduled = some (b, sv, g) → j ∉ g) :
    WF (enqueue t j sz s) ∧
      akeys (enqueue t j sz s).attained = akeys s.attained ++ [j] := by
  obtain ⟨wq, hsch⟩ := w
  have hkeys : akeys (aset j 0 s.attained) = akeys s.attained ++ [j] :=
    akeys_aset_fresh hfresh
  have hA : ∀ j', alookup j' (aset j 0 s.attained) =
      if j' = j then some 0 else alookup j' s.attained := fun j' => alookup_aset
  have hnd' : (akeys (aset j 0 s.attained)).Nodup := by
    rw [hkeys]
    refine wq.att_nodup.append (by simp) ?_
    intro x hx hx2
    rw [List.mem_singleton] at hx2
    subst hx2
    exact hfresh hx
  have hjold : ∀ c v, alookup c s.queue = some v → j ∉ v := by
    intro c v hv hj
    exact hfresh (by
      rw [← alookup_isSome_iff_mem_akeys, wq.lookup_att hv hj]; rfl)
  refine ⟨⟨WFq_of_alookup (sorted_akeys_bucketAdd wq.qkeys_sorted) ?_ hnd' ?_ ?_,
    ?_⟩, hkeys⟩
  · intro c v hv
    rw [show (enqueue t j sz s).queue = bucketAdd 0 j s.queue from rfl,
      alookup_bucketAdd] at hv
    by_cases hc : c = 0
    · rw [if_pos hc] at hv
      injection hv with hv
      subst hv
      constructor
      · apply sorted_sinsert
        cases hb : alookup 0 s.queue with
        | none => exact List.sorted_nil
        | some v0 => exact (wq.bucket_lookup hb).1
      · exact sinsert_ne_nil _ _
    · rw [if_neg hc] at hv
      exact wq.bucket_lookup hv
  · intro c v hv j' hj'
    rw [show (enqueue t j sz s).queue = bucketAdd 0 j s.queue from rfl,
      alookup_bucketAdd] at hv
    rw [show (enqueue t j sz s).attained = aset j 0 s.attained from rfl, hA j']
    by_cases hc : c = 0
    · subst hc
      rw [if_pos rfl] at hv
      injection hv with hv
      subst hv
      rcases mem_sinsert.mp hj' with rfl | hj'
      · rw [if_pos rfl]
      · cases hb : alookup 0 s.queue with
        | none => rw [hb] at hj'; simp at hj'
        | some v0 =>
          rw [hb] at hj'
          have : j' ≠ j := fun he => hjold 0 v0 hb (he ▸ hj')
          rw [if_neg this]
          exact wq.lookup_att hb hj'
    · rw [if_neg hc] at hv
      have : j' ≠ j := fun he => hjold c v hv (he ▸ hj')
      rw [if_neg this]
      exact wq.lookup_att hv hj'
  · intro j' bj ha
    rw [show (enqueue t j sz s).attained = aset j 0 s.attained from rfl,
      hA j'] at ha
    simp only [show (enqueue t j sz s).queue = bucketAdd 0 j s.queue from rfl]
    by_cases hj' : j' = j
    · rw [if_pos hj'] at ha
      injection ha with ha
      subst ha
      subst hj'
      refine ⟨sinsert j' ((alookup 0 s.queue).getD []), ?_, ?_⟩
      · rw [alookup_bucketAdd, if_pos rfl]
      · exact mem_sinsert.mpr (Or.inl rfl)
    · rw [if_neg hj'] at ha
      obtain ⟨v, hv, hjv⟩ := wq.att_lookup ha
      by_cases hbj : bj = 0
      · subst hbj
        refine ⟨sinsert j ((alookup 0 s.queue).getD []), ?_, ?_⟩
        · rw [alookup_bucketAdd, if_pos rfl]
        · rw [hv]
          exact mem_sinsert.mpr (Or.inr hjv)
      · refine ⟨v, ?_, hjv⟩
        rw [alookup_bucketAdd, if_neg hbj]
        exact hv
  · show schedOK _
    unfold schedOK
    rw [show (enqueue t j sz s).scheduled = s.scheduled from rfl]
    cases hs : s.scheduled with
    | none => exact trivial
    | some p =>
      obtain ⟨b, sv, g⟩ := p
      have h2 := hsch
      unfold schedOK at h2
      rw [hs] at h2
      refine ⟨h2.1, ?_⟩
      intro j' hj' pr hpr hpe
      rw [show (enqueue t j sz s).attained = aset j 0 s.attained from rfl,
        aset_fresh hfresh] at hpr
      rcases List.mem_append.mp hpr with hpr | hpr
      · exact h2.2 j' hj' pr hpr hpe
      · obtain rfl : pr = (j, (0 : ℕ)) := by simpa using hpr
        refine absurd ?_ (hg b sv g hs)
        rw [show j = j' from hpe]
        exact hj'

/-- `LAS.dequeue` of a present jobid succeeds, preserves well-formedness, and
removes the job from the attained keys. -/
theorem dequeue_WF {s : State} (w : WF s) (t : Time) {j : Jobid}
    (hj : j ∈ akeys s.attained) :
    ∃ s', dequeue t j s = .ok s' ∧ WF s' ∧
      akeys s'.attained = (akeys s.attained).erase j ∧
      s'.scheduled = s.scheduled ∧ s'.eps = s.eps ∧ s'.last_t = s.last_t := by
  obtain ⟨wq, hsch⟩ := w
  obtain ⟨bj, ha⟩ : ∃ bj, alookup j s.attained = some bj := by
    cases hl : alookup j s.attained with
    | none => exact absurd (alookup_eq_none_iff.mp hl) (by simpa using hj)
    | some bj => exact ⟨bj, rfl⟩
  obtain ⟨v, hv, hjv⟩ := wq.att_lookup ha
  have hvnd : v.Nodup := (wq.bucket_lookup hv).1.nodup
  have hvne : v ≠ [] := (wq.bucket_lookup hv).2
  have hstep : dequeue t j s = .ok
      { s with queue := if v.length = 1 then aerase bj s.queue
                        else qset bj (v.erase j) s.queue
               attained := aerase j s.attained } := by
    rw [dequeue, ha]
    dsimp only
    rw [hv]
  refine ⟨_, hstep, ?_, ?_, rfl, rfl, rfl⟩
  on_goal 2 => exact akeys_aerase wq.att_nodup
  have hq' : ∀ c, alookup c (if v.length = 1 then aerase bj s.queue
      else qset bj (v.erase j) s.queue) =
      if c = bj then (if v.length = 1 then none else some (v.erase j))
      else alookup c s.queue := by
    intro c
    by_cases hl : v.length = 1
    · rw [if_pos hl, if_pos hl, alookup_aerase wq.qkeys_sorted.nodup]
    · rw [if_neg hl, if_neg hl, alookup_qset]
  have hA' : ∀ j', alookup j' (aerase j s.attained) =
      if j' = j then none else alookup j' s.attained :=
    fun j' => alookup_aerase wq.att_nodup
  have hv1 : v.length = 1 → v = [j] := by
    intro h1
    obtain ⟨x, rfl⟩ := List.length_eq_one.mp h1
    obtain rfl : j = x := by simpa using hjv
    rfl
  have hsorted' : (akeys (if v.length = 1 then aerase bj s.queue
      else qset bj (v.erase j) s.queue)).Sorted (· < ·) := by
    by_cases hl : v.length = 1
    · rw [if_pos hl, akeys_aerase wq.qkeys_sorted.nodup]
      exact sorted_erase wq.qkeys_sorted
    · rw [if_neg hl]
      exact sorted_akeys_qset wq.qkeys_sorted
  refine ⟨WFq_of_alookup hsorted' ?_ ?_ ?_ ?_, ?_⟩
  · intro c v' hv'
    dsimp only at hv'
    rw [hq' c] at hv'
    by_cases hc : c = bj
    · rw [if_pos hc] at hv'
      by_cases hl : v.length = 1
      · rw [if_pos hl] at hv'; cases hv'
      · rw [if_neg hl] at hv'
        injection hv' with hv'
        subst hv'
        refine ⟨sorted_erase (wq.bucket_lookup hv).1, ?_⟩
        intro hn
        have hlen := List.length_erase_of_mem hjv
        rw [hn] at hlen
        simp only [List.length_nil] at hlen
        have h0 : v.length ≠ 0 := by
          intro h0
          exact hvne (List.length_eq_zero.mp h0)
        omega
    · rw [if_neg hc] at hv'
      exact wq.bucket_lookup hv'
  · show (akeys (aerase j s.attained)).Nodup
    rw [akeys_aerase wq.att_nodup]
    exact wq.att_nodup.erase j
  · intro c v' hv' j' hj'
    dsimp only at hv' ⊢
    rw [hq' c] at hv'
    rw [hA' j']
    by_cases hc : c = bj
    · rw [if_pos hc] at hv'
      by_cases hl : v.length = 1
      · rw [if_pos hl] at hv'; cases hv'
      · rw [if_neg hl] at hv'
        injection hv' with hv'
        subst hv'
        have hne : j' ≠ j := ((hvnd.mem_erase_iff).mp hj').1
        rw [if_neg hne]
        exact hc ▸ wq.lookup_att hv ((hvnd.mem_erase_iff).mp hj').2
    · rw [if_neg hc] at hv'
      have hne : j' ≠ j := by
        intro he
        subst he
        have h2 := wq.lookup_att hv' hj'
        rw [ha] at h2
        injection h2 with h2
        exact hc h2.symm
      rw [if_neg hne]
      exact wq.lookup_att hv' hj'
  · intro j' bj' ha'
    dsimp only at ha' ⊢
    rw [hA' j'] at ha'
    by_cases hne : j' = j
    · rw [if_pos hne] at ha'; cases ha'
    · rw [if_neg hne] at ha'
      obtain ⟨v', hv', hjv'⟩ := wq.att_lookup ha'
      by_cases hb : bj' = bj
      · have hvv : v' = v := by
          rw [hb] at hv'
          rw [hv'] at hv
          injection hv
        subst hvv
        have hl : v'.length ≠ 1 := by
          intro hl
          have : j' ∈ v' := hjv'
          rw [hv1 hl] at this
          rw [List.mem_singleton] at this
          exact hne this
        refine ⟨v'.erase j, ?_, ?_⟩
        · rw [hq' bj', if_pos hb, if_neg hl]
        · exact (hvnd.mem_erase_iff).mpr ⟨hne, hjv'⟩
      · refine ⟨v', ?_, hjv'⟩
        rw [hq' bj', if_neg hb]
        exact hv'
  · show schedOK _
    unfold schedOK
    have hse : ({ s with
        queue := if v.length = 1 then aerase bj s.queue
          else qset bj (v.erase j) s.queue,
        attained := aerase j s.attained } : State).scheduled = s.scheduled := rfl
    rw [hse]
    cases hs : s.scheduled with
    | none => exact trivial
    | some p =>
      obtain ⟨b, sv, g⟩ := p
      have h2 := hsch
      unfold schedOK at h2
      rw [hs] at h2
      refine ⟨h2.1, ?_⟩
      intro j' hj' pr hpr hpe
      have hpr2 : pr ∈ s.attained := ((mem_aerase wq.att_nodup).mp hpr).2
      exact h2.2 j' hj' pr hpr2 hpe

/-- `LAS.schedule` from a well-formed state: it succeeds, the result state is
well-formed with the same attained keys, and the allocation is the
equal-shares map of the smallest bucket (empty when the queue is empty). -/
theorem schedule_WF {s : State} (w : WF s) (t : Time) :
    ∃ s' a, schedule t s = .ok (s', a) ∧ WF s' ∧
      akeys s'.attained = akeys s.attained ∧
      ((s'.queue = [] ∧ a = [] ∧ s'.scheduled = none) ∨
        (∃ att v rest, s'.queue = (att, v) :: rest ∧ v ≠ [] ∧
          a = equalShares v ∧
          s'.scheduled = some (att, (v.length : ℚ)⁻¹, v))) := by
  obtain ⟨wq1, hkeys, _⟩ := update_WFq w t
  rw [schedule]
  cases hq : (update t s).queue with
  | nil =>
    refine ⟨_, _, rfl, ⟨wq1, ?_⟩, hkeys, Or.inl ⟨hq, rfl, rfl⟩⟩
    show schedOK _
    unfold schedOK
    exact trivial
  | cons p rest =>
    obtain ⟨att, v⟩ := p
    have hvsome : alookup att (update t s).queue = some v := by
      rw [hq, alookup, if_pos rfl]
    have hvfacts := wq1.bucket_lookup hvsome
    refine ⟨_, _, rfl, ⟨wq1, ?_⟩, hkeys,
      Or.inr ⟨att, v, rest, hq, hvfacts.2, rfl, rfl⟩⟩
    show schedOK _
    unfold schedOK
    refine ⟨hvfacts.1, ?_⟩
    intro j' hj' pr hpr hpe
    have hatt : alookup j' (update t s).attained = some att :=
      wq1.lookup_att hvsome hj'
    have hpr2 := mem_alookup wq1.att_nodup hpr
    rw [hpe, hatt] at hpr2
    injection hpr2 with h3
    exact h3.symm

/-! ### Idempotence of `LAS.schedule` at a fixed time

Two invariants hold in every driver run and are preserved by all three
operations: occupied buckets at distance 1 never coexist except for the pair
`(0, 1)` created by an `enqueue`, and in that case bucket 1 is exactly the
recorded scheduled group (so the next `update` empties it).  Under them the
queue produced by `update` has no two adjacent occupied buckets at all, and a
repeated `schedule` at the same `t` (hence `delta_buckets = 0`) removes the
scheduled group and coalesces it straight back into its own bucket. -/

/-- No two buckets `b`, `b + 1` with `1 ≤ b` are simultaneously occupied. -/
def AdjInv (s : State) : Prop :=
  ∀ b ∈ akeys s.queue, 1 ≤ b → b + 1 ∉ akeys s.queue

/-- If bucket 1 is occupied, the recorded scheduled group sits at bucket 1
and covers it (so the next `update` empties bucket 1). -/
def OneInv (s : State) : Prop :=
  1 ∈ akeys s.queue →
    match s.scheduled with
    | none => False
    | some (b, _, g) => b = 1 ∧ ∀ j ∈ (alookup 1 s.queue).getD [], j ∈ g

instance (s : State) : Decidable (AdjInv s) := by
  unfold AdjInv
  infer_instance

instance (s : State) : Decidable (OneInv s) := by
  unfold OneInv
  cases s.scheduled with
  | none => exact inferInstanceAs (Decidable (_ → False))
  | some p =>
    obtain ⟨b, sv, g⟩ := p
    exact inferInstanceAs (Decidable (_ → _ ∧ _))

theorem intceil_zero : intceil 0 = 0 := by
  rw [intceil, Int.ceil_zero]
  rfl

/-- Re-storing the value a key already holds is the identity. -/
theorem aset_same {α : Type} {k : ℕ} {v : α} :
    ∀ {l : List (ℕ × α)}, alookup k l = some v → aset k v l = l
  | [], h => by simp [alookup] at h
  | (k1, v1) :: tl, h => by
    by_cases hk : k = k1
    · subst hk
      rw [alookup, if_pos rfl] at h
      injection h with h
      rw [aset, if_pos rfl, h]
    · rw [alookup, if_neg hk] at h
      rw [aset, if_neg hk, aset_same h]

theorem foldl_aset_same {c : ℕ} :
    ∀ (g : List Jobid) (l : List (Jobid × ℕ)),
      (∀ j ∈ g, alookup j l = some c) →
      g.foldl (fun a j => aset j c a) l = l
  | [], _, _ => rfl
  | j :: tl, l, h => by
    rw [List.foldl_cons, aset_same (h j (List.mem_cons_self _ _))]
    exact foldl_aset_same tl l (fun x hx => h x (List.mem_cons_of_mem _ hx))

theorem sdiff_self (v : List Jobid) : sdiff v v = [] := by
  rw [sdiff, List.filter_eq_nil_iff]
  intro a ha
  simp [ha]

/-- Inserting below every existing key conses in front. -/
theorem qset_below {b : ℕ} {v : List Jobid} {q : List (ℕ × List Jobid)}
    (h : ∀ x ∈ akeys q, b < x) : qset b v q = (b, v) :: q := by
  cases q with
  | nil => rfl
  | cons p tl =>
    obtain ⟨b1, v1⟩ := p
    rw [qset, if_pos (h b1 (List.mem_cons_self _ _))]

theorem removeGroup_isSome {att : ℕ} {g : List Jobid}
    {q : List (ℕ × List Jobid)} (hnd : (akeys q).Nodup) {c : ℕ}
    (h : (alookup c (removeGroup att g q)).isSome) :
    (alookup c q).isSome := by
  rw [alookup_removeGroup hnd] at h
  by_cases hc : c = att
  · rw [if_pos hc] at h
    subst hc
    cases hb : alookup c q with
    | none => rw [hb] at h; simp at h
    | some b => rfl
  · rw [if_neg hc] at h
    exact h

/-- A bucket entirely contained in the removed group disappears. -/
theorem removeGroup_covered {att : ℕ} {g : List Jobid}
    {q : List (ℕ × List Jobid)} (hnd : (akeys q).Nodup) {b0 : List Jobid}
    (hb : alookup att q = some b0) (hsub : ∀ j ∈ b0, j ∈ g) :
    alookup att (removeGroup att g q) = none := by
  rw [alookup_removeGroup hnd, if_pos rfl, hb]
  dsimp only
  have hnil : sdiff b0 g = [] := by
    rw [sdiff, List.filter_eq_nil_iff]
    intro a ha
    simp [hsub a ha]
  rw [if_pos (by rw [hnil]; rfl)]

/-- The four outcomes of the coalescing lookup. -/
theorem coalesce_cases (q : List (ℕ × List Jobid)) (n : ℕ) :
    (coalesce q n = n ∧ (alookup n q).isSome) ∨
    (coalesce q n = n - 1 ∧ 0 < n ∧ (alookup (n - 1) q).isSome) ∨
    (coalesce q n = n + 1 ∧ (alookup (n + 1) q).isSome) ∨
    (coalesce q n = n ∧ alookup n q = none ∧ alookup (n + 1) q = none ∧
      ¬ (0 < n ∧ (alookup (n - 1) q).isSome = true)) := by
  rw [coalesce]
  by_cases h1 : (alookup n q).isSome
  · rw [if_pos h1]
    exact Or.inl ⟨rfl, h1⟩
  · rw [if_neg h1]
    by_cases h2 : 0 < n ∧ (alookup (n - 1) q).isSome = true
    · rw [if_pos h2]
      exact Or.inr (Or.inl ⟨rfl, h2.1, h2.2⟩)
    · rw [if_neg h2]
      by_cases h3 : (alookup (n + 1) q).isSome
      · rw [if_pos h3]
        exact Or.inr (Or.inr (Or.inl ⟨rfl, h3⟩))
      · rw [if_neg h3]
        refine Or.inr (Or.inr (Or.inr ⟨rfl, ?_, ?_, h2⟩))
        · exact Option.not_isSome_iff_eq_none.mp h1
        · exact Option.not_isSome_iff_eq_none.mp h3

/-- Merging a group into an already-occupied bucket adds no key, so it cannot
create an adjacent occupied pair if none existed. -/
theorem no_adjacent_merge {q1 : List (ℕ × List Jobid)}
    (H1 : ∀ x, (alookup x q1).isSome → alookup (x + 1) q1 = none)
    {c : ℕ} (Hc : (alookup c q1).isSome) {b : ℕ} {live : List Jobid}
    (hb : (alookup b (bucketUnion c live q1)).isSome)
    (hb1 : (alookup (b + 1) (bucketUnion c live q1)).isSome) : False := by
  rw [alookup_bucketUnion] at hb hb1
  by_cases hbc : b = c
  · have hne : ¬ (b + 1 = c) := by omega
    rw [if_neg hne] at hb1
    have h0 := H1 c Hc
    rw [hbc, h0] at hb1
    simp at hb1
  · rw [if_neg hbc] at hb
    by_cases hbc1 : b + 1 = c
    · have h0 := H1 b hb
      rw [← hbc1, h0] at Hc
      simp at Hc
    · rw [if_neg hbc1] at hb1
      have h0 := H1 b hb
      rw [h0] at hb1
      simp at hb1

/-- Re-inserting any set at the bucket `coalesce` picks cannot create two
adjacent occupied buckets, provided the remainder had none. -/
theorem bucketUnion_coalesce_no_adjacent {q1 : List (ℕ × List Jobid)}
    (H1 : ∀ x, (alookup x q1).isSome → alookup (x + 1) q1 = none)
    (n : ℕ) (live : List Jobid) :
    ∀ b, (alookup b (bucketUnion (coalesce q1 n) live q1)).isSome →
      alookup (b + 1) (bucketUnion (coalesce q1 n) live q1) = none := by
  intro b hb
  by_contra hcon
  have hb1 : (alookup (b + 1) (bucketUnion (coalesce q1 n) live q1)).isSome :=
    Option.ne_none_iff_isSome.mp hcon
  rcases coalesce_cases q1 n with ⟨hC, hCs⟩ | ⟨hC, hpos, hCs⟩ | ⟨hC, hCs⟩ |
    ⟨hC, hn1, hn3, hn2⟩
  · exact no_adjacent_merge H1 (by rw [hC]; exact hCs) hb hb1
  · exact no_adjacent_merge H1 (by rw [hC]; exact hCs) hb hb1
  · exact no_adjacent_merge H1 (by rw [hC]; exact hCs) hb hb1
  · rw [alookup_bucketUnion, hC] at hb hb1
    by_cases hbc : b = n
    · have hne : ¬ (b + 1 = n) := by omega
      rw [if_neg hne] at hb1
      rw [hbc, hn3] at hb1
      simp at hb1
    · rw [if_neg hbc] at hb
      by_cases hbc1 : b + 1 = n
      · refine hn2 ⟨by omega, ?_⟩
        have hb' : n - 1 = b := by omega
        rw [hb']
        exact hb
      · rw [if_neg hbc1] at hb1
        have h0 := H1 b hb
        rw [h0] at hb1
        simp at hb1

/-- Removing the scheduled group leaves a queue with no adjacent occupied
buckets: pairs above bucket 0 are excluded by `AdjInv`, and a pair `(0, 1)`
is excluded because `OneInv` makes bucket 1 the removed group itself. -/
theorem removeGroup_no_adjacent {s : State} (w : WF s) (hadj : AdjInv s)
    (hone : OneInv s) {att : ℕ} {sv : ℚ} {g : List Jobid}
    (hs : s.scheduled = some (att, sv, g)) :
    ∀ b, (alookup b (removeGroup att g s.queue)).isSome →
      alookup (b + 1) (removeGroup att g s.queue) = none := by
  intro b hb
  by_contra hcon
  have hb1 : (alookup (b + 1) (removeGroup att g s.queue)).isSome :=
    Option.ne_none_iff_isSome.mp hcon
  have hnd : (akeys s.queue).Nodup := w.1.qkeys_sorted.nodup
  have hbq : (alookup b s.queue).isSome := removeGroup_isSome hnd hb
  have hb1q : (alookup (b + 1) s.queue).isSome := removeGroup_isSome hnd hb1
  rcases Nat.eq_zero_or_pos b with rfl | hpos
  · rw [Nat.zero_add] at hb1 hb1q
    have h1mem : 1 ∈ akeys s.queue := alookup_isSome_iff_mem_akeys.mp hb1q
    have h2 := hone h1mem
    rw [hs] at h2
    obtain ⟨hatt1, hsub⟩ := h2
    obtain ⟨v1, hv1⟩ := Option.isSome_iff_exists.mp hb1q
    rw [hv1] at hsub
    simp only [Option.getD_some] at hsub
    have hcov : alookup att (removeGroup att g s.queue) = none :=
      removeGroup_covered hnd (by rw [hatt1]; exact hv1) hsub
    rw [hatt1] at hb1 hcov
    rw [hcov] at hb1
    simp at hb1
  · exact absurd (alookup_isSome_iff_mem_akeys.mp hb1q)
      (hadj b (alookup_isSome_iff_mem_akeys.mp hbq) hpos)

/-- The queue produced by `LAS.update` has no two adjacent occupied buckets:
the moved group lands in an existing neighbour or in a bucket with no
occupied neighbours. -/
theorem update_no_adjacent {s : State} (w : WF s) (hadj : AdjInv s)
    (hone : OneInv s) (t : Time) :
    ∀ b, (alookup b (update t s).queue).isSome →
      alookup (b + 1) (update t s).queue = none := by
  intro b hb
  by_contra hcon
  have hb1 : (alookup (b + 1) (update t s).queue).isSome :=
    Option.ne_none_iff_isSome.mp hcon
  rw [update] at hb hb1
  cases hs : s.scheduled with
  | none =>
    rw [hs] at hb hb1
    dsimp only at hb hb1
    rcases Nat.eq_zero_or_pos b with rfl | hpos
    · rw [Nat.zero_add] at hb1
      have h1mem : 1 ∈ akeys s.queue := alookup_isSome_iff_mem_akeys.mp hb1
      have h2 := hone h1mem
      rw [hs] at h2
      exact h2
    · exact absurd (alookup_isSome_iff_mem_akeys.mp hb1)
        (hadj b (alookup_isSome_iff_mem_akeys.mp hb) hpos)
  | some p =>
    obtain ⟨att, sv, g⟩ := p
    rw [hs] at hb hb1
    dsimp only at hb hb1
    rw [updateCore] at hb hb1
    by_cases hle : (liveOf g s.attained).isEmpty
    · rw [if_pos hle] at hb hb1
      dsimp only at hb hb1
      have h0 := removeGroup_no_adjacent w hadj hone hs b hb
      rw [h0] at hb1
      simp at hb1
    · rw [if_neg hle] at hb hb1
      dsimp only at hb hb1
      have h0 := bucketUnion_coalesce_no_adjacent
        (removeGroup_no_adjacent w hadj hone hs) _ _ b hb
      rw [h0] at hb1
      simp at hb1

theorem update_last_t (t : Time) (s : State) : (update t s).last_t = t := by
  rw [update]
  cases s.scheduled with
  | none => rfl
  | some p =>
    obtain ⟨att, sv, g⟩ := p
    rfl

/-- What a successful `schedule` call returns, case by case. -/
theorem schedule_ok_cases {s s1 : State} {t : Time} {a1 : Alloc}
    (h : schedule t s = .ok (s1, a1)) :
    (s1 = { update t s with scheduled := none } ∧ a1 = [] ∧
      (update t s).queue = []) ∨
    (∃ att v rest, (update t s).queue = (att, v) :: rest ∧
      s1 = { update t s with
        scheduled := some (att, (v.length : ℚ)⁻¹, v) } ∧
      a1 = equalShares v) := by
  rw [schedule] at h
  cases hq : (update t s).queue with
  | nil =>
    rw [hq] at h
    dsimp only at h
    injection h with h
    injection h with h1 h2
    exact Or.inl ⟨h1.symm, h2.symm, rfl⟩
  | cons p rest =>
    obtain ⟨att, v⟩ := p
    rw [hq] at h
    dsimp only at h
    injection h with h
    injection h with h1 h2
    exact Or.inr ⟨att, v, rest, rfl, h1.symm, h2.symm⟩

/-- With `delta = 0` and the scheduled group being exactly the head bucket
(whose upper neighbour is unoccupied), `updateCore` puts the group straight
back: the state is unchanged. -/
theorem updateCore_zero_fix {s1 : State} {att : ℕ} {v : List Jobid}
    {rest : List (ℕ × List Jobid)} (wq : WFq s1)
    (hq : s1.queue = (att, v) :: rest)
    (hnadj : alookup (att + 1) s1.queue = none) (sv : ℚ) :
    updateCore 0 att sv v s1 = s1 := by
  have hvlook : alookup att s1.queue = some v := by
    rw [hq, alookup, if_pos rfl]
  have hvfacts := wq.bucket_lookup hvlook
  have hsorted : (akeys s1.queue).Sorted (· < ·) := wq.qkeys_sorted
  rw [hq] at hsorted
  have hrest_gt : ∀ x ∈ akeys rest, att < x := (List.sorted_cons.mp hsorted).1
  have hattv : ∀ j ∈ v, alookup j s1.attained = some att :=
    fun j hj => wq.lookup_att hvlook hj
  have hlive : liveOf v s1.attained = v := by
    rw [liveOf, List.filter_eq_self]
    intro j hj
    have hmem : j ∈ akeys s1.attained := by
      rw [← alookup_isSome_iff_mem_akeys, hattv j hj]
      rfl
    exact decide_eq_true hmem
  have hlive_ne : ¬ ((liveOf v s1.attained).isEmpty = true) := by
    rw [hlive]
    intro hcontra
    exact hvfacts.2 (List.isEmpty_iff.mp hcontra)
  have hrg : removeGroup att v s1.queue = rest := by
    rw [removeGroup, hvlook]
    dsimp only
    rw [if_pos (by rw [sdiff_self]; rfl)]
    rw [hq, aerase, if_pos rfl]
  have hattlook : alookup att rest = none := by
    rw [alookup_eq_none_iff]
    intro hmem
    exact lt_irrefl att (hrest_gt att hmem)
  have hnextlook : alookup (att + 1) rest = none := by
    rw [hq, alookup, if_neg (by omega)] at hnadj
    exact hnadj
  have hprev : ¬ (0 < att ∧ (alookup (att - 1) rest).isSome = true) := by
    rintro ⟨hpos, hsome⟩
    have hmem := alookup_isSome_iff_mem_akeys.mp hsome
    have hlt := hrest_gt (att - 1) hmem
    omega
  have hco : coalesce rest att = att := by
    rw [coalesce, if_neg (by rw [hattlook]; simp), if_neg hprev,
      if_neg (by rw [hnextlook]; simp)]
  have hbu : bucketUnion att v rest = (att, v) :: rest := by
    rw [bucketUnion, hattlook]
    dsimp only
    rw [sunion_nil hvfacts.1]
    exact qset_below hrest_gt
  have hz : att + intceil (sv * ((0 : ℕ) : ℚ)) = att := by
    rw [Nat.cast_zero, mul_zero, intceil_zero]
    omega
  rw [updateCore, if_neg hlive_ne, hrg, hlive, hz, hco, hbu,
    foldl_aset_same v s1.attained hattv, ← hq]

/-- Repeating `schedule` at the recorded time on an empty queue is a no-op. -/
theorem schedule_fix_empty {s1 : State} {t : Time}
    (hq : s1.queue = []) (hsc : s1.scheduled = none) (hlt : s1.last_t = t) :
    schedule t s1 = .ok (s1, []) := by
  have hupd : update t s1 = s1 := by
    rw [update, hsc]
    dsimp only
    rw [← hlt, ← hsc]
  rw [schedule, hupd, hq]
  dsimp only
  rw [← hsc]

/-- Repeating `schedule` at the recorded time returns the same state and the
same allocation. -/
theorem schedule_fix_cons {s1 : State} {t : Time} {att : ℕ} {v : List Jobid}
    {rest : List (ℕ × List Jobid)} (w1 : WF s1)
    (hq : s1.queue = (att, v) :: rest)
    (hsc : s1.scheduled = some (att, (v.length : ℚ)⁻¹, v))
    (hlt : s1.last_t = t)
    (hnadj : alookup (att + 1) s1.queue = none) :
    schedule t s1 = .ok (s1, equalShares v) := by
  have hupd : update t s1 = s1 := by
    rw [update, hsc]
    dsimp only
    have hd : intceil ((t - s1.last_t) / s1.eps) = 0 := by
      rw [hlt, sub_self, zero_div, intceil_zero]
    rw [hd, updateCore_zero_fix w1.1 hq hnadj]
    rw [← hlt]
  rw [schedule, hupd, hq]
  dsimp only
  rw [← hsc]

end LAS

/-! ## The driver (`simulator.simulator`) -/

/-- An entry of the driver's event heap: `(t, ARRIVAL, (jobid, size))` or
`(t, COMPLETE, jobid)`. -/
inductive Ev where
  | arr (t : Time) (j : Jobid) (size : ℚ)
  | comp (t : Time) (j : Jobid)
  deriving DecidableEq, Repr

def Ev.time : Ev → Time
  | .arr t _ _ => t
  | .comp t _ => t

/-- The Python tuple order on events: lexicographic on
`(time, kind, payload)` with `ARRIVAL = 0 < 1 = COMPLETE`. -/
def evLt : Ev → Ev → Bool
  | .arr t1 j1 s1, .arr t2 j2 s2 =>
    t1 < t2 || (t1 = t2 && (j1 < j2 || (j1 = j2 && s1 < s2)))
  | .arr t1 _ _, .comp t2 _ => t1 < t2 || t1 = t2
  | .comp t1 _, .arr t2 _ _ => t1 < t2
  | .comp t1 j1, .comp t2 j2 => t1 < t2 || (t1 = t2 && j1 < j2)

/-- `heappush`: the heap is modelled as a list sorted by `evLt` (all
simultaneously queued events are pairwise distinct, so heap pops agree with
sorted-list pops). -/
def evPush (e : Ev) : List Ev → List Ev
  | [] => [e]
  | h :: t => if evLt e h then e :: h :: t else h :: evPush e t

/-- The initial event heap: one ARRIVAL per workload job
(`heapify` of the arrival list sorts it). -/
def heapOfWorkload (w : List (Jobid × Time × ℚ)) : List Ev :=
  (w.map (fun x => Ev.arr x.2.1 x.1 x.2.2)).foldr evPush []

/-- Step 2 of the driver loop: debit `remaining[jobid] -= delta * resources`
for every entry of the current allocation; `none` models the KeyError on an
absent jobid. -/
def debit (delta : ℚ) : Alloc → List (Jobid × ℚ) → Option (List (Jobid × ℚ))
  | [], rem => some rem
  | (j, res) :: rest, rem =>
    match alookup j rem with
    | none => none
    | some r => debit delta rest (aset j (r - delta * res) rem)

/-- Step 5 of the driver loop:
`min((remaining[jobid] / resources, jobid) for jobid, resources in schedule)`.
`none` models the ValueError of `min` on an empty sequence, the KeyError of a
scheduled-but-unadmitted jobid, and the ZeroDivisionError of a zero share. -/
def minCompletion : Alloc → List (Jobid × ℚ) → Option (ℚ × Jobid)
  | [], _ => none
  | (j, res) :: rest, rem =>
    match alookup j rem with
    | none => none
    | some r =>
      if res = 0 then none
      else
        match rest, minCompletion rest rem with
        | [], _ => some (r / res, j)
        | _ :: _, none => none
        | _ :: _, some (q', j') =>
          let q := r / res
          if q < q' || (q = q' && j < j') then some (q, j) else some (q', j')

/-- The result of a finished simulation: the emitted `(t, jobid)` completions,
the final `remaining` mapping, and (as an added observation) the allocation
returned by the policy after each processed event. -/
structure SimResult where
  completions : List (Time × Jobid)
  remaining : List (Jobid × ℚ)
  log : List Alloc
  deriving DecidableEq, Repr

/-- The driver's main loop (`simulator.simulator`), parameterised by the
policy's three operations and the size estimator, with explicit fuel (the
loop runs at most `3·n + 1` iterations on an `n`-job workload, as proved
below). -/
def simLoop {σ : Type} (enq : Time → Jobid → ℚ → σ → σ)
    (deq : Time → Jobid → σ → Except PyErr σ)
    (sch : Time → σ → Except PyErr (σ × Alloc)) (est : ℚ → ℚ) :
    ℕ → List Ev → List (Jobid × ℚ) → Alloc → σ → Time →
    List (Time × Jobid) → List Alloc → Option (SimResult × σ)
  | 0, _ :: _, _, _, _, _, _, _ => none
  | _, [], rem, _, s, _, outs, lg => some (⟨outs.reverse, rem, lg.reverse⟩, s)
  | fuel + 1, ev :: evs, rem0, sched, s0, last_t, outs, lg =>
    let t := ev.time
    match debit (t - last_t) sched rem0 with
    | none => none
    | some rem1 =>
      let dispatched : Option (List (Jobid × ℚ) × σ × List (Time × Jobid)) :=
        match ev with
        | .arr _ j size => some (aset j size rem1, enq t j (est size) s0, outs)
        | .comp _ j =>
          match alookup j rem1 with
          | none => none
          | some _ =>
            match deq t j s0 with
            | .error _ => none
            | .ok s1 => some (aerase j rem1, s1, (t, j) :: outs)
      match dispatched with
      | none => none
      | some (rem2, s2, outs2) =>
        match sch t s2 with
        | .error _ => none
        | .ok (s3, sched2) =>
          let lg2 := sched2 :: lg
          if rem2.isEmpty then
            simLoop enq deq sch est fuel evs rem2 sched2 s3 t outs2 lg2
          else
            match minCompletion sched2 rem2 with
            | none => none
            | some (nd, j) =>
              let nc := t + nd
              let evs2 :=
                match evs with
                | [] => evPush (.comp nc j) evs
                | e0 :: _ => if nc < e0.time then evPush (.comp nc j) evs else evs
              simLoop enq deq sch est fuel evs2 rem2 sched2 s3 t outs2 lg2

/-- Run the simulator on a workload of `(jobid, arrival, true_size)` triples. -/
def simulator {σ : Type} (enq : Time → Jobid → ℚ → σ → σ)
    (deq : Time → Jobid → σ → Except PyErr σ)
    (sch : Time → σ → Except PyErr (σ × Alloc)) (est : ℚ → ℚ) (init : σ)
    (w : List (Jobid × Time × ℚ)) : Option SimResult :=
  (simLoop enq deq sch est (3 * w.length + 1) (heapOfWorkload w) [] [] init 0
    [] []).map Prod.fst

/-- The simulator driving the PS policy with the identity size estimator. -/
def simPS (w : List (Jobid × Time × ℚ)) : Option SimResult :=
  simulator PS.enqueue PS.dequeue PS.schedule id PS.init w

/-- The simulator driving the LAS policy with the identity size estimator. -/
def simLAS (w : List (Jobid × Time × ℚ)) : Option SimResult :=
  simulator LAS.enqueue LAS.dequeue LAS.schedule id LAS.init w

/-! ## Claim C4: SRPT non-head dequeue -/

/-- C4: the SRPT removal path for a job that sits in the heap at a non-head
position does not remove it: the search
`next(i for i, v in jobs if v[1] == jobid)` lacks `enumerate`, so `v` is bound
to the integer jobid of the first entry, `v[1]` raises TypeError, and the
dequeue crashes.  Concretely, on the heap `[[5, 1], [7, 2]]` (a valid min-heap
with job 2 present at a non-head position), `dequeue(0, 2)` raises. -/
theorem C4_srpt_dequeue_nonhead_bug :
    SRPT.dequeue 0 2 ⟨[(5, 1), (7, 2)], 0⟩ = .error .typeError ∧
      2 ∈ ([(5, 1), (7, 2)] : List (ℚ × Jobid)).map Prod.snd ∧
      (([(5, 1), (7, 2)] : List (ℚ × Jobid)).map Prod.snd).head? ≠ some 2 := by
  refine ⟨?_, by decide, by decide⟩
  with_unfolding_all rfl

/-! ## Claim C2: allocations are positive, sum to at most 1, and to exactly 1
when a job is present -/

theorem mem_equalShares_pos {s : List Jobid} {p : Jobid × ℚ}
    (hp : p ∈ equalShares s) : 0 < p.2 := by
  obtain ⟨j, q⟩ := p
  exact equalShares_pos hp

theorem allocSum_nil : allocSum [] = 0 := rfl

theorem single_alloc_facts (j : Jobid) :
    (∀ p ∈ ([(j, 1)] : Alloc), 0 < p.2) ∧ allocSum [(j, 1)] = 1 := by
  constructor
  · intro p hp
    rw [List.mem_singleton] at hp
    subst hp
    norm_num
  · simp [allocSum]

/-- The three C2 properties of an allocation, relative to a notion of "some
job is present". -/
def AllocOK (a : Alloc) (present : Prop) : Prop :=
  (∀ p ∈ a, 0 < p.2) ∧ allocSum a ≤ 1 ∧ (present → allocSum a = 1)

theorem allocOK_empty {present : Prop} (h : ¬ present) : AllocOK [] present :=
  ⟨by simp, by rw [allocSum_nil]; norm_num, fun hp => absurd hp h⟩

theorem allocOK_single (j : Jobid) (present : Prop) :
    AllocOK [(j, 1)] present :=
  ⟨(single_alloc_facts j).1, le_of_eq (single_alloc_facts j).2,
    fun _ => (single_alloc_facts j).2⟩

theorem allocOK_equalShares {s : List Jobid} (h : s ≠ []) (present : Prop) :
    AllocOK (equalShares s) present :=
  ⟨fun _ hp => mem_equalShares_pos hp, le_of_eq (allocSum_equalShares h),
    fun _ => allocSum_equalShares h⟩

/-- C2: for every policy of the family and every (well-formed, for LAS)
scheduler state, the allocation returned by `schedule(t)` has only positive
shares, sums to at most 1, and sums to exactly 1 whenever some job is present
in the policy's view (PS: the running set; FIFO: the job deque; SRPT: the
heap; SRPT+PS: heap or late set; FSP/FSP+PS: the running set; LAS: the
attained map). -/
theorem C2_schedule_allocation_bounds :
    (∀ (t : Time) (s s' : PS.State) (a : Alloc),
      PS.schedule t s = .ok (s', a) → AllocOK a (s' ≠ [])) ∧
    (∀ (t : Time) (s s' : FIFO.State) (a : Alloc),
      FIFO.schedule t s = .ok (s', a) → AllocOK a (s' ≠ [])) ∧
    (∀ (t : Time) (s s' : SRPT.State) (a : Alloc),
      SRPT.schedule t s = .ok (s', a) → AllocOK a (s'.jobs ≠ [])) ∧
    (∀ (t : Time) (s s' : SRPT_plus_PS.State) (a : Alloc),
      SRPT_plus_PS.schedule t s = .ok (s', a) →
      AllocOK a (s'.jobs ≠ [] ∨ s'.late ≠ [])) ∧
    (∀ (t : Time) (s s' : FSP.State) (a : Alloc),
      FSP.schedule t s = .ok (s', a) → AllocOK a (s'.running ≠ [])) ∧
    (∀ (t : Time) (s s' : FSP.State) (a : Alloc),
      FSP_plus_PS.schedule t s = .ok (s', a) → AllocOK a (s'.running ≠ [])) ∧
    (∀ (t : Time) (s s' : LAS.State) (a : Alloc), LAS.WF s →
      LAS.schedule t s = .ok (s', a) → AllocOK a (akeys s'.attained ≠ [])) := by
  refine ⟨?_, ?_, ?_, ?_, ?_, ?_, ?_⟩
  · intro t s s' a h
    rw [PS.schedule] at h
    by_cases he : s.isEmpty
    · rw [if_pos he] at h
      injection h with h
      obtain ⟨rfl, rfl⟩ : s = s' ∧ [] = a := Prod.mk.injEq .. ▸ h
      exact allocOK_empty (by simpa using List.isEmpty_iff.mp he)
    · rw [if_neg he] at h
      injection h with h
      obtain ⟨rfl, rfl⟩ : s = s' ∧ equalShares s = a := Prod.mk.injEq .. ▸ h
      exact allocOK_equalShares (by simpa using he) _
  · intro t s s' a h
    cases s with
    | nil =>
      rw [FIFO.schedule] at h
      injection h with h
      obtain ⟨rfl, rfl⟩ : _ ∧ [] = a := Prod.mk.injEq .. ▸ h
      exact allocOK_empty (by simp_all)
    | cons x xs =>
      rw [FIFO.schedule] at h
      injection h with h
      obtain ⟨rfl, rfl⟩ : _ ∧ [(x, 1)] = a := Prod.mk.injEq .. ▸ h
      exact allocOK_single x _
  · intro t s s' a h
    rw [SRPT.schedule] at h
    cases hjobs : (SRPT.update t s).jobs with
    | nil =>
      rw [hjobs] at h
      injection h with h
      obtain ⟨rfl, rfl⟩ : _ ∧ [] = a := Prod.mk.injEq .. ▸ h
      exact allocOK_empty (by simp [hjobs])
    | cons p rest =>
      obtain ⟨r, j⟩ := p
      rw [hjobs] at h
      injection h with h
      obtain ⟨rfl, rfl⟩ : _ ∧ [(j, 1)] = a := Prod.mk.injEq .. ▸ h
      exact allocOK_single j _
  · intro t s s' a h
    rw [SRPT_plus_PS.schedule] at h
    cases hjobs : (SRPT_plus_PS.update t s).jobs with
    | nil =>
      rw [hjobs] at h
      by_cases hl : (SRPT_plus_PS.update t s).late.isEmpty
      · rw [if_pos hl] at h
        injection h with h
        obtain ⟨rfl, rfl⟩ : _ ∧ [] = a := Prod.mk.injEq .. ▸ h
        refine allocOK_empty ?_
        rintro (hc | hc)
        · exact hc hjobs
        · exact hc (List.isEmpty_iff.mp hl)
      · rw [if_neg hl] at h
        injection h with h
        obtain ⟨rfl, rfl⟩ : _ ∧ equalShares _ = a := Prod.mk.injEq .. ▸ h
        exact allocOK_equalShares (by simpa using hl) _
    | cons p rest =>
      obtain ⟨r, j⟩ := p
      rw [hjobs] at h
      rw [if_neg (by simp [sinsert_ne_nil])] at h
      injection h with h
      obtain ⟨rfl, rfl⟩ : _ ∧ equalShares _ = a := Prod.mk.injEq .. ▸ h
      exact allocOK_equalShares (sinsert_ne_nil _ _) _
  · intro t s s' a h
    rw [FSP.schedule] at h
    cases hlate : (FSP.update t s).late with
    | cons j rest =>
      rw [hlate] at h
      injection h with h
      obtain ⟨rfl, rfl⟩ : _ ∧ [(j, 1)] = a := Prod.mk.injEq .. ▸ h
      exact allocOK_single j _
    | nil =>
      rw [hlate] at h
      by_cases hr : (FSP.update t s).running.isEmpty
      · rw [if_pos hr] at h
        injection h with h
        obtain ⟨rfl, rfl⟩ : _ ∧ [] = a := Prod.mk.injEq .. ▸ h
        exact allocOK_empty (by simpa using List.isEmpty_iff.mp hr)
      · rw [if_neg hr] at h
        cases hf : (FSP.update t s).queue.find?
            (fun e => decide (e.2 ∈ (FSP.update t s).running)) with
        | none => rw [hf] at h; cases h
        | some e =>
          rw [hf] at h
          injection h with h
          obtain ⟨rfl, rfl⟩ : _ ∧ [(e.2, 1)] = a := Prod.mk.injEq .. ▸ h
          exact allocOK_single e.2 _
  · intro t s s' a h
    rw [FSP_plus_PS.schedule] at h
    cases hlate : (FSP.update t s).late with
    | cons j rest =>
      rw [hlate] at h
      injection h with h
      obtain ⟨rfl, rfl⟩ : _ ∧ equalShares _ = a := Prod.mk.injEq .. ▸ h
      exact allocOK_equalShares (hlate ▸ List.cons_ne_nil j rest) _
    | nil =>
      rw [hlate] at h
      by_cases hr : (FSP.update t s).running.isEmpty
      · rw [if_pos hr] at h
        injection h with h
        obtain ⟨rfl, rfl⟩ : _ ∧ [] = a := Prod.mk.injEq .. ▸ h
        exact allocOK_empty (by simpa using List.isEmpty_iff.mp hr)
      · rw [if_neg hr] at h
        cases hf : (FSP.update t s).queue.find?
            (fun e => decide (e.2 ∈ (FSP.update t s).running)) with
        | none => rw [hf] at h; cases h
        | some e =>
          rw [hf] at h
          injection h with h
          obtain ⟨rfl, rfl⟩ : _ ∧ [(e.2, 1)] = a := Prod.mk.injEq .. ▸ h
          exact allocOK_single e.2 _
  · intro t s s' a hwf h
    obtain ⟨s'', a'', heq, hwf', hkeys, hcases⟩ := LAS.schedule_WF hwf t
    rw [heq] at h
    injection h with h
    have hs : s'' = s' := congrArg Prod.fst h
    have ha : a'' = a := congrArg Prod.snd h
    rw [← hs, ← ha]
    rcases hcases with ⟨hq, rfl, _⟩ | ⟨att, v, rest, hq, hvne, rfl, _⟩
    · refine allocOK_empty ?_
      intro hpres
      rcases hne : akeys s''.attained with _ | ⟨k, ks⟩
      · exact hpres hne
      · have hk : k ∈ akeys s''.attained := by rw [hne]; simp
        have hsome : (alookup k s''.attained).isSome :=
          alookup_isSome_iff_mem_akeys.mpr hk
        cases hl : alookup k s''.attained with
        | none => rw [hl] at hsome; cases hsome
        | some bk =>
          obtain ⟨v, hv, _⟩ := hwf'.1.att_lookup hl
          rw [hq, alookup] at hv
          cases hv
    · exact allocOK_equalShares hvne _

/-- C2, witness: each conjunct applied at a concrete state. -/
theorem C2_schedule_allocation_bounds_witness :
    AllocOK (equalShares [1, 2]) (([1, 2] : PS.State) ≠ []) ∧
    AllocOK [(3, 1)] (([3, 4] : FIFO.State) ≠ []) ∧
    AllocOK [(7, 1)] ((⟨[(5, 7)], 0⟩ : SRPT.State).jobs ≠ []) ∧
    AllocOK (equalShares (sinsert 7 [9]))
      ((⟨[(5, 7)], 0, [9], 1 / 1000000⟩ : SRPT_plus_PS.State).jobs ≠ [] ∨
        (⟨[(5, 7)], 0, [9], 1 / 1000000⟩ : SRPT_plus_PS.State).late ≠ []) ∧
    AllocOK [(1, 1)] ((⟨[(3, 1)], [], [1], 0, 1 / 1000000⟩ : FSP.State).running ≠ []) ∧
    AllocOK [(1, 1)] ((⟨[(3, 1)], [], [1], 0, 1 / 1000000⟩ : FSP.State).running ≠ []) ∧
    AllocOK (equalShares [1])
      (akeys ((⟨1 / 1000000, [(0, [1])], [(1, 0)], some (0, 1, [1]), 0⟩ :
        LAS.State).attained) ≠ []) :=
  ⟨C2_schedule_allocation_bounds.1 0 [1, 2] [1, 2] (equalShares [1, 2])
      (by with_unfolding_all rfl),
    C2_schedule_allocation_bounds.2.1 0 [3, 4] [3, 4] [(3, 1)] rfl,
    C2_schedule_allocation_bounds.2.2.1 0 ⟨[(5, 7)], 0⟩ ⟨[(5, 7)], 0⟩ [(7, 1)]
      (by with_unfolding_all rfl),
    C2_schedule_allocation_bounds.2.2.2.1 0 ⟨[(5, 7)], 0, [9], 1 / 1000000⟩
      ⟨[(5, 7)], 0, [9], 1 / 1000000⟩ (equalShares (sinsert 7 [9]))
      (by with_unfolding_all rfl),
    C2_schedule_allocation_bounds.2.2.2.2.1 0 ⟨[(3, 1)], [], [1], 0, 1 / 1000000⟩
      ⟨[(3, 1)], [], [1], 0, 1 / 1000000⟩ [(1, 1)] (by with_unfolding_all rfl),
    C2_schedule_allocation_bounds.2.2.2.2.2.1 0
      ⟨[(3, 1)], [], [1], 0, 1 / 1000000⟩ ⟨[(3, 1)], [], [1], 0, 1 / 1000000⟩
      [(1, 1)] (by with_unfolding_all rfl),
    C2_schedule_allocation_bounds.2.2.2.2.2.2 0
      ⟨1 / 1000000, [(0, [1])], [(1, 0)], none, 0⟩
      ⟨1 / 1000000, [(0, [1])], [(1, 0)], some (0, 1, [1]), 0⟩ (equalShares [1])
      (by decide) (by with_unfolding_all rfl)⟩

/-! ## Claim C6: characterization of `FSP.update` on a nonempty virtual
queue -/

theorem takeWhile_eq_filter_of_sorted {α : Type} (p : α → Bool)
    (R : α → α → Prop) (hmono : ∀ a b, R a b → p b = true → p a = true) :
    ∀ {l : List α}, l.Pairwise R →
      l.takeWhile p = l.filter p ∧
        l.dropWhile p = l.filter (fun x => ! p x) := by
  intro l
  induction l with
  | nil => intro _; exact ⟨rfl, rfl⟩
  | cons x t ih =>
    intro hp
    rw [List.pairwise_cons] at hp
    obtain ⟨hx, ht⟩ := hp
    obtain ⟨ih1, ih2⟩ := ih ht
    cases hpx : p x with
    | true =>
      refine ⟨?_, ?_⟩
      · rw [List.takeWhile_cons, List.filter_cons]
        simp [hpx, ih1]
      · rw [List.dropWhile_cons, List.filter_cons]
        simp [hpx, ih2]
    | false =>
      have hall : ∀ y ∈ t, p y = false := by
        intro y hy
        cases hpy : p y with
        | false => rfl
        | true => rw [hmono x y (hx y hy) hpy] at hpx; cases hpx
      have hfil : List.filter p t = [] :=
        List.filter_eq_nil_iff.mpr (by intro y hy; rw [hall y hy]; simp)
      have hfil2 : List.filter (fun x => ! p x) t = t :=
        List.filter_eq_self.mpr (by intro y hy; rw [hall y hy]; simp)
      refine ⟨?_, ?_⟩
      · rw [List.takeWhile_cons, List.filter_cons]
        simp [hpx, hfil]
      · rw [List.dropWhile_cons, List.filter_cons]
        simp [hpx, hfil2]

theorem foldl_lateAdd_append (running : List Jobid) :
    ∀ (fin : List (ℚ × Jobid)) (acc : List Jobid),
      (∀ e ∈ fin, e.2 ∉ acc) →
      (fin.map (fun e => e.2)).Nodup →
      fin.foldl (fun l e => if e.2 ∈ running then FSP.lateAdd e.2 l else l)
          acc =
        acc ++ (fin.filter (fun e => decide (e.2 ∈ running))).map
          (fun e => e.2) := by
  intro fin
  induction fin with
  | nil => intro acc _ _; rw [List.foldl_nil, List.filter_nil, List.map_nil,
      List.append_nil]
  | cons e fin ih =>
    intro acc hacc hnd
    rw [List.map_cons, List.nodup_cons] at hnd
    obtain ⟨hnd1, hnd2⟩ := hnd
    rw [List.foldl_cons, List.filter_cons]
    by_cases hr : e.2 ∈ running
    · rw [if_pos hr]
      have hla : FSP.lateAdd e.2 acc = acc ++ [e.2] := by
        rw [FSP.lateAdd, if_neg (hacc e (by simp))]
      rw [hla, ih (acc ++ [e.2]) ?hfresh hnd2]
      · simp [hr]
      · intro e' he'
        rw [List.mem_append, List.mem_singleton]
        rintro (hc | hc)
        · exact hacc e' (by simp [he']) hc
        · exact hnd1 (hc ▸ List.mem_map_of_mem (fun e => e.2) he')
    · rw [if_neg hr, ih acc (fun e' he' => hacc e' (by simp [he'])) hnd2]
      simp [hr]

/-- C6: on a nonempty virtual queue (sorted, with distinct jobids not already
late, as every reachable FSP state has), `update(t)` with `t ≥ last_t` removes
exactly the queue entries with `v_remaining ≤ fair_share + eps` (a prefix, by
sortedness), appends each removed job that is in `running` to `late` in queue
order, debits every surviving entry by `fair_share = (t − last_t)/|queue|`,
and sets `last_t := t`. -/
theorem C6_fsp_update_characterization (t : Time) (s : FSP.State)
    (fs fp : ℚ)
    (hne : s.queue ≠ [])
    (hts : s.last_t ≤ t)
    (hfs : fs = (t - s.last_t) / (s.queue.length : ℚ))
    (hfp : fp = fs + s.eps)
    (hsort : s.queue.Pairwise (fun a b => entryLt a b = true))
    (hqnodup : (s.queue.map (fun e => e.2)).Nodup)
    (hfresh : ∀ e ∈ s.queue, e.2 ∉ s.late) :
    (FSP.update t s).queue =
      (s.queue.filter (fun e => ! decide (e.1 ≤ fp))).map
        (fun e => (e.1 - fs, e.2)) ∧
    (FSP.update t s).late =
      s.late ++ ((s.queue.filter (fun e => decide (e.1 ≤ fp))).filter
        (fun e => decide (e.2 ∈ s.running))).map (fun e => e.2) ∧
    (FSP.update t s).running = s.running ∧
    (FSP.update t s).last_t = t := by
  obtain ⟨qu, la, ru, lt0, ep⟩ := s
  dsimp only at hne hts hfs hfp hsort hqnodup hfresh
  cases qu with
  | nil => exact absurd rfl hne
  | cons x q =>
  subst hfp
  have hmono : ∀ a b : ℚ × Jobid, entryLt a b = true →
      decide (b.1 ≤ fs + ep) = true → decide (a.1 ≤ fs + ep) = true := by
    intro a b hab hb
    rw [decide_eq_true_iff] at hb ⊢
    rw [entryLt, Bool.or_eq_true, decide_eq_true_iff, Bool.and_eq_true,
      decide_eq_true_iff, decide_eq_true_iff] at hab
    rcases hab with h1 | ⟨h1, _⟩
    · exact le_trans (le_of_lt h1) hb
    · exact h1 ▸ hb
  obtain ⟨htake, hdrop⟩ := takeWhile_eq_filter_of_sorted
    (fun e => decide (e.1 ≤ fs + ep)) _ hmono hsort
  have hfs0 : 0 ≤ fs := by
    rw [hfs]
    apply div_nonneg (by linarith)
    exact_mod_cast Nat.zero_le _
  have hupd : FSP.update t ⟨x :: q, la, ru, lt0, ep⟩ =
      { queue := if 0 < (t - lt0) / (((x :: q).length : ℚ))
          then ((x :: q).dropWhile
            (fun e => decide (e.1 ≤ (t - lt0) / (((x :: q).length : ℚ)) + ep))).map
            (fun e => (e.1 - (t - lt0) / (((x :: q).length : ℚ)), e.2))
          else (x :: q).dropWhile
            (fun e => decide (e.1 ≤ (t - lt0) / (((x :: q).length : ℚ)) + ep)),
        late := ((x :: q).takeWhile
          (fun e => decide (e.1 ≤ (t - lt0) / (((x :: q).length : ℚ)) + ep))).foldl
          (fun l e => if e.2 ∈ ru then FSP.lateAdd e.2 l else l) la,
        running := ru, last_t := t, eps := ep } := rfl
  rw [hupd]
  dsimp only
  rw [← hfs, hdrop, htake]
  refine ⟨?_, ?_, rfl, rfl⟩
  · rcases lt_or_eq_of_le hfs0 with hpos | hzero
    · rw [if_pos hpos]
    · rw [if_neg (by rw [← hzero]; exact lt_irrefl 0)]
      have : ∀ e ∈ (x :: q).filter (fun e => ! decide (e.1 ≤ fs + ep)),
          (fun e : ℚ × Jobid => (e.1 - fs, e.2)) e = id e := by
        intro e _
        show (e.1 - fs, e.2) = e
        rw [← hzero, sub_zero]
      rw [List.map_congr_left this, List.map_id]
  · have hsub : List.Sublist ((x :: q).filter (fun e => decide (e.1 ≤ fs + ep)))
        (x :: q) := List.filter_sublist _
    rw [foldl_lateAdd_append ru _ la
      (fun e he => hfresh e (hsub.subset he))
      (List.Nodup.sublist (hsub.map (fun e => e.2)) hqnodup)]

/-- C6, witness: the characterization applied at the concrete state with
virtual queue `[(1,1),(2,2),(4,3)]`, `running = {1,3}`, `late = {}`,
`last_t = 0`, at `t = 3` (so `fair_share = 1`). -/
theorem C6_fsp_update_characterization_witness :
    (FSP.update 3 ⟨[(1, 1), (2, 2), (4, 3)], [], [1, 3], 0, 1 / 1000000⟩).queue =
      (([(1, 1), (2, 2), (4, 3)] : List (ℚ × Jobid)).filter
        (fun e => ! decide (e.1 ≤ 1 + 1 / 1000000))).map
        (fun e => (e.1 - 1, e.2)) ∧
    (FSP.update 3 ⟨[(1, 1), (2, 2), (4, 3)], [], [1, 3], 0, 1 / 1000000⟩).late =
      [] ++ ((([(1, 1), (2, 2), (4, 3)] : List (ℚ × Jobid)).filter
        (fun e => decide (e.1 ≤ 1 + 1 / 1000000))).filter
        (fun e => decide (e.2 ∈ ([1, 3] : List Jobid)))).map (fun e => e.2) ∧
    (FSP.update 3 ⟨[(1, 1), (2, 2), (4, 3)], [], [1, 3], 0, 1 / 1000000⟩).running =
      [1, 3] ∧
    (FSP.update 3 ⟨[(1, 1), (2, 2), (4, 3)], [], [1, 3], 0, 1 / 1000000⟩).last_t =
      3 :=
  C6_fsp_update_characterization 3
    ⟨[(1, 1), (2, 2), (4, 3)], [], [1, 3], 0, 1 / 1000000⟩ 1 (1 + 1 / 1000000)
    (by with_unfolding_all decide)
    (by with_unfolding_all decide)
    (by with_unfolding_all decide)
    rfl
    (by with_unfolding_all decide)
    (by with_unfolding_all decide)
    (by with_unfolding_all decide)

/-! ## Claim C10: LAS allocations are independent of announced sizes -/

/-- One driver call into the LAS policy. -/
inductive LCall where
  | enq (t : Time) (j : Jobid) (size : ℚ)
  | deq (t : Time) (j : Jobid)
  | sched (t : Time)
  deriving DecidableEq, Repr

/-- Erase the announced size from a call: two traces "differ only in the size
argument passed to enqueue" exactly when their images under `sizeErase`
coincide. -/
def sizeErase : LCall → LCall
  | .enq t j _ => .enq t j 0
  | .deq t j => .deq t j
  | .sched t => .sched t

/-- Run a sequence of calls against an LAS state, propagating the first
raised error and collecting the allocation returned by each `schedule`
call in order. -/
def runLAS : List LCall → LAS.State → Except PyErr (LAS.State × List Alloc)
  | [], s => .ok (s, [])
  | .enq t j sz :: cs, s => runLAS cs (LAS.enqueue t j sz s)
  | .deq t j :: cs, s =>
    match LAS.dequeue t j s with
    | .error e => .error e
    | .ok s' => runLAS cs s'
  | .sched t :: cs, s =>
    match LAS.schedule t s with
    | .error e => .error e
    | .ok (s', a) =>
      match runLAS cs s' with
      | .error e => .error e
      | .ok (s'', rs) => .ok (s'', a :: rs)

/-- C10: LAS is size-oblivious.  Two call traces that agree after erasing the
size argument of every `enqueue` produce identical outcomes from any common
starting state: the same final state and, in particular, the same allocation
from every `schedule(t)` call (the second component collects them in order).
`LAS.enqueue` discards its size argument, so the runs are equal outright. -/
theorem C10_las_size_independence :
    ∀ (cs1 cs2 : List LCall) (s : LAS.State),
      cs1.map sizeErase = cs2.map sizeErase →
      runLAS cs1 s = runLAS cs2 s := by
  intro cs1
  induction cs1 with
  | nil =>
    intro cs2 s h
    cases cs2 with
    | nil => rfl
    | cons c t => rw [List.map_nil, List.map_cons] at h; cases h
  | cons c cs ih =>
    intro cs2 s h
    cases cs2 with
    | nil => rw [List.map_nil, List.map_cons] at h; cases h
    | cons c2 t2 =>
      rw [List.map_cons, List.map_cons] at h
      injection h with h1 h2
      cases c with
      | enq t j sz =>
        cases c2 with
        | enq t' j' sz' =>
          rw [sizeErase, sizeErase] at h1
          injection h1 with ht hj _
          subst ht; subst hj
          exact ih t2 (LAS.enqueue t j sz s) h2
        | deq t' j' => rw [sizeErase, sizeErase] at h1; cases h1
        | sched t' => rw [sizeErase, sizeErase] at h1; cases h1
      | deq t j =>
        cases c2 with
        | enq t' j' sz' => rw [sizeErase, sizeErase] at h1; cases h1
        | deq t' j' =>
          rw [sizeErase, sizeErase] at h1
          injection h1 with ht hj
          subst ht; subst hj
          rw [runLAS, runLAS]
          cases hd : LAS.dequeue t j s with
          | error e => rfl
          | ok s' => exact ih t2 s' h2
        | sched t' => rw [sizeErase, sizeErase] at h1; cases h1
      | sched t =>
        cases c2 with
        | enq t' j' sz' => rw [sizeErase, sizeErase] at h1; cases h1
        | deq t' j' => rw [sizeErase, sizeErase] at h1; cases h1
        | sched t' =>
          rw [sizeErase, sizeErase] at h1
          injection h1 with ht
          subst ht
          rw [runLAS, runLAS]
          cases hs : LAS.schedule t s with
          | error e => rfl
          | ok p =>
            obtain ⟨s', a⟩ := p
            dsimp only
            rw [ih t2 s' h2]

/-- C10, witness: the traces `[enqueue(0, 1, 5), schedule(0)]` and
`[enqueue(0, 1, 99), schedule(0)]`, which differ only in the announced size,
yield identical runs from the initial LAS state. -/
theorem C10_las_size_independence_witness :
    runLAS [.enq 0 1 5, .sched 0] LAS.init =
      runLAS [.enq 0 1 99, .sched 0] LAS.init :=
  C10_las_size_independence [.enq 0 1 5, .sched 0] [.enq 0 1 99, .sched 0]
    LAS.init rfl

/-! ## Claim C5: at most one COMPLETE event is ever queued, and a pushed
COMPLETE is the strict queue minimum -/

def isComp : Ev → Bool
  | .arr _ _ _ => false
  | .comp _ _ => true

/-- The number of COMPLETE events in the queue. -/
def compCount (evs : List Ev) : ℕ := (evs.filter isComp).length

theorem time_le_of_evLt {a b : Ev} (h : evLt a b = true) : a.time ≤ b.time := by
  cases a with
  | arr t1 j1 s1 =>
    cases b with
    | arr t2 j2 s2 =>
      rw [evLt] at h
      simp only [Bool.or_eq_true, Bool.and_eq_true, decide_eq_true_eq] at h
      show t1 ≤ t2
      rcases h with h | ⟨h, _⟩
      · exact le_of_lt h
      · exact le_of_eq h
    | comp t2 j2 =>
      rw [evLt] at h
      simp only [Bool.or_eq_true, decide_eq_true_eq] at h
      show t1 ≤ t2
      rcases h with h | h
      · exact le_of_lt h
      · exact le_of_eq h
  | comp t1 j1 =>
    cases b with
    | arr t2 j2 s2 =>
      rw [evLt] at h
      rw [decide_eq_true_eq] at h
      exact le_of_lt h
    | comp t2 j2 =>
      rw [evLt] at h
      simp only [Bool.or_eq_true, Bool.and_eq_true, decide_eq_true_eq] at h
      show t1 ≤ t2
      rcases h with h | ⟨h, _⟩
      · exact le_of_lt h
      · exact le_of_eq h

theorem time_le_of_not_evLt {a b : Ev} (h : evLt a b = false) :
    b.time ≤ a.time := by
  cases a with
  | arr t1 j1 s1 =>
    cases b with
    | arr t2 j2 s2 =>
      rw [evLt, Bool.or_eq_false_iff] at h
      obtain ⟨h1, _⟩ := h
      rw [decide_eq_false_iff_not] at h1
      exact le_of_not_lt h1
    | comp t2 j2 =>
      rw [evLt, Bool.or_eq_false_iff] at h
      obtain ⟨h1, _⟩ := h
      rw [decide_eq_false_iff_not] at h1
      exact le_of_not_lt h1
  | comp t1 j1 =>
    cases b with
    | arr t2 j2 s2 =>
      rw [evLt] at h
      rw [decide_eq_false_iff_not] at h
      exact le_of_not_lt h
    | comp t2 j2 =>
      rw [evLt, Bool.or_eq_false_iff] at h
      obtain ⟨h1, _⟩ := h
      rw [decide_eq_false_iff_not] at h1
      exact le_of_not_lt h1

theorem evLt_comp_left {t : Time} {j : Jobid} {e : Ev} (h : t < e.time) :
    evLt (.comp t j) e = true := by
  cases e with
  | arr t2 j2 s2 =>
    have h' : t < t2 := h
    rw [evLt]
    simp [h']
  | comp t2 j2 =>
    have h' : t < t2 := h
    rw [evLt]
    simp [h']

theorem mem_evPush {x e : Ev} :
    ∀ {l : List Ev}, x ∈ evPush e l ↔ x = e ∨ x ∈ l
  | [] => by simp [evPush]
  | h :: t => by
    rw [evPush]
    cases hlt : evLt e h
    · rw [if_neg (by simp [hlt])]
      simp only [List.mem_cons, mem_evPush (l := t)]
      tauto
    · rw [if_pos (by simp [hlt])]
      simp only [List.mem_cons]

theorem timeSorted_evPush {e : Ev} :
    ∀ {l : List Ev}, l.Pairwise (fun a b => a.time ≤ b.time) →
      (evPush e l).Pairwise (fun a b => a.time ≤ b.time)
  | [], _ => by simp [evPush]
  | h :: t, hp => by
    rw [List.pairwise_cons] at hp
    obtain ⟨hh, ht⟩ := hp
    rw [evPush]
    cases hlt : evLt e h
    · rw [if_neg (by simp [hlt])]
      rw [List.pairwise_cons]
      refine ⟨?_, timeSorted_evPush ht⟩
      intro x hx
      rcases mem_evPush.mp hx with rfl | hx
      · exact time_le_of_not_evLt hlt
      · exact hh x hx
    · rw [if_pos (by simp [hlt])]
      rw [List.pairwise_cons]
      refine ⟨?_, ?_⟩
      · intro x hx
        rcases List.mem_cons.mp hx with rfl | hx
        · exact time_le_of_evLt hlt
        · exact le_trans (time_le_of_evLt hlt) (hh x hx)
      · rw [List.pairwise_cons]
        exact ⟨hh, ht⟩

theorem mem_foldr_evPush {x : Ev} :
    ∀ {l : List Ev}, x ∈ l.foldr evPush [] → x ∈ l := by
  intro l
  induction l with
  | nil => simp
  | cons h t ih =>
    intro hx
    rw [List.foldr_cons] at hx
    rcases mem_evPush.mp hx with rfl | hx
    · simp
    · exact List.mem_cons_of_mem _ (ih hx)

theorem isComp_heapOfWorkload {w : List (Jobid × Time × ℚ)} (e : Ev)
    (he : e ∈ heapOfWorkload w) : isComp e = false := by
  rw [heapOfWorkload] at he
  obtain ⟨x, _, rfl⟩ := List.mem_map.mp (mem_foldr_evPush he)
  rfl

theorem timeSorted_heapOfWorkload {w : List (Jobid × Time × ℚ)} :
    (heapOfWorkload w).Pairwise (fun a b => a.time ≤ b.time) := by
  rw [heapOfWorkload]
  generalize (w.map fun x => Ev.arr x.2.1 x.1 x.2.2) = l
  induction l with
  | nil => simp
  | cons h t ih =>
    rw [List.foldr_cons]
    exact timeSorted_evPush ih

/-- The driver's event-queue invariant: the queue is nondecreasing in time,
every event after the head is an ARRIVAL, and any queued COMPLETE sits
strictly below every ARRIVAL in time. -/
def EvQueueInv (evs : List Ev) : Prop :=
  evs.Pairwise (fun a b => a.time ≤ b.time) ∧
  (∀ e ∈ evs.tail, isComp e = false) ∧
  (∀ c ∈ evs, isComp c = true → ∀ e ∈ evs, isComp e = false → c.time < e.time)

theorem evQueueInv_heapOfWorkload (w : List (Jobid × Time × ℚ)) :
    EvQueueInv (heapOfWorkload w) :=
  ⟨timeSorted_heapOfWorkload,
    fun e he => isComp_heapOfWorkload e (List.mem_of_mem_tail he),
    fun c hc hcomp _ _ _ =>
      absurd hcomp (by rw [isComp_heapOfWorkload c hc]; simp)⟩

theorem compCount_le_one_of_tail_arr {evs : List Ev}
    (h : ∀ e ∈ evs.tail, isComp e = false) : compCount evs ≤ 1 := by
  cases evs with
  | nil => exact Nat.zero_le 1
  | cons ev t =>
    rw [compCount, List.filter_cons]
    have ht : t.filter isComp = [] :=
      List.filter_eq_nil_iff.mpr (by intro e he; simp [h e he])
    cases hc : isComp ev <;> simp [hc, ht]

/-- The configurations `(events, remaining, schedule, policy-state, last_t)`
the driver's main loop passes through, one constructor per source line group:
`base` is the loop entry (the heapified arrival list, empty `remaining`, empty
schedule); `step` performs one full iteration exactly as `simLoop` does: pop
the head event, debit, dispatch it (admit on ARRIVAL, check-and-dequeue on
COMPLETE), reschedule, and (when jobs remain) predict the next completion and
push it iff the queue is empty or its head is strictly later. -/
inductive DriverReach {σ : Type} (enq : Time → Jobid → ℚ → σ → σ)
    (deq : Time → Jobid → σ → Except PyErr σ)
    (sch : Time → σ → Except PyErr (σ × Alloc)) (est : ℚ → ℚ) (start : σ)
    (w : List (Jobid × Time × ℚ)) :
    List Ev → List (Jobid × ℚ) → Alloc → σ → Time → Prop
  | base : DriverReach enq deq sch est start w (heapOfWorkload w) [] [] start 0
  | step (ev : Ev) (evs : List Ev) (rem0 : List (Jobid × ℚ)) (sched : Alloc)
      (s0 : σ) (last_t : Time) (rem1 rem2 : List (Jobid × ℚ)) (s2 s3 : σ)
      (sched2 : Alloc) (evs2 : List Ev)
      (h : DriverReach enq deq sch est start w (ev :: evs) rem0 sched s0 last_t)
      (hdeb : debit (ev.time - last_t) sched rem0 = some rem1)
      (hdisp : (∃ j size, ev = .arr ev.time j size ∧ rem2 = aset j size rem1 ∧
          s2 = enq ev.time j (est size) s0) ∨
        (∃ j, ev = .comp ev.time j ∧ (alookup j rem1).isSome ∧
          deq ev.time j s0 = .ok s2 ∧ rem2 = aerase j rem1))
      (hsch : sch ev.time s2 = .ok (s3, sched2))
      (hnext : (rem2.isEmpty = true ∧ evs2 = evs) ∨
        (rem2.isEmpty = false ∧ ∃ nd j,
          minCompletion sched2 rem2 = some (nd, j) ∧
          ((evs = [] ∧ evs2 = [.comp (ev.time + nd) j]) ∨
            (∃ e0 rest, evs = e0 :: rest ∧
              ((ev.time + nd < e0.time ∧
                  evs2 = evPush (.comp (ev.time + nd) j) evs) ∨
                (¬ ev.time + nd < e0.time ∧ evs2 = evs)))))) :
      DriverReach enq deq sch est start w evs2 rem2 sched2 s3 ev.time

theorem driverReach_queue_inv {σ : Type} {enq : Time → Jobid → ℚ → σ → σ}
    {deq : Time → Jobid → σ → Except PyErr σ}
    {sch : Time → σ → Except PyErr (σ × Alloc)} {est : ℚ → ℚ} {start : σ}
    {w : List (Jobid × Time × ℚ)} {evs : List Ev} {rem : List (Jobid × ℚ)}
    {sched : Alloc} {s : σ} {last_t : Time}
    (h : DriverReach enq deq sch est start w evs rem sched s last_t) :
    EvQueueInv evs := by
  induction h with
  | base => exact evQueueInv_heapOfWorkload w
  | step ev evs rem0 sched0 s0 lt0 rem1 rem2 s2 s3 sched2 evs2 h hdeb hdisp
      hsch hnext ih =>
    obtain ⟨hsort, htailarr, _⟩ := ih
    rw [List.pairwise_cons] at hsort
    obtain ⟨_, hsortT⟩ := hsort
    have harr : ∀ e ∈ evs, isComp e = false := fun e he => htailarr e he
    rcases hnext with ⟨_, rfl⟩ | ⟨_, nd, j, _, hpush⟩
    · exact ⟨hsortT, fun e he => harr e (List.mem_of_mem_tail he),
        fun c hc hcomp _ _ _ => absurd hcomp (by rw [harr c hc]; simp)⟩
    · rcases hpush with ⟨rfl, rfl⟩ | ⟨e0, rest, rfl, hcase⟩
      · refine ⟨List.pairwise_singleton _ _, ?_, ?_⟩
        · intro e he
          simp at he
        · intro c _ _ e he harre
          rw [List.mem_singleton] at he
          subst he
          simp [isComp] at harre
      · rcases hcase with ⟨hlt, rfl⟩ | ⟨_, rfl⟩
        · have hLt : evLt (.comp (ev.time + nd) j) e0 = true :=
            evLt_comp_left hlt
          rw [evPush, if_pos (by simp [hLt])]
          have he0min : ∀ x ∈ rest, e0.time ≤ x.time := by
            rw [List.pairwise_cons] at hsortT
            exact hsortT.1
          have hallgt : ∀ x ∈ e0 :: rest, ev.time + nd < x.time := by
            intro x hx
            rcases List.mem_cons.mp hx with rfl | hx
            · exact hlt
            · exact lt_of_lt_of_le hlt (he0min x hx)
          refine ⟨?_, ?_, ?_⟩
          · rw [List.pairwise_cons]
            exact ⟨fun x hx => le_of_lt (hallgt x hx), hsortT⟩
          · intro e he
            exact harr e he
          · intro c hc hcomp e he harre
            rcases List.mem_cons.mp hc with rfl | hc
            · rcases List.mem_cons.mp he with rfl | he
              · simp [isComp] at harre
              · exact hallgt e he
            · rw [harr c hc] at hcomp
              cases hcomp
        · exact ⟨hsortT, fun e he => harr e (List.mem_of_mem_tail he),
            fun c hc hcomp _ _ _ => absurd hcomp (by rw [harr c hc]; simp)⟩

/-- C5: in every configuration the driver's main loop reaches — for any
policy, estimator and workload — the event queue holds at most one COMPLETE
event, and any queued COMPLETE is the head of the queue (so it is popped on
the immediately following iteration) and is strictly below every other queued
event in the heap order. -/
theorem C5_complete_event_uniqueness {σ : Type}
    (enq : Time → Jobid → ℚ → σ → σ) (deq : Time → Jobid → σ → Except PyErr σ)
    (sch : Time → σ → Except PyErr (σ × Alloc)) (est : ℚ → ℚ) (start : σ)
    (w : List (Jobid × Time × ℚ)) (evs : List Ev) (rem : List (Jobid × ℚ))
    (sched : Alloc) (s : σ) (last_t : Time)
    (h : DriverReach enq deq sch est start w evs rem sched s last_t) :
    compCount evs ≤ 1 ∧
      ∀ c ∈ evs, isComp c = true →
        evs.head? = some c ∧
          ∀ e ∈ evs, isComp e = false → evLt c e = true := by
  obtain ⟨_, htailarr, hstrict⟩ := driverReach_queue_inv h
  refine ⟨compCount_le_one_of_tail_arr htailarr, ?_⟩
  intro c hc hcomp
  refine ⟨?_, ?_⟩
  · cases evs with
    | nil => cases hc
    | cons ev t =>
      rcases List.mem_cons.mp hc with rfl | hc
      · rfl
      · rw [htailarr c hc] at hcomp
        cases hcomp
  · intro e he harre
    cases c with
    | arr tc jc sc => cases hcomp
    | comp tc jc => exact evLt_comp_left (hstrict _ hc hcomp e he harre)

/-- C5, witness: the invariant applied to the configuration after the first
iteration of the PS run on the one-job workload `[(0, 0, 1)]`, whose queue is
exactly the pushed COMPLETE `(1, COMPLETE, 0)`. -/
theorem C5_complete_event_uniqueness_witness :
    compCount [Ev.comp 1 0] ≤ 1 ∧
      ∀ c ∈ [Ev.comp 1 0], isComp c = true →
        ([Ev.comp 1 0] : List Ev).head? = some c ∧
          ∀ e ∈ [Ev.comp 1 0], isComp e = false → evLt c e = true := by
  refine C5_complete_event_uniqueness PS.enqueue PS.dequeue PS.schedule id
    PS.init [(0, 0, 1)] [Ev.comp 1 0] [(0, 1)] (equalShares [0]) [0] 0 ?_
  refine DriverReach.step (Ev.arr 0 0 1) [] [] [] PS.init 0 [] [(0, 1)] [0] [0]
    (equalShares [0]) [Ev.comp 1 0] DriverReach.base ?_ ?_ ?_ ?_
  · with_unfolding_all rfl
  · exact Or.inl ⟨0, 1, rfl, rfl, rfl⟩
  · with_unfolding_all rfl
  · refine Or.inr ⟨rfl, 1, 0, ?_, Or.inl ⟨rfl, ?_⟩⟩
    · with_unfolding_all rfl
    · with_unfolding_all rfl

/-! ## Claim C1: the driver terminates with `remaining` empty and every
admitted job completed -/

/-- The jobids of the ARRIVAL events of a queue, in queue order. -/
def arrIds (l : List Ev) : List Jobid :=
  l.filterMap (fun e => match e with | .arr _ j _ => some j | .comp _ _ => none)

/-- The loop-termination weight of the event queue: 3 per ARRIVAL, 1 per
COMPLETE. -/
def evMeasure (l : List Ev) : ℕ :=
  3 * (l.filter (fun e => ! isComp e)).length + (l.filter isComp).length

theorem arrIds_nil : arrIds [] = [] := rfl

theorem arrIds_cons_arr {t : Time} {j : Jobid} {sz : ℚ} {l : List Ev} :
    arrIds (.arr t j sz :: l) = j :: arrIds l := rfl

theorem arrIds_cons_comp {t : Time} {j : Jobid} {l : List Ev} :
    arrIds (.comp t j :: l) = arrIds l := rfl

theorem evPush_perm (e : Ev) : ∀ (l : List Ev), (evPush e l).Perm (e :: l)
  | [] => List.Perm.refl _
  | h :: t => by
    rw [evPush]
    cases hlt : evLt e h
    · rw [if_neg (by simp [hlt])]
      exact ((evPush_perm e t).cons h).trans (List.Perm.swap e h t)
    · rw [if_pos (by simp [hlt])]

theorem heapOfWorkload_perm (w : List (Jobid × Time × ℚ)) :
    (heapOfWorkload w).Perm (w.map (fun x => Ev.arr x.2.1 x.1 x.2.2)) := by
  rw [heapOfWorkload]
  generalize (w.map fun x => Ev.arr x.2.1 x.1 x.2.2) = l
  induction l with
  | nil => exact List.Perm.refl _
  | cons h t ih =>
    rw [List.foldr_cons]
    exact (evPush_perm h _).trans (ih.cons h)

theorem arrIds_perm {l l' : List Ev} (h : l.Perm l') :
    (arrIds l).Perm (arrIds l') := h.filterMap _

theorem evMeasure_perm {l l' : List Ev} (h : l.Perm l') :
    evMeasure l = evMeasure l' := by
  rw [evMeasure, evMeasure, (h.filter _).length_eq, (h.filter _).length_eq]

theorem evMeasure_cons {e : Ev} {l : List Ev} :
    evMeasure (e :: l) = (if isComp e then 1 else 3) + evMeasure l := by
  rw [evMeasure, evMeasure, List.filter_cons, List.filter_cons]
  cases hc : isComp e <;> simp [hc] <;> omega

theorem evMeasure_all_arr : ∀ {l : List Ev}, (∀ e ∈ l, isComp e = false) →
    evMeasure l = 3 * l.length
  | [], _ => rfl
  | e :: t, h => by
    rw [evMeasure_cons, evMeasure_all_arr (fun x hx => h x (by simp [hx])),
      h e (by simp), List.length_cons]
    simp
    omega

theorem arrIds_map_arr (w : List (Jobid × Time × ℚ)) :
    arrIds (w.map (fun x => Ev.arr x.2.1 x.1 x.2.2)) =
      w.map (fun x => x.1) := by
  induction w with
  | nil => rfl
  | cons x t ih => rw [List.map_cons, arrIds_cons_arr, List.map_cons, ih]

/-- Step 2 succeeds and preserves the `remaining` keys whenever every
scheduled jobid is admitted. -/
theorem debit_ok {d : ℚ} : ∀ {a : Alloc} {rem : List (Jobid × ℚ)},
    (∀ p ∈ a, p.1 ∈ akeys rem) →
    ∃ rem', debit d a rem = some rem' ∧ akeys rem' = akeys rem
  | [], rem, _ => ⟨rem, rfl, rfl⟩
  | (j, res) :: rest, rem, h => by
    have hj : j ∈ akeys rem := h (j, res) (by simp)
    have hsome : (alookup j rem).isSome := alookup_isSome_iff_mem_akeys.mpr hj
    cases hl : alookup j rem with
    | none => rw [hl] at hsome; cases hsome
    | some r =>
      have hkeys : akeys (aset j (r - d * res) rem) = akeys rem := akeys_aset hj
      obtain ⟨rem', h1, h2⟩ := @debit_ok d rest (aset j (r - d * res) rem)
        (fun p hp => hkeys ▸ h p (by simp [hp]))
      refine ⟨rem', ?_, h2.trans hkeys⟩
      rw [debit, hl]
      exact h1

/-- Step 5 succeeds on a nonempty allocation of admitted jobs with nonzero
shares, and elects one of the scheduled jobids. -/
theorem minCompletion_ok : ∀ {a : Alloc} {rem : List (Jobid × ℚ)},
    a ≠ [] → (∀ p ∈ a, p.1 ∈ akeys rem ∧ p.2 ≠ 0) →
    ∃ nd j, minCompletion a rem = some (nd, j) ∧ j ∈ akeys a
  | [], _, hne, _ => absurd rfl hne
  | (j, res) :: rest, rem, _, h => by
    obtain ⟨hj, hres⟩ := h (j, res) (by simp)
    have hsome : (alookup j rem).isSome := alookup_isSome_iff_mem_akeys.mpr hj
    cases hl : alookup j rem with
    | none => rw [hl] at hsome; cases hsome
    | some r =>
      cases rest with
      | nil =>
        refine ⟨r / res, j, ?_, by simp [akeys]⟩
        rw [minCompletion, hl]
        dsimp only
        rw [if_neg (show ¬res = 0 from hres)]
      | cons p2 rest2 =>
        obtain ⟨nd', j', hmin', hj'⟩ :=
          @minCompletion_ok (p2 :: rest2) rem (by simp)
            (fun p hp => h p (by simp [hp]))
        have hval : minCompletion ((j, res) :: p2 :: rest2) rem =
            if (decide (r / res < nd') ||
                (decide (r / res = nd') && decide (j < j'))) = true
            then some (r / res, j) else some (nd', j') := by
          rw [minCompletion, hl]
          dsimp only
          rw [if_neg (show ¬res = 0 from hres), hmin']
        cases hc : (decide (r / res < nd') ||
            (decide (r / res = nd') && decide (j < j')))
        · rw [hc, if_neg (by simp)] at hval
          refine ⟨nd', j', hval, ?_⟩
          simp only [akeys, List.map_cons, List.mem_cons]
          right
          simpa [akeys] using hj'
        · rw [hc, if_pos rfl] at hval
          exact ⟨r / res, j, hval, by simp [akeys]⟩

theorem aset_isEmpty {α : Type} (k : ℕ) (v : α) :
    ∀ (l : List (ℕ × α)), (aset k v l).isEmpty = false
  | [] => rfl
  | (k', v') :: t => by
    rw [aset]
    by_cases h : k = k'
    · rw [if_pos h]; rfl
    · rw [if_neg h]; rfl

theorem evPush_ne_nil (e : Ev) : ∀ (l : List Ev), evPush e l ≠ []
  | [] => by simp [evPush]
  | h :: t => by
    rw [evPush]
    cases hlt : evLt e h
    · rw [if_neg (by simp [hlt])]; simp
    · rw [if_pos (by simp [hlt])]; simp

theorem mem_arrIds {t : Time} {j : Jobid} {sz : ℚ} {l : List Ev}
    (h : Ev.arr t j sz ∈ l) : j ∈ arrIds l :=
  List.mem_filterMap.mpr ⟨Ev.arr t j sz, h, rfl⟩

/-- What a policy must guarantee for the driver to terminate cleanly:
an invariant `Inv`, the set `view` of jobs the policy considers present, a
superset `seen` of every jobid the policy retains anywhere (so that a fresh
arrival cannot collide), and a post-schedule predicate `SchedP` recording
which states can be asked to dequeue the scheduled jobs. -/
structure PolicyLaws {σ : Type} (enq : Time → Jobid → ℚ → σ → σ)
    (deq : Time → Jobid → σ → Except PyErr σ)
    (sch : Time → σ → Except PyErr (σ × Alloc)) where
  Inv : σ → Prop
  view : σ → List Jobid
  seen : σ → List Jobid
  SchedP : σ → Alloc → Prop
  view_seen : ∀ s, Inv s → ∀ x ∈ view s, x ∈ seen s
  henq : ∀ (t : Time) (j : Jobid) (sz : ℚ) (s : σ), Inv s → j ∉ seen s →
    Inv (enq t j sz s) ∧
    (∀ x, x ∈ view (enq t j sz s) ↔ x = j ∨ x ∈ view s) ∧
    (∀ x ∈ seen (enq t j sz s), x = j ∨ x ∈ seen s)
  hsch : ∀ (t : Time) (s : σ), Inv s → ∃ s' a, sch t s = .ok (s', a) ∧
    Inv s' ∧ SchedP s' a ∧
    (∀ x, x ∈ view s' ↔ x ∈ view s) ∧
    (∀ x ∈ seen s', x ∈ seen s) ∧
    (∀ p ∈ a, p.1 ∈ view s' ∧ p.2 ≠ 0) ∧
    (view s' ≠ [] → a ≠ [])
  hdeq : ∀ (t : Time) (j : Jobid) (s : σ) (a : Alloc), Inv s → SchedP s a →
    j ∈ akeys a →
    ∃ s2, deq t j s = .ok s2 ∧ Inv s2 ∧
      (∀ x, x ∈ view s2 ↔ x ∈ view s ∧ x ≠ j) ∧
      (∀ x ∈ seen s2, x ∈ seen s)

/-- The driver-loop invariant: the policy invariant holds, the policy's view
is the `remaining` key set (which has no duplicate keys), every scheduled job
is admitted, everything after the queue head is an ARRIVAL, a COMPLETE at the
head names a scheduled job of a post-schedule state, queued arrivals are fresh
and pairwise distinct, and an empty queue means no job remains. -/
def DriverInv {σ : Type} {enq : Time → Jobid → ℚ → σ → σ}
    {deq : Time → Jobid → σ → Except PyErr σ}
    {sch : Time → σ → Except PyErr (σ × Alloc)} (L : PolicyLaws enq deq sch)
    (evs : List Ev) (rem : List (Jobid × ℚ)) (sched : Alloc) (s : σ) : Prop :=
  L.Inv s ∧
  (∀ x, x ∈ L.view s ↔ x ∈ akeys rem) ∧
  (akeys rem).Nodup ∧
  (∀ p ∈ sched, p.1 ∈ akeys rem) ∧
  (∀ e ∈ evs.tail, isComp e = false) ∧
  (∀ t j, evs.head? = some (.comp t j) → j ∈ akeys sched ∧ L.SchedP s sched) ∧
  (∀ t j sz, Ev.arr t j sz ∈ evs → j ∉ L.seen s) ∧
  (arrIds evs).Nodup ∧
  (evs = [] → rem = [])

/-- Re-establishing the driver invariant after one iteration: the popped
queue `evs` is all ARRIVALs; the new queue `evs2` is either `evs` itself or
`evs` with a COMPLETE for a scheduled job pushed strictly below its head. -/
theorem DriverInv_next {σ : Type} {enq : Time → Jobid → ℚ → σ → σ}
    {deq : Time → Jobid → σ → Except PyErr σ}
    {sch : Time → σ → Except PyErr (σ × Alloc)} (L : PolicyLaws enq deq sch)
    {evs evs2 : List Ev} {rem2 : List (Jobid × ℚ)} {sched2 : Alloc} {s3 : σ}
    (harr : ∀ e ∈ evs, isComp e = false)
    (harrnd : (arrIds evs).Nodup)
    (hfr : ∀ t j sz, Ev.arr t j sz ∈ evs → j ∉ L.seen s3)
    (hInv3 : L.Inv s3)
    (hview3 : ∀ x, x ∈ L.view s3 ↔ x ∈ akeys rem2)
    (hnd2 : (akeys rem2).Nodup)
    (hSchedP : L.SchedP s3 sched2)
    (halloc : ∀ p ∈ sched2, p.1 ∈ akeys rem2)
    (hpush : (evs2 = evs ∧ (evs = [] → rem2 = [])) ∨
      (∃ nc jm, jm ∈ akeys sched2 ∧
        (∀ e0, evs.head? = some e0 → evLt (.comp nc jm) e0 = true) ∧
        evs2 = evPush (.comp nc jm) evs)) :
    DriverInv L evs2 rem2 sched2 s3 ∧
      evMeasure evs2 ≤ 1 + evMeasure evs ∧
      arrIds evs2 = arrIds evs := by
  rcases hpush with ⟨rfl, hnil⟩ | ⟨nc, jm, hjm, hbelow, hevs2⟩
  · refine ⟨⟨hInv3, hview3, hnd2, halloc, ?_, ?_, hfr, harrnd, hnil⟩, ?_, rfl⟩
    · intro e he
      exact harr e (List.mem_of_mem_tail he)
    · intro t j hhd
      have : isComp (.comp t j) = false :=
        harr _ (List.mem_of_mem_head? hhd)
      simp [isComp] at this
    · omega
  · have hcons : evs2 = .comp nc jm :: evs := by
      cases evs with
      | nil => rw [hevs2]; rfl
      | cons e0 r =>
        rw [hevs2, evPush, if_pos (by simp [hbelow e0 rfl])]
    subst hcons
    refine ⟨⟨hInv3, hview3, hnd2, halloc, ?_, ?_, ?_, ?_, ?_⟩, ?_, ?_⟩
    · intro e he
      exact harr e he
    · intro t j hhd
      rw [List.head?_cons, Option.some.injEq] at hhd
      injection hhd.symm with h1 h2
      subst h2
      exact ⟨hjm, hSchedP⟩
    · intro t j sz hmem
      rcases List.mem_cons.mp hmem with hc | hc
      · cases hc
      · exact hfr t j sz hc
    · rw [arrIds_cons_comp]
      exact harrnd
    · intro h
      cases h
    · rw [evMeasure_cons]
      simp [isComp]
    · rw [arrIds_cons_comp]

theorem mem_akeys_aerase {α : Type} {k j : ℕ} {l : List (ℕ × α)}
    (hnd : (akeys l).Nodup) :
    k ∈ akeys (aerase j l) ↔ k ∈ akeys l ∧ k ≠ j := by
  rw [← alookup_isSome_iff_mem_akeys, alookup_aerase hnd]
  by_cases h : k = j
  · simp [h]
  · simp [h, alookup_isSome_iff_mem_akeys]

theorem akeys_ne_nil {α : Type} {l : List (ℕ × α)} (h : l ≠ []) :
    akeys l ≠ [] := by
  intro hn
  exact h (List.map_eq_nil_iff.mp hn)


theorem count_shuffle {A B : List ℕ} {j x : ℕ} :
    (A ++ [j]).count x + B.count x = A.count x + (j :: B).count x := by
  rw [List.count_append, List.count_cons]
  by_cases hx : x = j <;> simp [hx] <;> omega

theorem count_shuffle_erase {A O : List ℕ} {j x : ℕ} (hj : j ∈ A) :
    (j :: O).count x + (A.erase j).count x = O.count x + A.count x := by
  have hprm := (List.perm_cons_erase hj).count_eq x
  rw [List.count_cons] at hprm
  rw [List.count_cons]
  by_cases hx : x = j <;> simp [hx] at hprm ⊢ <;> omega

/-- The driver's main loop, run with enough fuel from a configuration
satisfying the invariant, returns successfully with an empty `remaining` map,
and the completions it emits account exactly for the previously emitted ones,
the currently admitted jobs, and the queued arrivals. -/
theorem simLoop_terminates {σ : Type} {enq : Time → Jobid → ℚ → σ → σ}
    {deq : Time → Jobid → σ → Except PyErr σ}
    {sch : Time → σ → Except PyErr (σ × Alloc)} (L : PolicyLaws enq deq sch)
    (est : ℚ → ℚ) :
    ∀ (fuel : ℕ) (evs : List Ev) (rem : List (Jobid × ℚ)) (sched : Alloc)
      (s : σ) (last_t : Time) (outs : List (Time × Jobid)) (lg : List Alloc),
      evMeasure evs + (akeys rem).length < fuel →
      DriverInv L evs rem sched s →
      ∃ res s',
        simLoop enq deq sch est fuel evs rem sched s last_t outs lg =
          some (res, s') ∧
        res.remaining = [] ∧
        ∀ x : Jobid, (res.completions.map Prod.snd).count x =
          (outs.map Prod.snd).count x + (akeys rem).count x +
            (arrIds evs).count x := by
  intro fuel
  induction fuel with
  | zero =>
    intro evs rem sched s last_t outs lg hm _
    omega
  | succ fuel ih =>
    intro evs rem sched s last_t outs lg hm hinv
    obtain ⟨hInv, hview, hnd, hsched, htail, hheadc, hfresh, harrnd, hnilrem⟩ :=
      hinv
    cases evs with
    | nil =>
      have hrem : rem = [] := hnilrem rfl
      subst hrem
      refine ⟨⟨outs.reverse, [], lg.reverse⟩, s, by rw [simLoop], rfl, ?_⟩
      intro x
      simp [arrIds_nil, akeys, List.count_reverse]
    | cons ev evs =>
      have harr : ∀ e ∈ evs, isComp e = false := fun e he => htail e he
      obtain ⟨rem1, hdeb, hkeys1⟩ :=
        @debit_ok (ev.time - last_t) sched rem hsched
      have hnd1 : (akeys rem1).Nodup := by rw [hkeys1]; exact hnd
      cases ev with
      | arr t0 j0 sz0 =>
        have harrnd' : (arrIds evs).Nodup := by
          rw [arrIds_cons_arr] at harrnd
          exact (List.nodup_cons.mp harrnd).2
        have hj0seen : j0 ∉ L.seen s := hfresh t0 j0 sz0 (by simp)
        have hj0rem : j0 ∉ akeys rem := fun hmem =>
          hj0seen (L.view_seen s hInv j0 ((hview j0).mpr hmem))
        have hj0rem1 : j0 ∉ akeys rem1 := by rw [hkeys1]; exact hj0rem
        obtain ⟨hInv2, hviewE, hseenE⟩ :=
          L.henq (Ev.arr t0 j0 sz0).time j0 (est sz0) s hInv hj0seen
        obtain ⟨s3, sched2, hs, hInv3, hSchedP, hview3, hseen3, halloc, hane⟩ :=
          L.hsch (Ev.arr t0 j0 sz0).time
            (enq (Ev.arr t0 j0 sz0).time j0 (est sz0) s) hInv2
        have hkeys2 : akeys (aset j0 sz0 rem1) = akeys rem1 ++ [j0] :=
          akeys_aset_fresh hj0rem1
        have hview3r : ∀ x, x ∈ L.view s3 ↔ x ∈ akeys (aset j0 sz0 rem1) := by
          intro x
          rw [hview3 x, hviewE x, hkeys2, List.mem_append, List.mem_singleton,
            hview x, hkeys1, or_comm]
        have hnd2 : (akeys (aset j0 sz0 rem1)).Nodup := by
          rw [hkeys2, List.nodup_append]
          refine ⟨hnd1, List.nodup_singleton j0, ?_⟩
          intro a ha hb
          rw [List.mem_singleton] at hb
          subst hb
          exact hj0rem1 ha
        have hfresh3 : ∀ t j sz, Ev.arr t j sz ∈ evs → j ∉ L.seen s3 := by
          intro t j sz hmem hj3
          rcases hseenE j (hseen3 j hj3) with rfl | hj2
          · rw [arrIds_cons_arr] at harrnd
            exact (List.nodup_cons.mp harrnd).1 (mem_arrIds hmem)
          · exact hfresh t j sz (List.mem_cons_of_mem _ hmem) hj2
        have halloc2 : ∀ p ∈ sched2, p.1 ∈ akeys (aset j0 sz0 rem1) :=
          fun p hp => (hview3r p.1).mp (halloc p hp).1
        have hane2 : sched2 ≠ [] := by
          refine hane ?_
          intro hv
          have := (hview3r j0).mpr (by rw [hkeys2]; simp)
          rw [hv] at this
          cases this
        obtain ⟨nd, jm, hmin, hjm⟩ :=
          @minCompletion_ok sched2 (aset j0 sz0 rem1) hane2
            (fun p hp => ⟨halloc2 p hp, (halloc p hp).2⟩)
        have hm1 : evMeasure (Ev.arr t0 j0 sz0 :: evs) = 3 + evMeasure evs := by
          rw [evMeasure_cons]; simp [isComp]
        have hlen2 : (akeys (aset j0 sz0 rem1)).length =
            (akeys rem).length + 1 := by
          rw [hkeys2, List.length_append, hkeys1]
          rfl
        rw [hm1] at hm
        -- count bookkeeping shared by the three push cases
        have hcnt : ∀ x : Jobid, (akeys (aset j0 sz0 rem1)).count x +
            (arrIds evs).count x =
            (akeys rem).count x + (arrIds (Ev.arr t0 j0 sz0 :: evs)).count x := by
          intro x
          rw [hkeys2, hkeys1, arrIds_cons_arr]
          exact count_shuffle
        cases evs with
        | nil =>
          have hbelow : ∀ e0 : Ev, ([] : List Ev).head? = some e0 →
              evLt (.comp ((Ev.arr t0 j0 sz0).time + nd) jm) e0 = true := by
            intro e0 h0
            cases h0
          obtain ⟨hinv2', hmeas2, harrids2⟩ := DriverInv_next L harr harrnd'
            hfresh3 hInv3 hview3r hnd2 hSchedP halloc2
            (Or.inr ⟨(Ev.arr t0 j0 sz0).time + nd, jm, hjm, hbelow, rfl⟩)
          obtain ⟨res, s', hrun, hremnil, hacc⟩ :=
            ih (evPush (.comp ((Ev.arr t0 j0 sz0).time + nd) jm) [])
              (aset j0 sz0 rem1) sched2 s3 (Ev.arr t0 j0 sz0).time outs
              (sched2 :: lg)
              (by have h0 : evMeasure ([] : List Ev) = 0 := rfl; omega) hinv2'
          refine ⟨res, s', ?_, hremnil, ?_⟩
          · rw [simLoop, hdeb]
            dsimp only
            rw [hs]
            dsimp only
            rw [if_neg (by rw [aset_isEmpty]; simp), hmin]
            dsimp only
            exact hrun
          · intro x
            rw [hacc x, harrids2]
            have := hcnt x
            omega
        | cons e0 rest =>
          by_cases hlt : (Ev.arr t0 j0 sz0).time + nd < e0.time
          · have hbelow : ∀ e0' : Ev, (e0 :: rest).head? = some e0' →
                evLt (.comp ((Ev.arr t0 j0 sz0).time + nd) jm) e0' = true := by
              intro e0' h0
              rw [List.head?_cons, Option.some.injEq] at h0
              subst h0
              exact evLt_comp_left hlt
            obtain ⟨hinv2', hmeas2, harrids2⟩ := DriverInv_next L harr harrnd'
              hfresh3 hInv3 hview3r hnd2 hSchedP halloc2
              (Or.inr ⟨(Ev.arr t0 j0 sz0).time + nd, jm, hjm, hbelow, rfl⟩)
            obtain ⟨res, s', hrun, hremnil, hacc⟩ :=
              ih (evPush (.comp ((Ev.arr t0 j0 sz0).time + nd) jm) (e0 :: rest))
                (aset j0 sz0 rem1) sched2 s3 (Ev.arr t0 j0 sz0).time outs
                (sched2 :: lg) (by omega) hinv2'
            refine ⟨res, s', ?_, hremnil, ?_⟩
            · rw [simLoop, hdeb]
              dsimp only
              rw [hs]
              dsimp only
              rw [if_neg (by rw [aset_isEmpty]; simp), hmin]
              dsimp only
              rw [if_pos hlt]
              exact hrun
            · intro x
              rw [hacc x, harrids2]
              have := hcnt x
              omega
          · obtain ⟨hinv2', hmeas2, harrids2⟩ := DriverInv_next L harr harrnd'
              hfresh3 hInv3 hview3r hnd2 hSchedP halloc2
              (Or.inl ⟨rfl, fun h => absurd h (List.cons_ne_nil _ _)⟩)
            obtain ⟨res, s', hrun, hremnil, hacc⟩ :=
              ih (e0 :: rest) (aset j0 sz0 rem1) sched2 s3
                (Ev.arr t0 j0 sz0).time outs (sched2 :: lg) (by omega) hinv2'
            refine ⟨res, s', ?_, hremnil, ?_⟩
            · rw [simLoop, hdeb]
              dsimp only
              rw [hs]
              dsimp only
              rw [if_neg (by rw [aset_isEmpty]; simp), hmin]
              dsimp only
              rw [if_neg hlt]
              exact hrun
            · intro x
              rw [hacc x, harrids2]
              have := hcnt x
              omega
      | comp tc jc =>
        have harrnd' : (arrIds evs).Nodup := by
          rw [arrIds_cons_comp] at harrnd
          exact harrnd
        obtain ⟨hjsched, hSP⟩ := hheadc tc jc rfl
        have hjrem : jc ∈ akeys rem := by
          obtain ⟨p, hp, hpe⟩ := List.mem_map.mp hjsched
          rw [← hpe]
          exact hsched p hp
        have hjrem1 : jc ∈ akeys rem1 := by rw [hkeys1]; exact hjrem
        have hlsome : (alookup jc rem1).isSome :=
          alookup_isSome_iff_mem_akeys.mpr hjrem1
        obtain ⟨r, hlook⟩ := Option.isSome_iff_exists.mp hlsome
        obtain ⟨s2', hdq, hInv2', hview2', hseen2'⟩ :=
          L.hdeq (Ev.comp tc jc).time jc s sched hInv hSP hjsched
        obtain ⟨s3, sched2, hs, hInv3, hSchedP, hview3, hseen3, halloc, hane⟩ :=
          L.hsch (Ev.comp tc jc).time s2' hInv2'
        have hview3r : ∀ x, x ∈ L.view s3 ↔ x ∈ akeys (aerase jc rem1) := by
          intro x
          rw [hview3 x, hview2' x, mem_akeys_aerase hnd1, hview x, hkeys1]
        have hkeys2 : akeys (aerase jc rem1) = (akeys rem1).erase jc :=
          akeys_aerase hnd1
        have hnd2 : (akeys (aerase jc rem1)).Nodup := by
          rw [hkeys2]
          exact hnd1.erase jc
        have hfresh3 : ∀ t j sz, Ev.arr t j sz ∈ evs → j ∉ L.seen s3 := by
          intro t j sz hmem hj3
          exact hfresh t j sz (List.mem_cons_of_mem _ hmem)
            (hseen2' j (hseen3 j hj3))
        have halloc2 : ∀ p ∈ sched2, p.1 ∈ akeys (aerase jc rem1) :=
          fun p hp => (hview3r p.1).mp (halloc p hp).1
        have hm1 : evMeasure (Ev.comp tc jc :: evs) = 1 + evMeasure evs := by
          rw [evMeasure_cons]; simp [isComp]
        have hlen2 : (akeys (aerase jc rem1)).length + 1 =
            (akeys rem).length := by
          rw [hkeys2, List.length_erase_of_mem hjrem1, hkeys1]
          have : 0 < (akeys rem).length :=
            List.length_pos.mpr (List.ne_nil_of_mem hjrem)
          omega
        rw [hm1] at hm
        have hcnt : ∀ x : Jobid,
            (((((Ev.comp tc jc).time, jc) :: outs).map Prod.snd).count x) +
              (akeys (aerase jc rem1)).count x =
            (outs.map Prod.snd).count x + (akeys rem).count x := by
          intro x
          rw [List.map_cons, hkeys2, ← hkeys1]
          exact count_shuffle_erase hjrem1
        cases hre : (aerase jc rem1).isEmpty with
        | true =>
          have hre2 : aerase jc rem1 = [] := List.isEmpty_iff.mp hre
          obtain ⟨hinv2', hmeas2, harrids2⟩ := DriverInv_next L harr harrnd'
            hfresh3 hInv3 hview3r hnd2 hSchedP halloc2
            (Or.inl ⟨rfl, fun _ => hre2⟩)
          obtain ⟨res, s', hrun, hremnil, hacc⟩ :=
            ih evs (aerase jc rem1) sched2 s3 (Ev.comp tc jc).time
              (((Ev.comp tc jc).time, jc) :: outs) (sched2 :: lg)
              (by omega) hinv2'
          refine ⟨res, s', ?_, hremnil, ?_⟩
          · rw [simLoop, hdeb]
            dsimp only
            rw [hlook]
            dsimp only
            rw [hdq]
            dsimp only
            rw [hs]
            dsimp only
            rw [if_pos hre]
            exact hrun
          · intro x
            rw [hacc x, harrids2, arrIds_cons_comp]
            have := hcnt x
            omega
        | false =>
          have hre2 : aerase jc rem1 ≠ [] := by
            intro hn
            rw [hn] at hre
            cases hre
          have hane2 : sched2 ≠ [] := by
            refine hane ?_
            obtain ⟨y, hy⟩ := List.exists_mem_of_ne_nil _
              (akeys_ne_nil hre2)
            exact List.ne_nil_of_mem ((hview3r y).mpr hy)
          obtain ⟨nd, jm, hmin, hjm⟩ :=
            @minCompletion_ok sched2 (aerase jc rem1) hane2
              (fun p hp => ⟨halloc2 p hp, (halloc p hp).2⟩)
          cases evs with
          | nil =>
            have hbelow : ∀ e0 : Ev, ([] : List Ev).head? = some e0 →
                evLt (.comp ((Ev.comp tc jc).time + nd) jm) e0 = true := by
              intro e0 h0
              cases h0
            obtain ⟨hinv2', hmeas2, harrids2⟩ := DriverInv_next L harr harrnd'
              hfresh3 hInv3 hview3r hnd2 hSchedP halloc2
              (Or.inr ⟨(Ev.comp tc jc).time + nd, jm, hjm, hbelow, rfl⟩)
            obtain ⟨res, s', hrun, hremnil, hacc⟩ :=
              ih (evPush (.comp ((Ev.comp tc jc).time + nd) jm) [])
                (aerase jc rem1) sched2 s3 (Ev.comp tc jc).time
                (((Ev.comp tc jc).time, jc) :: outs) (sched2 :: lg)
                (by have h0 : evMeasure ([] : List Ev) = 0 := rfl; omega)
                hinv2'
            refine ⟨res, s', ?_, hremnil, ?_⟩
            · rw [simLoop, hdeb]
              dsimp only
              rw [hlook]
              dsimp only
              rw [hdq]
              dsimp only
              rw [hs]
              dsimp only
              rw [if_neg (by rw [hre]; simp), hmin]
              dsimp only
              exact hrun
            · intro x
              rw [hacc x, harrids2, arrIds_cons_comp]
              have := hcnt x
              omega
          | cons e0 rest =>
            by_cases hlt : (Ev.comp tc jc).time + nd < e0.time
            · have hbelow : ∀ e0' : Ev, (e0 :: rest).head? = some e0' →
                  evLt (.comp ((Ev.comp tc jc).time + nd) jm) e0' = true := by
                intro e0' h0
                rw [List.head?_cons, Option.some.injEq] at h0
                subst h0
                exact evLt_comp_left hlt
              obtain ⟨hinv2', hmeas2, harrids2⟩ := DriverInv_next L harr
                harrnd' hfresh3 hInv3 hview3r hnd2 hSchedP halloc2
                (Or.inr ⟨(Ev.comp tc jc).time + nd, jm, hjm, hbelow, rfl⟩)
              obtain ⟨res, s', hrun, hremnil, hacc⟩ :=
                ih (evPush (.comp ((Ev.comp tc jc).time + nd) jm) (e0 :: rest))
                  (aerase jc rem1) sched2 s3 (Ev.comp tc jc).time
                  (((Ev.comp tc jc).time, jc) :: outs) (sched2 :: lg)
                  (by omega) hinv2'
              refine ⟨res, s', ?_, hremnil, ?_⟩
              · rw [simLoop, hdeb]
                dsimp only
                rw [hlook]
                dsimp only
                rw [hdq]
                dsimp only
                rw [hs]
                dsimp only
                rw [if_neg (by rw [hre]; simp), hmin]
                dsimp only
                rw [if_pos hlt]
                exact hrun
              · intro x
                rw [hacc x, harrids2, arrIds_cons_comp]
                have := hcnt x
                omega
            · obtain ⟨hinv2', hmeas2, harrids2⟩ := DriverInv_next L harr
                harrnd' hfresh3 hInv3 hview3r hnd2 hSchedP halloc2
                (Or.inl ⟨rfl, fun h => absurd h (List.cons_ne_nil _ _)⟩)
              obtain ⟨res, s', hrun, hremnil, hacc⟩ :=
                ih (e0 :: rest) (aerase jc rem1) sched2 s3
                  (Ev.comp tc jc).time (((Ev.comp tc jc).time, jc) :: outs)
                  (sched2 :: lg) (by omega) hinv2'
              refine ⟨res, s', ?_, hremnil, ?_⟩
              · rw [simLoop, hdeb]
                dsimp only
                rw [hlook]
                dsimp only
                rw [hdq]
                dsimp only
                rw [hs]
                dsimp only
                rw [if_neg (by rw [hre]; simp), hmin]
                dsimp only
                rw [if_neg hlt]
                exact hrun
              · intro x
                rw [hacc x, harrids2, arrIds_cons_comp]
                have := hcnt x
                omega

theorem akeys_equalShares (s : List Jobid) : akeys (equalShares s) = s := by
  rw [akeys, equalShares, List.map_map]
  simp [Function.comp_def]

theorem isEmpty_false_of_ne_nil {α : Type} {l : List α} (h : l ≠ []) :
    l.isEmpty = false := by
  cases l with
  | nil => exact absurd rfl h
  | cons x xs => rfl

theorem equalShares_share_ne_zero {s : List Jobid} {p : Jobid × ℚ}
    (hp : p ∈ equalShares s) : p.2 ≠ 0 :=
  ne_of_gt (mem_equalShares_pos hp)

theorem mem_of_mem_equalShares {s : List Jobid} {p : Jobid × ℚ}
    (hp : p ∈ equalShares s) : p.1 ∈ s := by
  obtain ⟨x, hx, rfl⟩ := List.mem_map.mp hp
  exact hx

theorem equalShares_ne_nil {s : List Jobid} (h : s ≠ []) :
    equalShares s ≠ [] := by
  intro hn
  exact h (List.map_eq_nil_iff.mp hn)

/-- The PS policy satisfies the driver laws: its view is the sorted running
set. -/
def PS.laws : PolicyLaws PS.enqueue PS.dequeue PS.schedule where
  Inv s := s.Sorted (· < ·)
  view s := s
  seen s := s
  SchedP s a := a = equalShares s
  view_seen := fun _ _ _ hx => hx
  henq := by
    intro t j sz s hs _
    exact ⟨sorted_sinsert hs, fun x => mem_sinsert, fun x hx => mem_sinsert.mp hx⟩
  hsch := by
    intro t s hs
    by_cases he : s.isEmpty
    · have hnil : s = [] := List.isEmpty_iff.mp he
      subst hnil
      refine ⟨[], [], ?_, hs, rfl, fun x => Iff.rfl, fun x hx => hx,
        by simp, fun hv => absurd rfl hv⟩
      rw [PS.schedule, if_pos he]
    · refine ⟨s, equalShares s, ?_, hs, rfl, fun x => Iff.rfl, fun x hx => hx,
        ?_, ?_⟩
      · rw [PS.schedule, if_neg he]
      · intro p hp
        exact ⟨mem_of_mem_equalShares hp, equalShares_share_ne_zero hp⟩
      · intro hv
        exact equalShares_ne_nil hv
  hdeq := by
    intro t j s a hs hsp hj
    subst hsp
    rw [akeys_equalShares] at hj
    have hnd : s.Nodup := hs.imp ne_of_lt
    refine ⟨s.erase j, ?_, sorted_erase hs, ?_, ?_⟩
    · rw [PS.dequeue, if_pos hj]
    · intro x
      rw [List.Nodup.mem_erase_iff hnd]
      tauto
    · intro x hx
      exact List.mem_of_mem_erase hx

/-- The FIFO policy satisfies the driver laws: its view is the job deque. -/
def FIFO.laws : PolicyLaws FIFO.enqueue FIFO.dequeue FIFO.schedule where
  Inv s := s.Nodup
  view s := s
  seen s := s
  SchedP s a := (s = [] ∧ a = []) ∨ ∃ h t', s = h :: t' ∧ a = [(h, 1)]
  view_seen := fun _ _ _ hx => hx
  henq := by
    intro t j sz s hs hj
    refine ⟨?_, ?_, ?_⟩
    · show (s ++ [j]).Nodup
      rw [List.nodup_append]
      refine ⟨hs, List.nodup_singleton j, ?_⟩
      intro a ha hb
      rw [List.mem_singleton] at hb
      subst hb
      exact hj ha
    · intro x
      show x ∈ s ++ [j] ↔ _
      rw [List.mem_append, List.mem_singleton]
      tauto
    · intro x hx
      have hx' : x ∈ s ++ [j] := hx
      rw [List.mem_append, List.mem_singleton] at hx'
      tauto
  hsch := by
    intro t s hs
    cases s with
    | nil =>
      refine ⟨[], [], rfl, hs, Or.inl ⟨rfl, rfl⟩, fun x => Iff.rfl,
        fun x hx => hx, by simp, fun hv => absurd rfl hv⟩
    | cons x xs =>
      refine ⟨x :: xs, [(x, 1)], rfl, hs, Or.inr ⟨x, xs, rfl, rfl⟩,
        fun y => Iff.rfl, fun y hy => hy, ?_, fun _ => by simp⟩
      intro p hp
      rw [List.mem_singleton] at hp
      subst hp
      exact ⟨by simp, one_ne_zero⟩
  hdeq := by
    intro t j s a hs hsp hj
    rcases hsp with ⟨rfl, rfl⟩ | ⟨h, t', rfl, rfl⟩
    · cases hj
    · have hjh : j = h := by
        simpa [akeys] using hj
      subst hjh
      have hmem : j ∈ j :: t' := by simp
      refine ⟨(j :: t').erase j, ?_, hs.erase j, ?_, ?_⟩
      · rw [FIFO.dequeue, if_pos hmem]
      · intro x
        rw [List.Nodup.mem_erase_iff hs]
        tauto
      · intro x hx
        exact List.mem_of_mem_erase hx

theorem mem_iff_of_mset_cons {α : Type} {j : α} {l l' : List α}
    (h : (l' : Multiset α) = j ::ₘ (l : Multiset α)) :
    ∀ x, x ∈ l' ↔ x = j ∨ x ∈ l := by
  intro x
  rw [← Multiset.mem_coe, h, Multiset.mem_cons, Multiset.mem_coe]

theorem nodup_of_mset_cons {α : Type} {j : α} {l l' : List α}
    (h : (l' : Multiset α) = j ::ₘ (l : Multiset α)) (hj : j ∉ l)
    (hl : l.Nodup) : l'.Nodup := by
  have h2 : Multiset.Nodup (l' : Multiset α) := by
    rw [h, Multiset.nodup_cons]
    exact ⟨by rwa [Multiset.mem_coe], by rwa [Multiset.coe_nodup]⟩
  rwa [Multiset.coe_nodup] at h2

theorem SRPT.enqueue_ids_mset (t : Time) (j : Jobid) (sz : ℚ)
    (s : SRPT.State) :
    (((SRPT.enqueue t j sz s).jobs.map Prod.snd : List Jobid) : Multiset Jobid) =
      j ::ₘ ↑(s.jobs.map Prod.snd) := by
  have h := congrArg (Multiset.map Prod.snd)
    (heappush_mset (SRPT.update t s).jobs (sz, j))
  rw [Multiset.map_cons, Multiset.map_coe, Multiset.map_coe] at h
  show (((heappush (SRPT.update t s).jobs (sz, j)).map Prod.snd : List Jobid) :
    Multiset Jobid) = _
  rw [h, SRPT.update_ids]

/-- The SRPT policy satisfies the driver laws: its view is the heap's jobid
set, and the driver only ever dequeues the scheduled head (so the broken
non-head removal path is never taken in a clean run). -/
def SRPT.laws : PolicyLaws SRPT.enqueue SRPT.dequeue SRPT.schedule where
  Inv s := (s.jobs.map Prod.snd).Nodup
  view s := s.jobs.map Prod.snd
  seen s := s.jobs.map Prod.snd
  SchedP s a := (s.jobs = [] ∧ a = []) ∨
    ∃ r j rest, s.jobs = (r, j) :: rest ∧ a = [(j, 1)]
  view_seen := fun _ _ _ hx => hx
  henq := by
    intro t j sz s hs hj
    have hm := SRPT.enqueue_ids_mset t j sz s
    refine ⟨nodup_of_mset_cons hm hj hs, mem_iff_of_mset_cons hm, ?_⟩
    intro x hx
    rcases (mem_iff_of_mset_cons hm x).mp hx with h1 | h1
    · exact Or.inl h1
    · exact Or.inr h1
  hsch := by
    intro t s hs
    have hids := SRPT.update_ids t s
    have hInvu : ((SRPT.update t s).jobs.map Prod.snd).Nodup := by
      rw [hids]; exact hs
    have hviewu : ∀ x, x ∈ (SRPT.update t s).jobs.map Prod.snd ↔
        x ∈ s.jobs.map Prod.snd := by
      intro x; rw [hids]
    cases hj : (SRPT.update t s).jobs with
    | nil =>
      refine ⟨SRPT.update t s, [], ?_, hInvu, Or.inl ⟨hj, rfl⟩, hviewu,
        fun x hx => (hviewu x).mp hx, by simp, ?_⟩
      · rw [SRPT.schedule, hj]
      · intro hv
        exact (hv (by show (SRPT.update t s).jobs.map Prod.snd = []
                      rw [hj]; rfl)).elim
    | cons p rest =>
      obtain ⟨r, j0⟩ := p
      refine ⟨SRPT.update t s, [(j0, 1)], ?_, hInvu,
        Or.inr ⟨r, j0, rest, hj, rfl⟩, hviewu, fun x hx => (hviewu x).mp hx,
        ?_, fun _ => by simp⟩
      · rw [SRPT.schedule, hj]
      · intro p hp
        rw [List.mem_singleton] at hp
        subst hp
        refine ⟨?_, one_ne_zero⟩
        show j0 ∈ (SRPT.update t s).jobs.map Prod.snd
        rw [hj]
        simp
  hdeq := by
    intro t j s a hInv hSP hj
    rcases hSP with ⟨hjobs, rfl⟩ | ⟨r, j0, rest, hjobs, rfl⟩
    · cases hj
    · have hjj : j = j0 := by simpa [akeys] using hj
      subst hjj
      obtain ⟨r', hju⟩ : ∃ r', (SRPT.update t s).jobs = (r', j) :: rest := by
        rw [SRPT.update]
        split
        · exact ⟨r, hjobs⟩
        · rw [hjobs, debitHead]
          exact ⟨r - (t - s.last_t), rfl⟩
      obtain ⟨⟨top, rest2⟩, hp⟩ := heappop_isSome
        (show (SRPT.update t s).jobs ≠ [] by
          rw [hju]; exact List.cons_ne_nil _ _)
      obtain ⟨hhead, hmset⟩ := heappop_eq_some hp
      have htop : top = (r', j) := by
        rw [hju] at hhead
        simpa using hhead.symm
      subst htop
      have hids2 : ((rest2.map Prod.snd : List Jobid) : Multiset Jobid) =
          ↑(rest.map Prod.snd) := by
        rw [hju] at hmset
        have h2 := congrArg (Multiset.map Prod.snd) hmset
        rw [Multiset.map_add, Multiset.map_coe, Multiset.map_coe] at h2
        simp only [Multiset.map_singleton, List.map_cons,
          ← Multiset.cons_coe] at h2
        rw [← add_singleton_eq] at h2
        exact add_right_cancel h2
      have hperm := Multiset.coe_eq_coe.mp hids2
      have hnd0 : (s.jobs.map Prod.snd).Nodup := hInv
      rw [hjobs, List.map_cons] at hnd0
      obtain ⟨hjnot, hndrest⟩ := List.nodup_cons.mp hnd0
      refine ⟨{ SRPT.update t s with jobs := rest2 }, ?_, ?_, ?_, ?_⟩
      · rw [SRPT.dequeue, hju]
        rw [hju] at hp
        dsimp only
        rw [if_pos rfl, hp]
      · show (rest2.map Prod.snd).Nodup
        exact hperm.nodup_iff.mpr hndrest
      · intro x
        show x ∈ rest2.map Prod.snd ↔ x ∈ s.jobs.map Prod.snd ∧ x ≠ j
        rw [hperm.mem_iff, hjobs, List.map_cons, List.mem_cons]
        constructor
        · intro hx
          exact ⟨Or.inr hx, fun he => hjnot (he ▸ hx)⟩
        · rintro ⟨hx | hx, hne⟩
          · exact absurd hx hne
          · exact hx
      · intro x hx
        show x ∈ s.jobs.map Prod.snd
        have hx2 : x ∈ rest2.map Prod.snd := hx
        rw [hperm.mem_iff] at hx2
        rw [hjobs, List.map_cons]
        exact List.mem_cons_of_mem _ hx2

theorem sinsert_perm {j : Jobid} : ∀ {l : List Jobid}, j ∉ l →
    (sinsert j l).Perm (j :: l)
  | [], _ => List.Perm.refl _
  | h :: t, hj => by
    rw [sinsert]
    by_cases h1 : j < h
    · rw [if_pos h1]
    · rw [if_neg h1,
        if_neg (fun he => hj (by rw [he]; exact List.mem_cons_self _ _))]
      have ht : j ∉ t := fun hm => hj (List.mem_cons_of_mem _ hm)
      exact ((sinsert_perm ht).cons h).trans (List.Perm.swap j h t)

/-- The late-promotion loop preserves the combined heap-plus-late jobid
multiset. -/
theorem SRPT_plus_PS.popLate_mset (eps : ℚ) :
    ∀ (fuel : ℕ) (jobs : List (ℚ × Jobid)) (late : List Jobid),
      (jobs.map Prod.snd ++ late).Nodup →
      (((SRPT_plus_PS.popLate eps fuel jobs late).1.map Prod.snd ++
          (SRPT_plus_PS.popLate eps fuel jobs late).2 : List Jobid) :
          Multiset Jobid) =
        ↑(jobs.map Prod.snd ++ late)
  | 0, jobs, late, _ => rfl
  | fuel + 1, [], late, _ => by rw [SRPT_plus_PS.popLate]
  | fuel + 1, (r, jid) :: rest', late, hnd => by
    rw [SRPT_plus_PS.popLate]
    by_cases hr : r < eps
    · rw [if_pos hr]
      obtain ⟨⟨top, rest⟩, hp⟩ :=
        heappop_isSome (List.cons_ne_nil (r, jid) rest')
      rw [hp]
      obtain ⟨hhead, hmset⟩ := heappop_eq_some hp
      have htop : top = (r, jid) := by simpa using hhead.symm
      subst htop
      have hids : ((rest.map Prod.snd : List Jobid) : Multiset Jobid) =
          ↑(rest'.map Prod.snd) := by
        have h2 := congrArg (Multiset.map Prod.snd) hmset
        rw [Multiset.map_add, Multiset.map_coe, Multiset.map_coe] at h2
        simp only [Multiset.map_singleton, List.map_cons,
          ← Multiset.cons_coe] at h2
        rw [add_singleton_eq] at h2
        exact (Multiset.cons_inj_right jid).mp h2
      have hcombined : ((r, jid) :: rest').map Prod.snd ++ late =
          jid :: (rest'.map Prod.snd ++ late) := rfl
      rw [hcombined] at hnd
      obtain ⟨hjid_out, hnd_rest⟩ := List.nodup_cons.mp hnd
      have hjid_late : jid ∉ late :=
        fun hc => hjid_out (List.mem_append.mpr (Or.inr hc))
      have hsp : ((sinsert jid late : List Jobid) : Multiset Jobid) =
          jid ::ₘ ↑late :=
        Multiset.coe_eq_coe.mpr (sinsert_perm hjid_late)
      have hnew : ((rest.map Prod.snd ++ sinsert jid late : List Jobid) :
          Multiset Jobid) = ↑(((r, jid) :: rest').map Prod.snd ++ late) := by
        rw [← Multiset.coe_add, hids, hsp, hcombined, ← Multiset.cons_coe,
          ← Multiset.coe_add]
        rw [← Multiset.singleton_add, ← Multiset.singleton_add]
        exact add_left_comm _ _ _
      have hnd_new : (rest.map Prod.snd ++ sinsert jid late).Nodup := by
        rw [← Multiset.coe_nodup, hnew, Multiset.coe_nodup, hcombined]
        exact hnd
      rw [SRPT_plus_PS.popLate_mset eps fuel rest (sinsert jid late) hnd_new]
      rw [hnew]
    · rw [if_neg hr]

theorem SRPT_plus_PS.popLate_late_mono (eps : ℚ) :
    ∀ (fuel : ℕ) (jobs : List (ℚ × Jobid)) (late : List Jobid) (x : Jobid),
      x ∈ late → x ∈ (SRPT_plus_PS.popLate eps fuel jobs late).2
  | 0, _, _, _, hx => hx
  | fuel + 1, [], late, x, hx => by rw [SRPT_plus_PS.popLate]; exact hx
  | fuel + 1, (r, jid) :: rest', late, x, hx => by
    rw [SRPT_plus_PS.popLate]
    by_cases hr : r < eps
    · rw [if_pos hr]
      cases hp : heappop ((r, jid) :: rest') with
      | none => exact hx
      | some p =>
        obtain ⟨top, rest⟩ := p
        exact SRPT_plus_PS.popLate_late_mono eps fuel rest (sinsert jid late)
          x (mem_sinsert.mpr (Or.inr hx))
    · rw [if_neg hr]
      exact hx

theorem SRPT_plus_PS.popLate_head_or_late (eps : ℚ) :
    ∀ (fuel : ℕ) (r : ℚ) (h : Jobid) (rest : List (ℚ × Jobid))
      (late : List Jobid),
      (∃ r' rest2,
        (SRPT_plus_PS.popLate eps fuel ((r, h) :: rest) late).1 =
          (r', h) :: rest2) ∨
      h ∈ (SRPT_plus_PS.popLate eps fuel ((r, h) :: rest) late).2
  | 0, r, h, rest, late => Or.inl ⟨r, rest, rfl⟩
  | fuel + 1, r, h, rest, late => by
    rw [SRPT_plus_PS.popLate]
    by_cases hr : r < eps
    · rw [if_pos hr]
      cases hp : heappop ((r, h) :: rest) with
      | none => exact Or.inl ⟨r, rest, rfl⟩
      | some p =>
        obtain ⟨top, rest2⟩ := p
        exact Or.inr (SRPT_plus_PS.popLate_late_mono eps fuel rest2
          (sinsert h late) h (mem_sinsert.mpr (Or.inl rfl)))
    · rw [if_neg hr]
      exact Or.inl ⟨r, rest, rfl⟩

theorem SRPT_plus_PS.update_mset (t : Time) (s : SRPT_plus_PS.State)
    (hnd : (s.jobs.map Prod.snd ++ s.late).Nodup) :
    (((SRPT_plus_PS.update t s).jobs.map Prod.snd ++
        (SRPT_plus_PS.update t s).late : List Jobid) : Multiset Jobid) =
      ↑(s.jobs.map Prod.snd ++ s.late) := by
  show (((SRPT_plus_PS.popLate _ _ _ _).1.map Prod.snd ++
      (SRPT_plus_PS.popLate _ _ _ _).2 : List Jobid) : Multiset Jobid) = _
  rw [SRPT_plus_PS.popLate_mset _ _ _ _ (by rw [debitHead_ids]; exact hnd)]
  rw [debitHead_ids]

theorem SRPT_plus_PS.update_nodup (t : Time) (s : SRPT_plus_PS.State)
    (hnd : (s.jobs.map Prod.snd ++ s.late).Nodup) :
    ((SRPT_plus_PS.update t s).jobs.map Prod.snd ++
      (SRPT_plus_PS.update t s).late).Nodup := by
  rw [← Multiset.coe_nodup, SRPT_plus_PS.update_mset t s hnd,
    Multiset.coe_nodup]
  exact hnd

theorem SRPT_plus_PS.update_late_mono (t : Time) (s : SRPT_plus_PS.State)
    (x : Jobid) (hx : x ∈ s.late) : x ∈ (SRPT_plus_PS.update t s).late := by
  show x ∈ (SRPT_plus_PS.popLate _ _ _ _).2
  exact SRPT_plus_PS.popLate_late_mono _ _ _ _ x hx

theorem SRPT_plus_PS.update_head_or_late (t : Time) (s : SRPT_plus_PS.State)
    (r : ℚ) (h : Jobid) (rest : List (ℚ × Jobid))
    (hjobs : s.jobs = (r, h) :: rest) :
    (∃ r' rest2, (SRPT_plus_PS.update t s).jobs = (r', h) :: rest2) ∨
      h ∈ (SRPT_plus_PS.update t s).late := by
  show (∃ r' rest2, (SRPT_plus_PS.popLate s.eps
      (debitHead ((t - s.last_t) / (1 + (s.late.length : ℚ))) s.jobs).length
      (debitHead ((t - s.last_t) / (1 + (s.late.length : ℚ))) s.jobs)
      s.late).1 = (r', h) :: rest2) ∨
    h ∈ (SRPT_plus_PS.popLate s.eps
      (debitHead ((t - s.last_t) / (1 + (s.late.length : ℚ))) s.jobs).length
      (debitHead ((t - s.last_t) / (1 + (s.late.length : ℚ))) s.jobs)
      s.late).2
  rw [hjobs, debitHead]
  exact SRPT_plus_PS.popLate_head_or_late s.eps _ _ h rest s.late

theorem SRPT_plus_PS.update_view_mem (t : Time) (s : SRPT_plus_PS.State)
    (x : Jobid) :
    x ∈ (SRPT_plus_PS.update t s).jobs.map Prod.snd ++
        (SRPT_plus_PS.update t s).late ↔
      x ∈ s.jobs.map Prod.snd ++ s.late := by
  rw [List.mem_append, List.mem_append]
  exact SRPT_plus_PS.update_mem t s x

theorem SRPT_plus_PS.enqueue_view_mset (t : Time) (j : Jobid) (sz : ℚ)
    (s : SRPT_plus_PS.State)
    (hnd : (s.jobs.map Prod.snd ++ s.late).Nodup) :
    (((SRPT_plus_PS.enqueue t j sz s).jobs.map Prod.snd ++
        (SRPT_plus_PS.enqueue t j sz s).late : List Jobid) : Multiset Jobid) =
      j ::ₘ ↑(s.jobs.map Prod.snd ++ s.late) := by
  have hm := congrArg (Multiset.map Prod.snd)
    (heappush_mset (SRPT_plus_PS.update t s).jobs (sz, j))
  rw [Multiset.map_cons, Multiset.map_coe, Multiset.map_coe] at hm
  show (((heappush (SRPT_plus_PS.update t s).jobs (sz, j)).map Prod.snd ++
      (SRPT_plus_PS.update t s).late : List Jobid) : Multiset Jobid) = _
  rw [← Multiset.coe_add, hm, ← SRPT_plus_PS.update_mset t s hnd,
    ← Multiset.coe_add, Multiset.cons_add]

/-- The SRPT+PS policy satisfies the driver laws: its view is the heap's
jobid set together with the `late` set. -/
def SRPT_plus_PS.laws :
    PolicyLaws SRPT_plus_PS.enqueue SRPT_plus_PS.dequeue
      SRPT_plus_PS.schedule where
  Inv s := (s.jobs.map Prod.snd ++ s.late).Nodup
  view s := s.jobs.map Prod.snd ++ s.late
  seen s := s.jobs.map Prod.snd ++ s.late
  SchedP s a := (s.jobs = [] ∧ s.late = [] ∧ a = []) ∨
    (∃ r h rest, s.jobs = (r, h) :: rest ∧
      a = equalShares (sinsert h s.late)) ∨
    (s.jobs = [] ∧ a = equalShares s.late)
  view_seen := fun _ _ _ hx => hx
  henq := by
    intro t j sz s hs hj
    have hm := SRPT_plus_PS.enqueue_view_mset t j sz s hs
    refine ⟨nodup_of_mset_cons hm hj hs, mem_iff_of_mset_cons hm, ?_⟩
    intro x hx
    exact (mem_iff_of_mset_cons hm x).mp hx
  hsch := by
    intro t s hs
    have hInvu := SRPT_plus_PS.update_nodup t s hs
    have hviewu := SRPT_plus_PS.update_view_mem t s
    cases hj : (SRPT_plus_PS.update t s).jobs with
    | nil =>
      cases hl : (SRPT_plus_PS.update t s).late with
      | nil =>
        refine ⟨SRPT_plus_PS.update t s, [], ?_, hInvu,
          Or.inl ⟨hj, hl, rfl⟩, hviewu, fun x hx => (hviewu x).mp hx,
          by simp, ?_⟩
        · rw [SRPT_plus_PS.schedule, hj]
          dsimp only
          rw [hl]
          rfl
        · intro hv
          refine (hv ?_).elim
          show (SRPT_plus_PS.update t s).jobs.map Prod.snd ++
            (SRPT_plus_PS.update t s).late = []
          rw [hj, hl]
          rfl
      | cons l0 lrest =>
        refine ⟨SRPT_plus_PS.update t s,
          equalShares (SRPT_plus_PS.update t s).late, ?_, hInvu,
          Or.inr (Or.inr ⟨hj, rfl⟩), hviewu, fun x hx => (hviewu x).mp hx,
          ?_, ?_⟩
        · rw [SRPT_plus_PS.schedule, hj]
          dsimp only
          rw [isEmpty_false_of_ne_nil (by rw [hl]; exact List.cons_ne_nil _ _)]
          rw [if_neg (by simp)]
        · intro p hp
          refine ⟨?_, equalShares_share_ne_zero hp⟩
          show p.1 ∈ (SRPT_plus_PS.update t s).jobs.map Prod.snd ++
            (SRPT_plus_PS.update t s).late
          exact List.mem_append.mpr (Or.inr (mem_of_mem_equalShares hp))
        · intro _
          exact equalShares_ne_nil (by rw [hl]; exact List.cons_ne_nil _ _)
    | cons p rest =>
      obtain ⟨r, h⟩ := p
      refine ⟨SRPT_plus_PS.update t s,
        equalShares (sinsert h (SRPT_plus_PS.update t s).late), ?_, hInvu,
        Or.inr (Or.inl ⟨r, h, rest, hj, rfl⟩), hviewu,
        fun x hx => (hviewu x).mp hx, ?_, ?_⟩
      · rw [SRPT_plus_PS.schedule, hj]
        dsimp only
        rw [isEmpty_false_of_ne_nil (sinsert_ne_nil _ _)]
        rw [if_neg (by simp)]
      · intro p hp
        refine ⟨?_, equalShares_share_ne_zero hp⟩
        show p.1 ∈ (SRPT_plus_PS.update t s).jobs.map Prod.snd ++
          (SRPT_plus_PS.update t s).late
        rcases mem_sinsert.mp (mem_of_mem_equalShares hp) with hph | hpl
        · refine List.mem_append.mpr (Or.inl ?_)
          rw [hj, List.map_cons, hph]
          exact List.mem_cons_self _ _
        · exact List.mem_append.mpr (Or.inr hpl)
      · intro _
        exact equalShares_ne_nil (sinsert_ne_nil _ _)
  hdeq := by
    intro t j s a hInv hSP hj
    have hInvu := SRPT_plus_PS.update_nodup t s hInv
    have hviewu := SRPT_plus_PS.update_view_mem t s
    by_cases hjl : j ∈ (SRPT_plus_PS.update t s).late
    · -- the job is late: remove it from the late set
      obtain ⟨hnd_ids, hnd_late, hdisj⟩ := List.nodup_append.mp hInvu
      have hjids : j ∉ (SRPT_plus_PS.update t s).jobs.map Prod.snd :=
        fun hc => hdisj hc hjl
      refine ⟨{ SRPT_plus_PS.update t s with
          late := (SRPT_plus_PS.update t s).late.erase j }, ?_, ?_, ?_, ?_⟩
      · rw [SRPT_plus_PS.dequeue, if_pos hjl]
      · show ((SRPT_plus_PS.update t s).jobs.map Prod.snd ++
          (SRPT_plus_PS.update t s).late.erase j).Nodup
        exact hInvu.sublist
          (((SRPT_plus_PS.update t s).late.erase_sublist j).append_left _)
      · intro x
        show x ∈ (SRPT_plus_PS.update t s).jobs.map Prod.snd ++
            (SRPT_plus_PS.update t s).late.erase j ↔ _
        rw [List.mem_append, List.Nodup.mem_erase_iff hnd_late]
        constructor
        · rintro (hx | ⟨hne, hx⟩)
          · exact ⟨(hviewu x).mp (List.mem_append.mpr (Or.inl hx)),
              fun he => hjids (he ▸ hx)⟩
          · exact ⟨(hviewu x).mp (List.mem_append.mpr (Or.inr hx)), hne⟩
        · rintro ⟨hx, hne⟩
          rcases List.mem_append.mp ((hviewu x).mpr hx) with hx' | hx'
          · exact Or.inl hx'
          · exact Or.inr ⟨hne, hx'⟩
      · intro x hx
        rcases List.mem_append.mp hx with hx' | hx'
        · exact (hviewu x).mp (List.mem_append.mpr (Or.inl hx'))
        · exact (hviewu x).mp (List.mem_append.mpr
            (Or.inr (List.mem_of_mem_erase hx')))
    · -- the job is not late: it must be the scheduled heap head
      rcases hSP with ⟨_, _, rfl⟩ | ⟨r, h, rest, hjobs, rfl⟩ | ⟨_, rfl⟩
      · cases hj
      · rw [akeys_equalShares] at hj
        rcases mem_sinsert.mp hj with rfl | hjlate
        · rcases SRPT_plus_PS.update_head_or_late t s r j rest hjobs with
            ⟨r', rest2, hju⟩ | hlate2
          · obtain ⟨⟨top, rest3⟩, hp⟩ := heappop_isSome
              (show (SRPT_plus_PS.update t s).jobs ≠ [] by
                rw [hju]; exact List.cons_ne_nil _ _)
            obtain ⟨hhead, hmset⟩ := heappop_eq_some hp
            have htop : top = (r', j) := by
              rw [hju] at hhead
              simpa using hhead.symm
            subst htop
            have hids3 : ((rest3.map Prod.snd : List Jobid) : Multiset Jobid) =
                ↑(rest2.map Prod.snd) := by
              rw [hju] at hmset
              have h2 := congrArg (Multiset.map Prod.snd) hmset
              rw [Multiset.map_add, Multiset.map_coe, Multiset.map_coe] at h2
              simp only [Multiset.map_singleton, List.map_cons,
                ← Multiset.cons_coe] at h2
              rw [add_singleton_eq] at h2
              exact (Multiset.cons_inj_right j).mp h2
            have hperm := Multiset.coe_eq_coe.mp hids3
            have hidsu : (SRPT_plus_PS.update t s).jobs.map Prod.snd =
                j :: rest2.map Prod.snd := by
              rw [hju]; rfl
            rw [hidsu] at hInvu
            rw [List.cons_append] at hInvu
            obtain ⟨hjout, hnd_tail⟩ := List.nodup_cons.mp hInvu
            refine ⟨{ SRPT_plus_PS.update t s with jobs := rest3 }, ?_, ?_,
              ?_, ?_⟩
            · rw [SRPT_plus_PS.dequeue, if_neg hjl, hju]
              rw [hju] at hp
              dsimp only
              rw [if_pos rfl, hp]
            · show (rest3.map Prod.snd ++
                (SRPT_plus_PS.update t s).late).Nodup
              exact ((hperm.append_right _).nodup_iff).mpr hnd_tail
            · intro x
              show x ∈ rest3.map Prod.snd ++
                  (SRPT_plus_PS.update t s).late ↔ _
              rw [(hperm.append_right _).mem_iff]
              constructor
              · intro hx
                refine ⟨(hviewu x).mp ?_, fun he => hjout (he ▸ hx)⟩
                rw [hidsu, List.cons_append]
                exact List.mem_cons_of_mem _ hx
              · rintro ⟨hx, hne⟩
                have hx2 := (hviewu x).mpr hx
                rw [hidsu, List.cons_append] at hx2
                rcases List.mem_cons.mp hx2 with he | hx3
                · exact absurd he hne
                · exact hx3
            · intro x hx
              have hx2 : x ∈ rest2.map Prod.snd ++
                  (SRPT_plus_PS.update t s).late :=
                (hperm.append_right _).mem_iff.mp hx
              refine (hviewu x).mp ?_
              rw [hidsu, List.cons_append]
              exact List.mem_cons_of_mem _ hx2
          · exact absurd hlate2 hjl
        · exact absurd (SRPT_plus_PS.update_late_mono t s j hjlate) hjl
      · rw [akeys_equalShares] at hj
        exact absurd (SRPT_plus_PS.update_late_mono t s j hj) hjl

theorem FSP.lateAdd_mem {j x : Jobid} {l : List Jobid} :
    x ∈ FSP.lateAdd j l ↔ x = j ∨ x ∈ l := by
  rw [FSP.lateAdd]
  by_cases hj : j ∈ l
  · rw [if_pos hj]
    constructor
    · exact Or.inr
    · rintro (rfl | hx)
      · exact hj
      · exact hx
  · rw [if_neg hj, List.mem_append, List.mem_singleton]
    tauto

theorem FSP.lateAdd_nodup {j : Jobid} {l : List Jobid} (h : l.Nodup) :
    (FSP.lateAdd j l).Nodup := by
  rw [FSP.lateAdd]
  by_cases hj : j ∈ l
  · rw [if_pos hj]; exact h
  · rw [if_neg hj, List.nodup_append]
    refine ⟨h, List.nodup_singleton j, ?_⟩
    intro a ha hb
    rw [List.mem_singleton] at hb
    subst hb
    exact hj ha

theorem FSP.lateFold_mem (running : List Jobid) :
    ∀ (fin : List (ℚ × Jobid)) (acc : List Jobid) (x : Jobid),
      x ∈ fin.foldl
          (fun l e => if e.2 ∈ running then FSP.lateAdd e.2 l else l) acc ↔
        x ∈ acc ∨ ∃ e ∈ fin, x = e.2 ∧ e.2 ∈ running
  | [], acc, x => by simp
  | e :: fin, acc, x => by
    rw [List.foldl_cons]
    by_cases hr : e.2 ∈ running
    · rw [if_pos hr, FSP.lateFold_mem running fin (FSP.lateAdd e.2 acc) x,
        FSP.lateAdd_mem]
      constructor
      · rintro ((rfl | hx) | ⟨e', he', hx, hr'⟩)
        · exact Or.inr ⟨e, by simp, rfl, hr⟩
        · exact Or.inl hx
        · exact Or.inr ⟨e', by simp [he'], hx, hr'⟩
      · rintro (hx | ⟨e', he', hx, hr'⟩)
        · exact Or.inl (Or.inr hx)
        · rcases List.mem_cons.mp he' with rfl | he2
          · exact Or.inl (Or.inl hx)
          · exact Or.inr ⟨e', he2, hx, hr'⟩
    · rw [if_neg hr, FSP.lateFold_mem running fin acc x]
      constructor
      · rintro (hx | ⟨e', he', hx, hr'⟩)
        · exact Or.inl hx
        · exact Or.inr ⟨e', by simp [he'], hx, hr'⟩
      · rintro (hx | ⟨e', he', hx, hr'⟩)
        · exact Or.inl hx
        · rcases List.mem_cons.mp he' with rfl | he2
          · exact absurd hr' hr
          · exact Or.inr ⟨e', he2, hx, hr'⟩

theorem FSP.lateFold_nodup (running : List Jobid) :
    ∀ (fin : List (ℚ × Jobid)) (acc : List Jobid), acc.Nodup →
      (fin.foldl
        (fun l e => if e.2 ∈ running then FSP.lateAdd e.2 l else l)
        acc).Nodup
  | [], _, h => h
  | e :: fin, acc, h => by
    rw [List.foldl_cons]
    by_cases hr : e.2 ∈ running
    · rw [if_pos hr]
      exact FSP.lateFold_nodup running fin _ (FSP.lateAdd_nodup h)
    · rw [if_neg hr]
      exact FSP.lateFold_nodup running fin acc h

theorem insortQ_mem {x e : ℚ × Jobid} :
    ∀ {l : List (ℚ × Jobid)}, x ∈ FSP.insortQ e l ↔ x = e ∨ x ∈ l
  | [] => by simp [FSP.insortQ]
  | h :: t => by
    rw [FSP.insortQ]
    cases hlt : entryLt e h
    · rw [if_neg (by simp [hlt])]
      simp only [List.mem_cons, insortQ_mem (l := t)]
      tauto
    · rw [if_pos (by simp [hlt])]
      simp only [List.mem_cons]

/-- Decomposition of `FSP.update`: the virtual queue splits into the finished
prefix (folded into `late`) and the surviving suffix (debited, ids kept);
`running` is untouched. -/
theorem FSP.update_decomp (t : Time) (s : FSP.State) :
    ∃ fin rest, s.queue = fin ++ rest ∧
      (FSP.update t s).late = fin.foldl
        (fun l e => if e.2 ∈ s.running then FSP.lateAdd e.2 l else l)
        s.late ∧
      (FSP.update t s).queue.map Prod.snd = rest.map Prod.snd ∧
      (FSP.update t s).running = s.running := by
  obtain ⟨qu, la, ru, lt0, ep⟩ := s
  cases qu with
  | nil => exact ⟨[], [], rfl, rfl, rfl, rfl⟩
  | cons x q =>
    have hupd : FSP.update t ⟨x :: q, la, ru, lt0, ep⟩ =
        { queue := if 0 < (t - lt0) / (((x :: q).length : ℚ))
            then ((x :: q).dropWhile
              (fun e => decide (e.1 ≤ (t - lt0) / (((x :: q).length : ℚ)) + ep))).map
              (fun e => (e.1 - (t - lt0) / (((x :: q).length : ℚ)), e.2))
            else (x :: q).dropWhile
              (fun e => decide (e.1 ≤ (t - lt0) / (((x :: q).length : ℚ)) + ep)),
          late := ((x :: q).takeWhile
            (fun e => decide (e.1 ≤ (t - lt0) / (((x :: q).length : ℚ)) + ep))).foldl
            (fun l e => if e.2 ∈ ru then FSP.lateAdd e.2 l else l) la,
          running := ru, last_t := t, eps := ep } := rfl
    refine ⟨(x :: q).takeWhile
        (fun e => decide (e.1 ≤ (t - lt0) / (((x :: q).length : ℚ)) + ep)),
      (x :: q).dropWhile
        (fun e => decide (e.1 ≤ (t - lt0) / (((x :: q).length : ℚ)) + ep)),
      (List.takeWhile_append_dropWhile _ _).symm, ?_, ?_, ?_⟩
    · rw [hupd]
    · rw [hupd]
      dsimp only
      split
      · rw [List.map_map]
        rfl
      · rfl
    · rw [hupd]

theorem FSP.update_running (t : Time) (s : FSP.State) :
    (FSP.update t s).running = s.running := by
  obtain ⟨_, _, _, _, _, hru⟩ := FSP.update_decomp t s
  exact hru

/-- The FSP state invariant: `running` is a sorted set, `late` is a
duplicate-free subset of `running`, and every running job has a virtual-queue
entry or is late. -/
def FSP.StInv (s : FSP.State) : Prop :=
  s.running.Sorted (· < ·) ∧ (∀ x ∈ s.late, x ∈ s.running) ∧
    s.late.Nodup ∧
    (∀ x ∈ s.running, x ∈ s.queue.map Prod.snd ∨ x ∈ s.late)

theorem FSP.update_StInv (t : Time) (s : FSP.State) (h : FSP.StInv s) :
    FSP.StInv (FSP.update t s) := by
  obtain ⟨hsort, hlr, hlnd, hrq⟩ := h
  obtain ⟨fin, rest, hsplit, hlate, hqid, hru⟩ := FSP.update_decomp t s
  refine ⟨by rw [hru]; exact hsort, ?_, ?_, ?_⟩
  · intro x hx
    rw [hlate, FSP.lateFold_mem] at hx
    rw [hru]
    rcases hx with hx | ⟨e, _, rfl, hr⟩
    · exact hlr x hx
    · exact hr
  · rw [hlate]
    exact FSP.lateFold_nodup _ _ _ hlnd
  · intro x hx
    rw [hru] at hx
    rcases hrq x hx with hq | hl
    · rw [hsplit, List.map_append, List.mem_append] at hq
      rcases hq with hq | hq
      · right
        rw [hlate, FSP.lateFold_mem]
        obtain ⟨e, he, rfl⟩ := List.mem_map.mp hq
        exact Or.inr ⟨e, he, rfl, hx⟩
      · left
        rw [hqid]
        exact hq
    · right
      rw [hlate, FSP.lateFold_mem]
      exact Or.inl hl

theorem FSP.update_late_subset (t : Time) (s : FSP.State) :
    ∀ x ∈ s.late, x ∈ (FSP.update t s).late := by
  obtain ⟨fin, rest, hsplit, hlate, hqid, hru⟩ := FSP.update_decomp t s
  intro x hx
  rw [hlate, FSP.lateFold_mem]
  exact Or.inl hx

/-- The FSP policy satisfies the driver laws: its view is the `running`
set. -/
def FSP.laws : PolicyLaws FSP.enqueue FSP.dequeue FSP.schedule where
  Inv := FSP.StInv
  view s := s.running
  seen s := s.running
  SchedP s a := (a = [] ∧ s.running = []) ∨
    ∃ h, a = [(h, 1)] ∧ h ∈ s.running
  view_seen := fun _ _ _ hx => hx
  henq := by
    intro t j sz s hs hj
    obtain ⟨hsortU, hlrU, hlndU, hrqU⟩ := FSP.update_StInv t s hs
    have hru := FSP.update_running t s
    refine ⟨⟨?_, ?_, hlndU, ?_⟩, ?_, ?_⟩
    · show (sinsert j (FSP.update t s).running).Sorted (· < ·)
      exact sorted_sinsert hsortU
    · intro x hx
      show x ∈ sinsert j (FSP.update t s).running
      exact mem_sinsert.mpr (Or.inr (hlrU x hx))
    · intro x hx
      have hx' : x ∈ sinsert j (FSP.update t s).running := hx
      rcases mem_sinsert.mp hx' with rfl | hx2
      · left
        show x ∈ (FSP.insortQ (sz, x) (FSP.update t s).queue).map Prod.snd
        exact List.mem_map.mpr ⟨(sz, x), insortQ_mem.mpr (Or.inl rfl), rfl⟩
      · rcases hrqU x hx2 with hq | hl
        · left
          show x ∈ (FSP.insortQ (sz, j) (FSP.update t s).queue).map Prod.snd
          obtain ⟨e, he, rfl⟩ := List.mem_map.mp hq
          exact List.mem_map.mpr ⟨e, insortQ_mem.mpr (Or.inr he), rfl⟩
        · exact Or.inr hl
    · intro x
      show x ∈ sinsert j (FSP.update t s).running ↔ x = j ∨ x ∈ s.running
      rw [mem_sinsert, hru]
    · intro x hx
      have hx' : x ∈ sinsert j (FSP.update t s).running := hx
      rw [mem_sinsert, hru] at hx'
      exact hx'
  hsch := by
    intro t s hs
    have hInvU := FSP.update_StInv t s hs
    obtain ⟨hsortU, hlrU, hlndU, hrqU⟩ := FSP.update_StInv t s hs
    have hru := FSP.update_running t s
    have hviewu : ∀ x, x ∈ (FSP.update t s).running ↔ x ∈ s.running := by
      intro x; rw [hru]
    cases hl : (FSP.update t s).late with
    | cons j0 lrest =>
      refine ⟨FSP.update t s, [(j0, 1)], ?_, hInvU,
        Or.inr ⟨j0, rfl, hlrU j0 (by rw [hl]; simp)⟩, hviewu,
        fun x hx => (hviewu x).mp hx, ?_, fun _ => by simp⟩
      · rw [FSP.schedule, hl]
      · intro p hp
        rw [List.mem_singleton] at hp
        subst hp
        exact ⟨hlrU j0 (by rw [hl]; simp), one_ne_zero⟩
    | nil =>
      cases hre : (FSP.update t s).running.isEmpty with
      | true =>
        have hrn : (FSP.update t s).running = [] := List.isEmpty_iff.mp hre
        refine ⟨FSP.update t s, [], ?_, hInvU, Or.inl ⟨rfl, hrn⟩, hviewu,
          fun x hx => (hviewu x).mp hx, by simp, ?_⟩
        · rw [FSP.schedule, hl]
          dsimp only
          rw [if_pos hre]
        · intro hv
          exact (hv hrn).elim
      | false =>
        have hrn : (FSP.update t s).running ≠ [] := by
          intro hn
          rw [hn] at hre
          cases hre
        obtain ⟨x0, hx0⟩ := List.exists_mem_of_ne_nil _ hrn
        have hq0 : x0 ∈ (FSP.update t s).queue.map Prod.snd := by
          rcases hrqU x0 hx0 with hq | hlx
          · exact hq
          · rw [hl] at hlx
            cases hlx
        obtain ⟨e0, he0, he0x⟩ := List.mem_map.mp hq0
        have hfindSome : ((FSP.update t s).queue.find?
            (fun e => decide (e.2 ∈ (FSP.update t s).running))).isSome := by
          rw [List.find?_isSome]
          exact ⟨e0, he0, by rw [decide_eq_true_iff, he0x]; exact hx0⟩
        obtain ⟨e, hfind⟩ := Option.isSome_iff_exists.mp hfindSome
        have hmem : e.2 ∈ (FSP.update t s).running := by
          have := List.find?_some hfind
          rwa [decide_eq_true_iff] at this
        refine ⟨FSP.update t s, [(e.2, 1)], ?_, hInvU,
          Or.inr ⟨e.2, rfl, hmem⟩, hviewu, fun x hx => (hviewu x).mp hx,
          ?_, fun _ => by simp⟩
        · rw [FSP.schedule, hl]
          dsimp only
          rw [if_neg (by rw [hre]; simp), hfind]
        · intro p hp
          rw [List.mem_singleton] at hp
          subst hp
          exact ⟨hmem, one_ne_zero⟩
  hdeq := by
    intro t j s a hInv hSP hj
    obtain ⟨hsort, hlr, hlnd, hrq⟩ := hInv
    have hrnd : s.running.Nodup := hsort.imp ne_of_lt
    rcases hSP with ⟨rfl, _⟩ | ⟨h, rfl, hh⟩
    · cases hj
    · have hjh : j = h := by simpa [akeys] using hj
      subst hjh
      refine ⟨{ s with
        running := s.running.erase j
        late := s.late.erase j }, ?_, ⟨?_, ?_, ?_, ?_⟩, ?_, ?_⟩
      · rw [FSP.dequeue, if_pos hh]
      · exact sorted_erase hsort
      · intro x hx
        show x ∈ s.running.erase j
        have hx1 : x ∈ s.late := List.mem_of_mem_erase hx
        have hxne : x ≠ j := (List.Nodup.mem_erase_iff hlnd).mp hx
          |>.1
        exact (List.Nodup.mem_erase_iff hrnd).mpr ⟨hxne, hlr x hx1⟩
      · exact hlnd.erase j
      · intro x hx
        have hx1 : x ∈ s.running := List.mem_of_mem_erase hx
        have hxne : x ≠ j := ((List.Nodup.mem_erase_iff hrnd).mp hx).1
        rcases hrq x hx1 with hq | hlx
        · exact Or.inl hq
        · exact Or.inr ((List.Nodup.mem_erase_iff hlnd).mpr ⟨hxne, hlx⟩)
      · intro x
        show x ∈ s.running.erase j ↔ _
        rw [List.Nodup.mem_erase_iff hrnd]
        tauto
      · intro x hx
        exact List.mem_of_mem_erase hx

/-- The FSP+PS policy satisfies the driver laws (it shares FSP's state,
`enqueue`, `dequeue` and `update`; only `schedule` differs). -/
def FSP_plus_PS.laws :
    PolicyLaws FSP_plus_PS.enqueue FSP_plus_PS.dequeue
      FSP_plus_PS.schedule where
  Inv := FSP.StInv
  view s := s.running
  seen s := s.running
  SchedP s a := (a = [] ∧ s.running = []) ∨
    (∃ h, a = [(h, 1)] ∧ h ∈ s.running) ∨
    (a = equalShares s.late ∧ s.late ≠ [] ∧ ∀ x ∈ s.late, x ∈ s.running)
  view_seen := fun _ _ _ hx => hx
  henq := FSP.laws.henq
  hsch := by
    intro t s hs
    have hInvU := FSP.update_StInv t s hs
    obtain ⟨hsortU, hlrU, hlndU, hrqU⟩ := FSP.update_StInv t s hs
    have hru := FSP.update_running t s
    have hviewu : ∀ x, x ∈ (FSP.update t s).running ↔ x ∈ s.running := by
      intro x; rw [hru]
    cases hl : (FSP.update t s).late with
    | cons j0 lrest =>
      refine ⟨FSP.update t s, equalShares (FSP.update t s).late, ?_, hInvU,
        Or.inr (Or.inr ⟨rfl, by rw [hl]; exact List.cons_ne_nil _ _, hlrU⟩),
        hviewu, fun x hx => (hviewu x).mp hx, ?_, ?_⟩
      · rw [FSP_plus_PS.schedule, hl]
      · intro p hp
        exact ⟨hlrU p.1 (mem_of_mem_equalShares hp),
          equalShares_share_ne_zero hp⟩
      · intro _
        exact equalShares_ne_nil (by rw [hl]; exact List.cons_ne_nil _ _)
    | nil =>
      cases hre : (FSP.update t s).running.isEmpty with
      | true =>
        have hrn : (FSP.update t s).running = [] := List.isEmpty_iff.mp hre
        refine ⟨FSP.update t s, [], ?_, hInvU, Or.inl ⟨rfl, hrn⟩, hviewu,
          fun x hx => (hviewu x).mp hx, by simp, ?_⟩
        · rw [FSP_plus_PS.schedule, hl]
          dsimp only
          rw [if_pos hre]
        · intro hv
          exact (hv hrn).elim
      | false =>
        have hrn : (FSP.update t s).running ≠ [] := by
          intro hn
          rw [hn] at hre
          cases hre
        obtain ⟨x0, hx0⟩ := List.exists_mem_of_ne_nil _ hrn
        have hq0 : x0 ∈ (FSP.update t s).queue.map Prod.snd := by
          rcases hrqU x0 hx0 with hq | hlx
          · exact hq
          · rw [hl] at hlx
            cases hlx
        obtain ⟨e0, he0, he0x⟩ := List.mem_map.mp hq0
        have hfindSome : ((FSP.update t s).queue.find?
            (fun e => decide (e.2 ∈ (FSP.update t s).running))).isSome := by
          rw [List.find?_isSome]
          exact ⟨e0, he0, by rw [decide_eq_true_iff, he0x]; exact hx0⟩
        obtain ⟨e, hfind⟩ := Option.isSome_iff_exists.mp hfindSome
        have hmem : e.2 ∈ (FSP.update t s).running := by
          have := List.find?_some hfind
          rwa [decide_eq_true_iff] at this
        refine ⟨FSP.update t s, [(e.2, 1)], ?_, hInvU,
          Or.inr (Or.inl ⟨e.2, rfl, hmem⟩), hviewu,
          fun x hx => (hviewu x).mp hx, ?_, fun _ => by simp⟩
        · rw [FSP_plus_PS.schedule, hl]
          dsimp only
          rw [if_neg (by rw [hre]; simp), hfind]
        · intro p hp
          rw [List.mem_singleton] at hp
          subst hp
          exact ⟨hmem, one_ne_zero⟩
  hdeq := by
    intro t j s a hInv hSP hj
    obtain ⟨hsort, hlr, hlnd, hrq⟩ := hInv
    have hrnd : s.running.Nodup := hsort.imp ne_of_lt
    have hcore : j ∈ s.running →
        ∃ s2, FSP_plus_PS.dequeue t j s = .ok s2 ∧ FSP.StInv s2 ∧
          (∀ x, x ∈ s2.running ↔ x ∈ s.running ∧ x ≠ j) ∧
          (∀ x ∈ s2.running, x ∈ s.running) := by
      intro hh
      refine ⟨{ s with
        running := s.running.erase j
        late := s.late.erase j }, ?_, ⟨?_, ?_, ?_, ?_⟩, ?_, ?_⟩
      · show FSP.dequeue t j s = _
        rw [FSP.dequeue, if_pos hh]
      · exact sorted_erase hsort
      · intro x hx
        show x ∈ s.running.erase j
        have hx1 : x ∈ s.late := List.mem_of_mem_erase hx
        have hxne : x ≠ j := ((List.Nodup.mem_erase_iff hlnd).mp hx).1
        exact (List.Nodup.mem_erase_iff hrnd).mpr ⟨hxne, hlr x hx1⟩
      · exact hlnd.erase j
      · intro x hx
        have hx1 : x ∈ s.running := List.mem_of_mem_erase hx
        have hxne : x ≠ j := ((List.Nodup.mem_erase_iff hrnd).mp hx).1
        rcases hrq x hx1 with hq | hlx
        · exact Or.inl hq
        · exact Or.inr ((List.Nodup.mem_erase_iff hlnd).mpr ⟨hxne, hlx⟩)
      · intro x
        show x ∈ s.running.erase j ↔ _
        rw [List.Nodup.mem_erase_iff hrnd]
        tauto
      · intro x hx
        exact List.mem_of_mem_erase hx
    rcases hSP with ⟨rfl, _⟩ | ⟨h, rfl, hh⟩ | ⟨rfl, _, hlsub⟩
    · cases hj
    · have hjh : j = h := by simpa [akeys] using hj
      subst hjh
      exact hcore hh
    · rw [akeys_equalShares] at hj
      exact hcore (hlsub j hj)

/-- Every jobid the LAS state retains anywhere: the `attained` keys plus the
snapshotted `scheduled` group (whose members may have already departed). -/
def LAS.seenOf (s : LAS.State) : List Jobid :=
  akeys s.attained ++
    (match s.scheduled with
      | none => []
      | some (_, _, g) => g)

theorem LAS.bucket_subset_attained {s : LAS.State} (wq : LAS.WFq s)
    {att : ℕ} {v : List Jobid} {rest : List (ℕ × List Jobid)}
    (hq : s.queue = (att, v) :: rest) :
    ∀ x ∈ v, x ∈ akeys s.attained := by
  intro x hx
  have hv : alookup att s.queue = some v := by rw [hq, alookup, if_pos rfl]
  have hl := wq.lookup_att hv hx
  exact alookup_isSome_iff_mem_akeys.mp (by rw [hl]; rfl)

theorem LAS.attained_nil_of_queue_nil {s : LAS.State} (wq : LAS.WFq s)
    (hq : s.queue = []) : akeys s.attained = [] := by
  cases hne : akeys s.attained with
  | nil => rfl
  | cons k ks =>
    have hk : k ∈ akeys s.attained := by rw [hne]; simp
    have hsome := alookup_isSome_iff_mem_akeys.mpr hk
    cases hl : alookup k s.attained with
    | none => rw [hl] at hsome; cases hsome
    | some bk =>
      obtain ⟨v, hv, _⟩ := wq.att_lookup hl
      rw [hq, alookup] at hv
      cases hv

/-- The LAS policy satisfies the driver laws: its view is the `attained` key
set, under the LAS well-formedness invariant. -/
def LAS.laws : PolicyLaws LAS.enqueue LAS.dequeue LAS.schedule where
  Inv := LAS.WF
  view s := akeys s.attained
  seen := LAS.seenOf
  SchedP s a := ∀ x ∈ akeys a, x ∈ akeys s.attained
  view_seen := fun s _ x hx => List.mem_append.mpr (Or.inl hx)
  henq := by
    intro t j sz s hw hj
    rw [LAS.seenOf] at hj
    have hfresh : j ∉ akeys s.attained :=
      fun hc => hj (List.mem_append.mpr (Or.inl hc))
    have hg : ∀ b sv g, s.scheduled = some (b, sv, g) → j ∉ g := by
      intro b sv g hsc hc
      refine hj (List.mem_append.mpr (Or.inr ?_))
      rw [hsc]
      exact hc
    obtain ⟨hw2, hkeys⟩ := LAS.enqueue_WF hw t j sz hfresh hg
    have hsc2 : (LAS.enqueue t j sz s).scheduled = s.scheduled := rfl
    refine ⟨hw2, ?_, ?_⟩
    · intro x
      show x ∈ akeys (LAS.enqueue t j sz s).attained ↔ _
      rw [hkeys, List.mem_append, List.mem_singleton]
      tauto
    · intro x hx
      rw [LAS.seenOf, hsc2, hkeys] at hx
      rw [LAS.seenOf]
      rcases List.mem_append.mp hx with hx' | hx'
      · rcases List.mem_append.mp hx' with hx2 | hx2
        · exact Or.inr (List.mem_append.mpr (Or.inl hx2))
        · rw [List.mem_singleton] at hx2
          exact Or.inl hx2
      · exact Or.inr (List.mem_append.mpr (Or.inr hx'))
  hsch := by
    intro t s hw
    obtain ⟨s', a, hok, hw', hkeys, hcases⟩ := LAS.schedule_WF hw t
    refine ⟨s', a, hok, hw', ?_, ?_, ?_, ?_, ?_⟩
    · -- SchedP: every allocated jobid is attained
      intro x hx
      rcases hcases with ⟨_, rfl, _⟩ | ⟨att, v, rest, hq, _, rfl, _⟩
      · cases hx
      · rw [akeys_equalShares] at hx
        exact LAS.bucket_subset_attained hw'.1 hq x hx
    · intro x
      show x ∈ akeys s'.attained ↔ x ∈ akeys s.attained
      rw [hkeys]
    · intro x hx
      rw [LAS.seenOf] at hx
      rw [LAS.seenOf]
      rcases List.mem_append.mp hx with hx' | hx'
      · rw [hkeys] at hx'
        exact List.mem_append.mpr (Or.inl hx')
      · rcases hcases with ⟨_, _, hsc⟩ | ⟨att, v, rest, hq, _, _, hsc⟩
        · rw [hsc] at hx'
          cases hx'
        · rw [hsc] at hx'
          have := LAS.bucket_subset_attained hw'.1 hq x hx'
          rw [hkeys] at this
          exact List.mem_append.mpr (Or.inl this)
    · intro p hp
      rcases hcases with ⟨_, rfl, _⟩ | ⟨att, v, rest, hq, _, rfl, _⟩
      · cases hp
      · refine ⟨?_, equalShares_share_ne_zero hp⟩
        show p.1 ∈ akeys s'.attained
        exact LAS.bucket_subset_attained hw'.1 hq p.1
          (mem_of_mem_equalShares hp)
    · intro hv
      rcases hcases with ⟨hq, rfl, _⟩ | ⟨att, v, rest, hq, hvne, rfl, _⟩
      · exact (hv (LAS.attained_nil_of_queue_nil hw'.1 hq)).elim
      · exact equalShares_ne_nil hvne
  hdeq := by
    intro t j s a hw hSP hj
    have hjatt : j ∈ akeys s.attained := hSP j hj
    obtain ⟨s', hok, hw', hkeys, hsched, _, _⟩ := LAS.dequeue_WF hw t hjatt
    have hnd : (akeys s.attained).Nodup := hw.1.att_nodup
    refine ⟨s', hok, hw', ?_, ?_⟩
    · intro x
      show x ∈ akeys s'.attained ↔ _
      rw [hkeys, List.Nodup.mem_erase_iff hnd]
      tauto
    · intro x hx
      rw [LAS.seenOf, hsched] at hx
      rw [LAS.seenOf]
      rcases List.mem_append.mp hx with hx' | hx'
      · rw [hkeys] at hx'
        exact List.mem_append.mpr (Or.inl (List.mem_of_mem_erase hx'))
      · exact List.mem_append.mpr (Or.inr hx')

/-- The simulator driving the FIFO policy with the identity size
estimator. -/
def simFIFO (w : List (Jobid × Time × ℚ)) : Option SimResult :=
  simulator FIFO.enqueue FIFO.dequeue FIFO.schedule id FIFO.init w

/-- The simulator driving the SRPT policy with the identity size
estimator. -/
def simSRPT (w : List (Jobid × Time × ℚ)) : Option SimResult :=
  simulator SRPT.enqueue SRPT.dequeue SRPT.schedule id SRPT.init w

/-- The simulator driving the SRPT+PS policy with the identity size
estimator. -/
def simSRPT_plus_PS (w : List (Jobid × Time × ℚ)) : Option SimResult :=
  simulator SRPT_plus_PS.enqueue SRPT_plus_PS.dequeue SRPT_plus_PS.schedule
    id SRPT_plus_PS.init w

/-- The simulator driving the FSP policy with the identity size estimator. -/
def simFSP (w : List (Jobid × Time × ℚ)) : Option SimResult :=
  simulator FSP.enqueue FSP.dequeue FSP.schedule id FSP.init w

/-- The simulator driving the FSP+PS policy with the identity size
estimator. -/
def simFSP_plus_PS (w : List (Jobid × Time × ℚ)) : Option SimResult :=
  simulator FSP_plus_PS.enqueue FSP_plus_PS.dequeue FSP_plus_PS.schedule
    id FSP_plus_PS.init w

/-- The top-level driver run: for any policy obeying the laws, with an
initially empty view, the simulation of a duplicate-free workload returns,
`remaining` ends empty, and the emitted completions are exactly the workload's
jobids. -/
theorem simulator_terminates {σ : Type} {enq : Time → Jobid → ℚ → σ → σ}
    {deq : Time → Jobid → σ → Except PyErr σ}
    {sch : Time → σ → Except PyErr (σ × Alloc)} (L : PolicyLaws enq deq sch)
    (est : ℚ → ℚ) (start : σ) (hInv0 : L.Inv start)
    (hview0 : L.view start = []) (hseen0 : L.seen start = [])
    (w : List (Jobid × Time × ℚ)) (hnd : (w.map (fun x => x.1)).Nodup) :
    ∃ res, simulator enq deq sch est start w = some res ∧
      res.remaining = [] ∧
      ((res.completions.map Prod.snd : List Jobid) : Multiset Jobid) =
        ↑(w.map (fun x => x.1)) := by
  have harr : ∀ e ∈ heapOfWorkload w, isComp e = false :=
    fun e he => isComp_heapOfWorkload e he
  have harrPerm : (arrIds (heapOfWorkload w)).Perm (w.map (fun x => x.1)) := by
    have h1 := arrIds_perm (heapOfWorkload_perm w)
    rwa [arrIds_map_arr] at h1
  have hlen : (heapOfWorkload w).length = w.length := by
    rw [(heapOfWorkload_perm w).length_eq, List.length_map]
  have hmeas : evMeasure (heapOfWorkload w) +
      (akeys ([] : List (Jobid × ℚ))).length < 3 * w.length + 1 := by
    rw [evMeasure_all_arr harr, hlen]
    simp [akeys]
  have hinv : DriverInv L (heapOfWorkload w) [] [] start := by
    refine ⟨hInv0, ?_, by simp [akeys], by simp, ?_, ?_, ?_, ?_, fun _ => rfl⟩
    · intro x
      rw [hview0]
      show x ∈ ([] : List Jobid) ↔ x ∈ akeys ([] : List (Jobid × ℚ))
      simp [akeys]
    · intro e he
      exact harr e (List.mem_of_mem_tail he)
    · intro t j hhd
      have := harr _ (List.mem_of_mem_head? hhd)
      simp [isComp] at this
    · intro t j sz hmem
      rw [hseen0]
      simp
    · exact harrPerm.nodup_iff.mpr hnd
  obtain ⟨res, s', hrun, hremnil, hcnt⟩ :=
    simLoop_terminates L est (3 * w.length + 1) (heapOfWorkload w) [] []
      start 0 [] [] hmeas hinv
  refine ⟨res, ?_, hremnil, ?_⟩
  · rw [simulator, hrun]
    rfl
  · rw [Multiset.ext]
    intro x
    rw [Multiset.coe_count, Multiset.coe_count, hcnt x]
    simp only [List.map_nil, List.count_nil, akeys, Nat.zero_add]
    rw [harrPerm.count_eq]

/-- C1: for every finite workload with unique jobids, nondecreasing arrival
times and positive true sizes, and for every policy of the family (driven
with the identity size estimator), the driver's main loop terminates with
`remaining` empty and a COMPLETE emitted for exactly the admitted jobs, so
the simulator's final assertion holds. -/
theorem C1_simulator_work_conservation (w : List (Jobid × Time × ℚ))
    (hnd : (w.map (fun x => x.1)).Nodup)
    (hsorted : (w.map (fun x => x.2.1)).Sorted (· ≤ ·))
    (hpos : ∀ x ∈ w, 0 < x.2.2) :
    (∃ res, simPS w = some res ∧ res.remaining = [] ∧
      ((res.completions.map Prod.snd : List Jobid) : Multiset Jobid) =
        ↑(w.map (fun x => x.1))) ∧
    (∃ res, simFIFO w = some res ∧ res.remaining = [] ∧
      ((res.completions.map Prod.snd : List Jobid) : Multiset Jobid) =
        ↑(w.map (fun x => x.1))) ∧
    (∃ res, simSRPT w = some res ∧ res.remaining = [] ∧
      ((res.completions.map Prod.snd : List Jobid) : Multiset Jobid) =
        ↑(w.map (fun x => x.1))) ∧
    (∃ res, simSRPT_plus_PS w = some res ∧ res.remaining = [] ∧
      ((res.completions.map Prod.snd : List Jobid) : Multiset Jobid) =
        ↑(w.map (fun x => x.1))) ∧
    (∃ res, simFSP w = some res ∧ res.remaining = [] ∧
      ((res.completions.map Prod.snd : List Jobid) : Multiset Jobid) =
        ↑(w.map (fun x => x.1))) ∧
    (∃ res, simFSP_plus_PS w = some res ∧ res.remaining = [] ∧
      ((res.completions.map Prod.snd : List Jobid) : Multiset Jobid) =
        ↑(w.map (fun x => x.1))) ∧
    (∃ res, simLAS w = some res ∧ res.remaining = [] ∧
      ((res.completions.map Prod.snd : List Jobid) : Multiset Jobid) =
        ↑(w.map (fun x => x.1))) := by
  refine ⟨?_, ?_, ?_, ?_, ?_, ?_, ?_⟩
  · exact simulator_terminates PS.laws id PS.init List.sorted_nil rfl rfl w hnd
  · exact simulator_terminates FIFO.laws id FIFO.init List.nodup_nil rfl rfl
      w hnd
  · exact simulator_terminates SRPT.laws id SRPT.init List.nodup_nil rfl rfl
      w hnd
  · exact simulator_terminates SRPT_plus_PS.laws id SRPT_plus_PS.init
      List.nodup_nil rfl rfl w hnd
  · exact simulator_terminates FSP.laws id FSP.init
      ⟨List.sorted_nil, fun x hx => absurd hx (List.not_mem_nil x),
        List.nodup_nil, fun x hx => absurd hx (List.not_mem_nil x)⟩
      rfl rfl w hnd
  · exact simulator_terminates FSP_plus_PS.laws id FSP_plus_PS.init
      ⟨List.sorted_nil, fun x hx => absurd hx (List.not_mem_nil x),
        List.nodup_nil, fun x hx => absurd hx (List.not_mem_nil x)⟩
      rfl rfl w hnd
  · exact simulator_terminates LAS.laws id LAS.init
      (show LAS.WF LAS.init by decide) rfl rfl w hnd

/-- C1, witness: the two-job workload `[(1, 0, 2), (2, 0, 1)]` (unique ids,
nondecreasing arrivals, positive sizes). -/
theorem C1_simulator_work_conservation_witness :
    (∃ res, simPS [(1, 0, 2), (2, 0, 1)] = some res ∧ res.remaining = [] ∧
      ((res.completions.map Prod.snd : List Jobid) : Multiset Jobid) =
        ↑(([(1, 0, 2), (2, 0, 1)] : List (Jobid × Time × ℚ)).map
          (fun x => x.1))) ∧
    (∃ res, simFIFO [(1, 0, 2), (2, 0, 1)] = some res ∧ res.remaining = [] ∧
      ((res.completions.map Prod.snd : List Jobid) : Multiset Jobid) =
        ↑(([(1, 0, 2), (2, 0, 1)] : List (Jobid × Time × ℚ)).map
          (fun x => x.1))) ∧
    (∃ res, simSRPT [(1, 0, 2), (2, 0, 1)] = some res ∧ res.remaining = [] ∧
      ((res.completions.map Prod.snd : List Jobid) : Multiset Jobid) =
        ↑(([(1, 0, 2), (2, 0, 1)] : List (Jobid × Time × ℚ)).map
          (fun x => x.1))) ∧
    (∃ res, simSRPT_plus_PS [(1, 0, 2), (2, 0, 1)] = some res ∧
      res.remaining = [] ∧
      ((res.completions.map Prod.snd : List Jobid) : Multiset Jobid) =
        ↑(([(1, 0, 2), (2, 0, 1)] : List (Jobid × Time × ℚ)).map
          (fun x => x.1))) ∧
    (∃ res, simFSP [(1, 0, 2), (2, 0, 1)] = some res ∧ res.remaining = [] ∧
      ((res.completions.map Prod.snd : List Jobid) : Multiset Jobid) =
        ↑(([(1, 0, 2), (2, 0, 1)] : List (Jobid × Time × ℚ)).map
          (fun x => x.1))) ∧
    (∃ res, simFSP_plus_PS [(1, 0, 2), (2, 0, 1)] = some res ∧
      res.remaining = [] ∧
      ((res.completions.map Prod.snd : List Jobid) : Multiset Jobid) =
        ↑(([(1, 0, 2), (2, 0, 1)] : List (Jobid × Time × ℚ)).map
          (fun x => x.1))) ∧
    (∃ res, simLAS [(1, 0, 2), (2, 0, 1)] = some res ∧ res.remaining = [] ∧
      ((res.completions.map Prod.snd : List Jobid) : Multiset Jobid) =
        ↑(([(1, 0, 2), (2, 0, 1)] : List (Jobid × Time × ℚ)).map
          (fun x => x.1))) :=
  C1_simulator_work_conservation [(1, 0, 2), (2, 0, 1)] (by decide)
    (by with_unfolding_all decide) (by with_unfolding_all decide)

/-! ## Claim C9: dequeuing a missing job fails in every policy -/

theorem SRPT_plus_PS.dequeue_absent_srptps (t : Time) (j : Jobid)
    (s : SRPT_plus_PS.State) (hids : j ∉ s.jobs.map Prod.snd)
    (hlate : j ∉ s.late) : ∃ e, SRPT_plus_PS.dequeue t j s = .error e := by
  have hview := SRPT_plus_PS.update_mem t s j
  have habs : j ∉ (SRPT_plus_PS.update t s).jobs.map Prod.snd ∧
      j ∉ (SRPT_plus_PS.update t s).late := by
    constructor
    · intro hc
      rcases hview.mp (Or.inl hc) with hc' | hc'
      · exact hids hc'
      · exact hlate hc'
    · intro hc
      rcases hview.mp (Or.inr hc) with hc' | hc'
      · exact hids hc'
      · exact hlate hc'
  rw [SRPT_plus_PS.dequeue]
  rw [if_neg habs.2]
  cases hj : (SRPT_plus_PS.update t s).jobs with
  | nil => exact ⟨.indexError, rfl⟩
  | cons p rest =>
    obtain ⟨r0, j0⟩ := p
    have hj0 : j0 ∈ (SRPT_plus_PS.update t s).jobs.map Prod.snd := by
      rw [hj]; simp
    have : ¬ j = j0 := fun he => habs.1 (he ▸ hj0)
    refine ⟨.typeError, ?_⟩
    simp only [hj, if_neg this]

/-- C9: in every policy, `dequeue` with a jobid that is not present in the
policy's view raises an exception instead of returning normally (ValueError
for PS and FIFO, KeyError for the FSP family and LAS, and IndexError /
TypeError — the missing-`enumerate` crash — for the SRPT family). -/
theorem C9_missing_dequeue_fails :
    (∀ (t : Time) (j : Jobid) (s : PS.State), j ∉ s →
      PS.dequeue t j s = .error .valueError) ∧
    (∀ (t : Time) (j : Jobid) (s : FIFO.State), j ∉ s →
      FIFO.dequeue t j s = .error .valueError) ∧
    (∀ (t : Time) (j : Jobid) (s : SRPT.State), j ∉ s.jobs.map Prod.snd →
      ∃ e, SRPT.dequeue t j s = .error e) ∧
    (∀ (t : Time) (j : Jobid) (s : SRPT_plus_PS.State),
      j ∉ s.jobs.map Prod.snd → j ∉ s.late →
      ∃ e, SRPT_plus_PS.dequeue t j s = .error e) ∧
    (∀ (t : Time) (j : Jobid) (s : FSP.State), j ∉ s.running →
      FSP.dequeue t j s = .error .keyError) ∧
    (∀ (t : Time) (j : Jobid) (s : FSP.State), j ∉ s.running →
      FSP_plus_PS.dequeue t j s = .error .keyError) ∧
    (∀ (t : Time) (j : Jobid) (s : LAS.State), j ∉ akeys s.attained →
      LAS.dequeue t j s = .error .keyError) := by
  refine ⟨?_, ?_, SRPT.dequeue_absent, SRPT_plus_PS.dequeue_absent_srptps, ?_, ?_, ?_⟩
  · intro t j s h
    rw [PS.dequeue, if_neg h]
  · intro t j s h
    rw [FIFO.dequeue, if_neg h]
  · intro t j s h
    rw [FSP.dequeue, if_neg h]
  · intro t j s h
    rw [FSP_plus_PS.dequeue, FSP.dequeue, if_neg h]
  · intro t j s h
    rw [LAS.dequeue, alookup_eq_none_iff.mpr h]

/-- C9, witness: each conjunct evaluated at a concrete missing jobid. -/
theorem C9_missing_dequeue_fails_witness :
    PS.dequeue 0 5 [1, 2] = .error .valueError ∧
    FIFO.dequeue 0 5 [1, 2] = .error .valueError ∧
    (∃ e, SRPT.dequeue 0 5 ⟨[(3, 1)], 0⟩ = .error e) ∧
    (∃ e, SRPT_plus_PS.dequeue 0 5 ⟨[(3, 1)], 0, [4], 1 / 1000000⟩ = .error e) ∧
    FSP.dequeue 0 5 ⟨[(3, 1)], [], [1], 0, 1 / 1000000⟩ = .error .keyError ∧
    FSP_plus_PS.dequeue 0 5 ⟨[(3, 1)], [], [1], 0, 1 / 1000000⟩ = .error .keyError ∧
    LAS.dequeue 0 5 ⟨1 / 1000000, [(0, [1])], [(1, 0)], none, 0⟩ =
      .error .keyError :=
  ⟨C9_missing_dequeue_fails.1 0 5 [1, 2] (by decide),
    C9_missing_dequeue_fails.2.1 0 5 [1, 2] (by decide),
    C9_missing_dequeue_fails.2.2.1 0 5 ⟨[(3, 1)], 0⟩ (by decide),
    C9_missing_dequeue_fails.2.2.2.1 0 5 ⟨[(3, 1)], 0, [4], 1 / 1000000⟩
      (by decide) (by decide),
    C9_missing_dequeue_fails.2.2.2.2.1 0 5 ⟨[(3, 1)], [], [1], 0, 1 / 1000000⟩
      (by decide),
    C9_missing_dequeue_fails.2.2.2.2.2.1 0 5 ⟨[(3, 1)], [], [1], 0, 1 / 1000000⟩
      (by decide),
    C9_missing_dequeue_fails.2.2.2.2.2.2 0 5
      ⟨1 / 1000000, [(0, [1])], [(1, 0)], none, 0⟩ (by decide)⟩

/-! ## Scenario S1 (claim C7): PS on `[(A, 0, 2), (B, 0, 1)]`, with A = 0,
B = 1 -/

/-- C7, counterexample: on workload `[(A, 0, 2), (B, 0, 1)]` under PS with the
identity estimator the simulator does **not** emit the completions
`B@2, A@4` claimed by the spec (job A finishes at `t = 3`: it is served at
rate 1/2 on `(0, 2)` and rate 1 thereafter, so its 2 units of work are done
at 3). -/
theorem C7_counterexample :
    ¬ ((simPS [(0, 0, 2), (1, 0, 1)]).map SimResult.completions
        = some [(2, 1), (4, 0)]) := by
  with_unfolding_all decide

/-- C7, amended: PS on `[(A, 0, 2), (B, 0, 1)]` yields exactly the completions
`(2, B)` and `(3, A)`, in that order, together with the full allocation
history (1/2 each while both are present, then share 1 to A) and an empty
final `remaining`. -/
theorem C7_ps_scenario :
    simPS [(0, 0, 2), (1, 0, 1)] =
      some ⟨[(2, 1), (3, 0)], [],
        [[(0, 1)], [(0, 1/2), (1, 1/2)], [(0, 1)], []]⟩ := by
  with_unfolding_all rfl

/-! ## Scenario S5 (claim C8): LAS on `[(A, 0, 10), (B, 0, 1), (C, 0, 1)]`,
with A = 0, B = 1, C = 2 -/

/-- C8, counterexample: under LAS the simulator does **not** finish B and C at
`t = 2` as the spec claims.  All three jobs share the server at rate 1/3, so
the two 1-unit jobs need until `t = 3`. -/
theorem C8_counterexample :
    ¬ ((simLAS [(0, 0, 10), (1, 0, 1), (2, 0, 1)]).map SimResult.completions
        = some [(2, 1), (2, 2), (12, 0)]) := by
  with_unfolding_all decide

/-- C8, amended: LAS on `[(A, 0, 10), (B, 0, 1), (C, 0, 1)]` yields B and C
completing tied at `t = 3` and A at `t = 12`; the allocation in force on
`(0, 3)` (the one computed at the last `t = 0` event) gives all three jobs
share 1/3, and the allocation in force on `(3, 12)` gives A share 1. -/
theorem C8_las_scenario :
    simLAS [(0, 0, 10), (1, 0, 1), (2, 0, 1)] =
      some ⟨[(3, 1), (3, 2), (12, 0)], [],
        [[(0, 1)], [(0, 1/2), (1, 1/2)], [(0, 1/3), (1, 1/3), (2, 1/3)],
         [(0, 1/2), (2, 1/2)], [(0, 1)], []]⟩ := by
  with_unfolding_all rfl

/-! ## Claim C3: LAS idempotence -/

/-- **C3** (LAS idempotence): on a LAS state satisfying the run invariants -
well-formedness, no two adjacent occupied buckets above bucket 0, and bucket 1
occupied only as the recorded scheduled group - calling `schedule` twice at
the same time `t` with no intervening `enqueue`/`dequeue` returns the same
allocation both times and leaves the whole state, in particular every job's
attained-service bucket, unchanged by the second call. -/
theorem C3_las_schedule_idempotent {s : LAS.State} {t : Time}
    (w : LAS.WF s) (hadj : LAS.AdjInv s) (hone : LAS.OneInv s)
    {s1 s2 : LAS.State} {a1 a2 : Alloc}
    (h1 : LAS.schedule t s = .ok (s1, a1))
    (h2 : LAS.schedule t s1 = .ok (s2, a2)) :
    a2 = a1 ∧ s2 = s1 := by
  have hlast : s1.last_t = t := by
    rcases LAS.schedule_ok_cases h1 with ⟨hs1, _, _⟩ |
        ⟨att, v, rest, _, hs1, _⟩ <;>
      rw [hs1] <;> exact LAS.update_last_t t s
  obtain ⟨s1x, a1x, hschx, hwfx, hkeysx, hcasesx⟩ := LAS.schedule_WF w t
  rw [h1] at hschx
  injection hschx with hschx
  have hs1x : s1 = s1x := congrArg Prod.fst hschx
  have ha1x : a1 = a1x := congrArg Prod.snd hschx
  rw [← hs1x] at hwfx hcasesx
  rw [← ha1x] at hcasesx
  rcases hcasesx with ⟨hqnil, hanil, hscnone⟩ |
    ⟨att, v, rest, hqcons, hvne, haeq, hsced⟩
  · rw [LAS.schedule_fix_empty hqnil hscnone hlast] at h2
    injection h2 with h2
    constructor
    · have hsnd := congrArg Prod.snd h2
      dsimp only at hsnd
      rw [← hsnd, hanil]
    · have hfst := congrArg Prod.fst h2
      dsimp only at hfst
      exact hfst.symm
  · have hnadj : alookup (att + 1) s1.queue = none := by
      have hattsome : (alookup att s1.queue).isSome := by
        rw [hqcons, alookup, if_pos rfl]
        rfl
      rcases LAS.schedule_ok_cases h1 with ⟨hs1, _, _⟩ |
          ⟨att2, v2, rest2, _, hs1, _⟩ <;>
        rw [hs1] at hattsome ⊢ <;>
        exact LAS.update_no_adjacent w hadj hone t att hattsome
    rw [LAS.schedule_fix_cons hwfx hqcons hsced hlast hnadj] at h2
    injection h2 with h2
    constructor
    · have hsnd := congrArg Prod.snd h2
      dsimp only at hsnd
      rw [← hsnd, haeq]
    · have hfst := congrArg Prod.fst h2
      dsimp only at hfst
      exact hfst.symm

/-- A concrete well-formed LAS state for exercising idempotence: two jobs,
both at bucket 0, nothing scheduled yet. -/
def C3state : LAS.State :=
  ⟨1 / 1000000, [(0, [1, 2])], [(1, 0), (2, 0)], none, 0⟩

/-- The state after one `schedule 0` call on `C3state`. -/
def C3state1 : LAS.State :=
  ⟨1 / 1000000, [(0, [1, 2])], [(1, 0), (2, 0)],
    some (0, (2 : ℚ)⁻¹, [1, 2]), 0⟩

/-- Witness: the idempotence theorem applied to `C3state` at time 0, with
every hypothesis discharged by evaluation. -/
theorem C3_las_schedule_idempotent_witness :
    LAS.WF C3state ∧ LAS.AdjInv C3state ∧ LAS.OneInv C3state ∧
      LAS.schedule 0 C3state = .ok (C3state1, equalShares [1, 2]) ∧
      LAS.schedule 0 C3state1 = .ok (C3state1, equalShares [1, 2]) ∧
      (equalShares [1, 2] = equalShares [1, 2] ∧ C3state1 = C3state1) := by
  have hw : LAS.WF C3state := by decide
  have ha : LAS.AdjInv C3state := by decide
  have ho : LAS.OneInv C3state := by decide
  have h1 : LAS.schedule 0 C3state = .ok (C3state1, equalShares [1, 2]) := by
    with_unfolding_all rfl
  have h2 : LAS.schedule 0 C3state1 = .ok (C3state1, equalShares [1, 2]) := by
    with_unfolding_all rfl
  exact ⟨hw, ha, ho, h1, h2, C3_las_schedule_idempotent hw ha ho h1 h2⟩

end Schedsim
